import Mathlib

/-!
Bipartite matching engine of `script.js`.

A shallow embedding of the matching code of the visualisation script: the
module-level graph (`leftNodes`, `rightNodes`, `edges`), the `Map`-based
matching, the single-path search (`findAugmentingPathDFS` / `dfsAugment`), the
phase search (`findMultiplePaths` / `dfsPath`, `findPathsSync` and `bfsPhase` /
`dfs`), the benchmark loops, the race steppers and the step controller (`executeStep`).

Conventions of the embedding.

* Node ids (the strings `'L0'`, `'R3'`, ... of the script) are natural numbers;
  the code only ever compares ids for equality.  `L i` and `R i` give the ids
  of the generated nodes.
* A node object is represented by its id; coordinates and the `type` tag are
  only read by the drawing code.  An edge keeps `from` and `to`; the flags
  `matched` and `highlighted` are only read by the drawing code.
* A JavaScript `Map` is an association list in insertion order with the
  methods `has`, `get`, `set` (`JMap`).  A `Set` is a list used through
  membership only.
* Recursion depth and `while` loops are bounded by a fuel argument.  A result
  `none` of a fuelled function means that no normal return was obtained
  (fuel ran out, or the script would throw a `TypeError`).
-/

namespace HopcroftKarp

/-! ## Data model -/

/-- Identifier of a node (`node.id`). -/
abbrev NodeId := Nat

/-- Id of the `i`-th generated left node, `'L' + i`. -/
def L (i : Nat) : NodeId := 2 * i

/-- Id of the `i`-th generated right node, `'R' + i`. -/
def R (i : Nat) : NodeId := 2 * i + 1

/-- An element of `edges`: `{ from, to }` (both names are reserved words here). -/
structure Edge where
  from_ : NodeId
  to_ : NodeId
deriving DecidableEq, Repr

/-- The module-level graph variables `leftNodes`, `rightNodes`, `edges`. -/
structure Graph where
  leftNodes : List NodeId
  rightNodes : List NodeId
  edges : List Edge
deriving DecidableEq, Repr

/-- A JavaScript `Map` keyed by node ids, in insertion order. -/
abbrev JMap (β : Type) := List (NodeId × β)

/-- `map.has(k)`. -/
def JMap.has {β : Type} (m : JMap β) (k : NodeId) : Bool :=
  m.any (fun kv => kv.1 == k)

/-- `map.get(k)`; `none` is `undefined`. -/
def JMap.get {β : Type} : JMap β → NodeId → Option β
  | [], _ => none
  | (k', v) :: rest, k => if k' == k then some v else JMap.get rest k

/-- `map.set(k, v)`: an existing key keeps its position, a new key goes last. -/
def JMap.set {β : Type} : JMap β → NodeId → β → JMap β
  | [], k, v => [(k, v)]
  | (k', v') :: rest, k, v =>
    if k' == k then (k, v) :: rest else (k', v') :: JMap.set rest k v

/-- The matching: a `Map` from left ids to right ids. -/
abbrev Matching := JMap NodeId

/-- A path: the array of node ids returned by the searches. -/
abbrev Path := List NodeId

/-! ## Shared helpers of the script -/

/-- `buildAdjList()`: for every edge, create the entry of `edge.from_` if it is
missing and push `edge.to` onto it. -/
def buildAdjList (edges : List Edge) : JMap (List NodeId) :=
  edges.foldl
    (fun adj edge =>
      let adj1 := if !adj.has edge.from_ then adj.set edge.from_ [] else adj
      adj1.set edge.from_ ((adj1.get edge.from_).getD [] ++ [edge.to_]))
    []

/-- `getMatchedNodeFrom(nodeId, testMatching)`: the partner stored under
`nodeId`, else the first key whose value is `nodeId`, else `null`. -/
def getMatchedNodeFrom (nodeId : NodeId) (testMatching : Matching) : Option NodeId :=
  if testMatching.has nodeId then testMatching.get nodeId
  else (testMatching.find? (fun kv => kv.2 == nodeId)).map (fun kv => kv.1)

/-- `getMatchedNode(nodeId)`, reading the module-level `matching`. -/
def getMatchedNode (matching : Matching) (nodeId : NodeId) : Option NodeId :=
  if matching.has nodeId then matching.get nodeId
  else (matching.find? (fun kv => kv.2 == nodeId)).map (fun kv => kv.1)

/-- The augment loop `for (i = 0; i < path.length - 1; i += 2)
matching.set(path[i], path[i + 1])`, as written in `applyPathSync`,
`applyPath` and inline in the benchmark loops and race steppers. -/
def applyPathSync : Matching → Path → Matching
  | m, a :: b :: rest => applyPathSync (m.set a b) rest
  | m, _ => m

/-- The loop `for (const path of paths) { augment loop }`. -/
def applyPaths (m : Matching) (paths : List Path) : Matching :=
  paths.foldl applyPathSync m

/-! ## Single-path search -/

/-- Outcome of a search call: the returned path (`none` is `null`) and the
`visited` / `used` set after the call. -/
abbrev SearchResult := Option Path × List NodeId

/-- The `for (const v of adjList.get(u))` loop of `dfsAugment`; `recur` is the
recursive call `dfsAugment(matchedTo, testMatching, visited, adjList, path)`
and `path` is the array after `path.push(u)`. -/
def dfsAugmentLoop (recur : NodeId → List NodeId → Path → Option SearchResult)
    (testMatching : Matching) (path : Path) :
    List NodeId → List NodeId → Option SearchResult
  | [], visited => some (none, visited)
  | v :: vs, visited =>
    match getMatchedNodeFrom v testMatching with
    | none => some (some (path ++ [v]), visited)
    | some matchedTo =>
      match recur matchedTo visited (path ++ [v]) with
      | none => none
      | some (some rest, visited1) => some (some rest, visited1)
      | some (none, visited1) => dfsAugmentLoop recur testMatching path vs visited1

/-- `dfsAugment(u, testMatching, visited, adjList, path)`.  `path` is the
content of the shared array on entry; every return of `null` leaves the array
as it was on entry, so the array is passed down as a value. -/
def dfsAugment (testMatching : Matching) (adjList : JMap (List NodeId)) :
    Nat → NodeId → List NodeId → Path → Option SearchResult
  | fuel, u, visited, path =>
    if visited.contains u then some (none, visited)
    else
      match fuel with
      | 0 => none
      | fuel1 + 1 =>
        match adjList.get u with
        | none => some (none, u :: visited)
        | some vs =>
          dfsAugmentLoop (fun w vis p => dfsAugment testMatching adjList fuel1 w vis p)
            testMatching (path ++ [u]) vs (u :: visited)

/-- The `for (const node of leftNodes)` loop of `findAugmentingPathDFS`. -/
def findAugmentingPathLoop (testMatching : Matching) (adjList : JMap (List NodeId))
    (fuel : Nat) : List NodeId → List NodeId → Option SearchResult
  | [], visited => some (none, visited)
  | node :: nodes, visited =>
    if !testMatching.has node then
      match dfsAugment testMatching adjList fuel node visited [] with
      | none => none
      | some (some path, visited1) => some (some path, visited1)
      | some (none, visited1) =>
        findAugmentingPathLoop testMatching adjList fuel nodes visited1
    else findAugmentingPathLoop testMatching adjList fuel nodes visited

/-- Recursion depth that the searches can need on `testMatching`: one frame
for the root and one for every distinct id occurring in the map. -/
def searchFuel (testMatching : Matching) : Nat := 2 * testMatching.length + 1

/-- `findAugmentingPathDFS(testMatching)`; the inner option is the returned
path or `null`. -/
def findAugmentingPathDFS (g : Graph) (testMatching : Matching) : Option (Option Path) :=
  (findAugmentingPathLoop testMatching (buildAdjList g.edges) (searchFuel testMatching)
    g.leftNodes []).map (fun r => r.1)

/-- State of a benchmark loop: whether the loop has exited, `iterations` and
`testMatching`. -/
structure LoopState where
  finished : Bool
  iterations : Nat
  testMatching : Matching
deriving DecidableEq, Repr

/-- The `while (true)` loop of `benchmarkNaiveGreedy`, started with
`iterations` and `testMatching`.  With the fuel spent the loop is still
running and the state at the loop head is returned with `finished = false`,
so `benchmarkNaiveGreedyLoop g k 0 []` is the state after `k` iterations. -/
def benchmarkNaiveGreedyLoop (g : Graph) : Nat → Nat → Matching → Option LoopState
  | 0, iterations, testMatching => some ⟨false, iterations, testMatching⟩
  | fuel + 1, iterations, testMatching =>
    match findAugmentingPathDFS g testMatching with
    | none => none
    | some none => some ⟨true, iterations + 1, testMatching⟩
    | some (some path) =>
      benchmarkNaiveGreedyLoop g fuel (iterations + 1) (applyPathSync testMatching path)

/-- Number of loop iterations granted to the benchmark loops: every iteration
but the last adds a left id to the keys of the matching. -/
def loopFuel (g : Graph) : Nat := g.leftNodes.length + 1

/-- `benchmarkNaiveGreedy()`: the returned iteration count. -/
def benchmarkNaiveGreedy (g : Graph) : Option Nat :=
  match benchmarkNaiveGreedyLoop g (loopFuel g) 0 [] with
  | some s => if s.finished then some s.iterations else none
  | none => none

/-- `benchmarkFordFulkerson()`. -/
def benchmarkFordFulkerson (g : Graph) : Option Nat :=
  benchmarkNaiveGreedy g

/-! ## Phase search -/

/-- Value of `level.get(u)` for a node that has a level.  Every id taken from
the queue was given a level when it was pushed. -/
def levelOf (level : JMap Nat) (u : NodeId) : Nat := (level.get u).getD 0

/-- The comparison `level.get(matchedTo) === level.get(u) + 2`; it is false
when either side is `undefined` / `NaN`. -/
def levelIsNext (level : JMap Nat) (matchedTo u : NodeId) : Bool :=
  match level.get matchedTo, level.get u with
  | some a, some b => a == b + 2
  | _, _ => false

/-- The `leftNodes.forEach` that seeds `level` and `queue` with the unmatched
left nodes. -/
def bfsInit (testMatching : Matching) (leftNodes : List NodeId) : JMap Nat × List NodeId :=
  leftNodes.foldl
    (fun st node =>
      if !testMatching.has node then (st.1.set node 0, st.2 ++ [node]) else st)
    ([], [])

/-- Body of `for (const v of adjList.get(u))` in the BFS of `findMultiplePaths`. -/
def bfsVisit (testMatching : Matching) (u : NodeId) (st : JMap Nat × List NodeId)
    (v : NodeId) : JMap Nat × List NodeId :=
  match getMatchedNodeFrom v testMatching with
  | none => if !st.1.has v then (st.1.set v (levelOf st.1 u + 1), st.2) else st
  | some matchedTo =>
    if !st.1.has matchedTo then
      (st.1.set matchedTo (levelOf st.1 u + 2), st.2 ++ [matchedTo])
    else st

/-- The `while (queue.length > 0)` loop of `findMultiplePaths`; returns the
final `level`. -/
def bfsLoop (testMatching : Matching) (adjList : JMap (List NodeId)) :
    Nat → JMap Nat → List NodeId → Option (JMap Nat)
  | _, level, [] => some level
  | 0, _, _ :: _ => none
  | fuel + 1, level, u :: queue =>
    match adjList.get u with
    | some vs =>
      let st := vs.foldl (bfsVisit testMatching u) (level, queue)
      bfsLoop testMatching adjList fuel st.1 st.2
    | none => bfsLoop testMatching adjList fuel level queue

/-- The `for (const v of adjList.get(u))` loop of `dfsPath`; `recur` is the
recursive call `dfsPath(matchedTo, level, used, adjList, testMatching)`. -/
def dfsPathLoop (recur : NodeId → List NodeId → Option SearchResult)
    (testMatching : Matching) (level : JMap Nat) (u : NodeId) :
    List NodeId → List NodeId → Option SearchResult
  | [], used => some (none, used)
  | v :: vs, used =>
    if !level.has v then dfsPathLoop recur testMatching level u vs used
    else
      match getMatchedNodeFrom v testMatching with
      | none => some (some [u, v], used)
      | some matchedTo =>
        if levelIsNext level matchedTo u then
          match recur matchedTo used with
          | none => none
          | some (some rest, used1) => some (some (u :: v :: rest), used1)
          | some (none, used1) => dfsPathLoop recur testMatching level u vs used1
        else dfsPathLoop recur testMatching level u vs used

/-- `dfsPath(u, level, used, adjList, testMatching)`. -/
def dfsPath (testMatching : Matching) (level : JMap Nat) (adjList : JMap (List NodeId)) :
    Nat → NodeId → List NodeId → Option SearchResult
  | fuel, u, used =>
    if used.contains u then some (none, used)
    else
      match fuel with
      | 0 => none
      | fuel1 + 1 =>
        match adjList.get u with
        | none => some (none, u :: used)
        | some vs =>
          dfsPathLoop (fun w us => dfsPath testMatching level adjList fuel1 w us)
            testMatching level u vs (u :: used)

/-- The final `for (const node of leftNodes)` loop of `findMultiplePaths`,
carrying `paths` and `used`. -/
def findMultiplePathsLoop (testMatching : Matching) (level : JMap Nat)
    (adjList : JMap (List NodeId)) (fuel : Nat) :
    List NodeId → List Path → List NodeId → Option (List Path × List NodeId)
  | [], paths, used => some (paths, used)
  | node :: nodes, paths, used =>
    if !testMatching.has node then
      match dfsPath testMatching level adjList fuel node used with
      | none => none
      | some (some path, used1) =>
        findMultiplePathsLoop testMatching level adjList fuel nodes (paths ++ [path]) used1
      | some (none, used1) =>
        findMultiplePathsLoop testMatching level adjList fuel nodes paths used1
    else findMultiplePathsLoop testMatching level adjList fuel nodes paths used

/-- Number of queue pops granted to the BFS: the seeded left nodes plus one
push for every distinct id occurring in the matching. -/
def bfsFuel (g : Graph) (testMatching : Matching) : Nat :=
  g.leftNodes.length + 2 * testMatching.length

/-- `findMultiplePaths(testMatching)`. -/
def findMultiplePaths (g : Graph) (testMatching : Matching) : Option (List Path) :=
  let adjList := buildAdjList g.edges
  let seed := bfsInit testMatching g.leftNodes
  match bfsLoop testMatching adjList (bfsFuel g testMatching) seed.1 seed.2 with
  | none => none
  | some level =>
    (findMultiplePathsLoop testMatching level adjList (searchFuel testMatching)
      g.leftNodes [] []).map (fun r => r.1)

/-- The `while (true)` loop of `benchmarkHopcroftKarp`; the fuel convention is
that of `benchmarkNaiveGreedyLoop`. -/
def benchmarkHopcroftKarpLoop (g : Graph) : Nat → Nat → Matching → Option LoopState
  | 0, iterations, testMatching => some ⟨false, iterations, testMatching⟩
  | fuel + 1, iterations, testMatching =>
    match findMultiplePaths g testMatching with
    | none => none
    | some paths =>
      if paths.length == 0 then some ⟨true, iterations + 1, testMatching⟩
      else benchmarkHopcroftKarpLoop g fuel (iterations + 1) (applyPaths testMatching paths)

/-- `benchmarkHopcroftKarp()`: the returned iteration count. -/
def benchmarkHopcroftKarp (g : Graph) : Option Nat :=
  match benchmarkHopcroftKarpLoop g (loopFuel g) 0 [] with
  | some s => if s.finished then some s.iterations else none
  | none => none

/-! ## Phase search of the step controller (`findPathsSync`, `dfs`) -/

/-- Body of `for (const v of adjList.get(u))` in the BFS of `findPathsSync`. -/
def bfsVisitSync (matching : Matching) (u : NodeId) (st : JMap Nat × List NodeId)
    (v : NodeId) : JMap Nat × List NodeId :=
  match getMatchedNode matching v with
  | none => if !st.1.has v then (st.1.set v (levelOf st.1 u + 1), st.2) else st
  | some matchedTo =>
    if !st.1.has matchedTo then
      (st.1.set matchedTo (levelOf st.1 u + 2), st.2 ++ [matchedTo])
    else st

/-- The `while (queue.length > 0)` loop of `findPathsSync`. -/
def bfsLoopSync (matching : Matching) (adjList : JMap (List NodeId)) :
    Nat → JMap Nat → List NodeId → Option (JMap Nat)
  | _, level, [] => some level
  | 0, _, _ :: _ => none
  | fuel + 1, level, u :: queue =>
    match adjList.get u with
    | some vs =>
      let st := vs.foldl (bfsVisitSync matching u) (level, queue)
      bfsLoopSync matching adjList fuel st.1 st.2
    | none => bfsLoopSync matching adjList fuel level queue

/-- The `for (const v of adjList.get(u))` loop of `dfs`; `recur` is the
recursive call `dfs(matchedTo, level, used, adjList)`. -/
def dfsLoop (recur : NodeId → List NodeId → Option SearchResult)
    (matching : Matching) (level : JMap Nat) (u : NodeId) :
    List NodeId → List NodeId → Option SearchResult
  | [], used => some (none, used)
  | v :: vs, used =>
    if !level.has v then dfsLoop recur matching level u vs used
    else
      match getMatchedNode matching v with
      | none => some (some [u, v], used)
      | some matchedTo =>
        if levelIsNext level matchedTo u then
          match recur matchedTo used with
          | none => none
          | some (some rest, used1) => some (some (u :: v :: rest), used1)
          | some (none, used1) => dfsLoop recur matching level u vs used1
        else dfsLoop recur matching level u vs used

/-- `dfs(u, level, used, adjList)`, reading the module-level `matching`. -/
def dfs (matching : Matching) (level : JMap Nat) (adjList : JMap (List NodeId)) :
    Nat → NodeId → List NodeId → Option SearchResult
  | fuel, u, used =>
    if used.contains u then some (none, used)
    else
      match fuel with
      | 0 => none
      | fuel1 + 1 =>
        match adjList.get u with
        | none => some (none, u :: used)
        | some vs =>
          dfsLoop (fun w us => dfs matching level adjList fuel1 w us)
            matching level u vs (u :: used)

/-- The final `for (const node of leftNodes)` loop of `findPathsSync`. -/
def findPathsSyncLoop (matching : Matching) (level : JMap Nat)
    (adjList : JMap (List NodeId)) (fuel : Nat) :
    List NodeId → List Path → List NodeId → Option (List Path × List NodeId)
  | [], paths, used => some (paths, used)
  | node :: nodes, paths, used =>
    if !matching.has node then
      match dfs matching level adjList fuel node used with
      | none => none
      | some (some path, used1) =>
        findPathsSyncLoop matching level adjList fuel nodes (paths ++ [path]) used1
      | some (none, used1) =>
        findPathsSyncLoop matching level adjList fuel nodes paths used1
    else findPathsSyncLoop matching level adjList fuel nodes paths used

/-- `findPathsSync()`, reading the module-level `matching`. -/
def findPathsSync (g : Graph) (matching : Matching) : Option (List Path) :=
  let adjList := buildAdjList g.edges
  let seed := bfsInit matching g.leftNodes
  match bfsLoopSync matching adjList (bfsFuel g matching) seed.1 seed.2 with
  | none => none
  | some level =>
    (findPathsSyncLoop matching level adjList (searchFuel matching)
      g.leftNodes [] []).map (fun r => r.1)

/-! ## Race steppers -/

/-- One entry of `raceState`: `{ matching, iteration, complete }` (colour, name
and the copied edge list are only drawn). -/
structure RaceState where
  matching : Matching
  iteration : Nat
  complete : Bool
deriving DecidableEq, Repr

/-- The race entry built by `startVisualRace`. -/
def RaceState.initial : RaceState := ⟨[], 0, false⟩

/-- `stepNaiveGreedy(state)`. -/
def stepNaiveGreedy (g : Graph) (state : RaceState) : Option RaceState :=
  match findAugmentingPathDFS g state.matching with
  | none => none
  | some none => some ⟨state.matching, state.iteration + 1, true⟩
  | some (some path) =>
    some ⟨applyPathSync state.matching path, state.iteration + 1, state.complete⟩

/-- `stepFordFulkerson(state)`. -/
def stepFordFulkerson (g : Graph) (state : RaceState) : Option RaceState :=
  stepNaiveGreedy g state

/-- `stepHopcroftKarp(state)`. -/
def stepHopcroftKarp (g : Graph) (state : RaceState) : Option RaceState :=
  match findMultiplePaths g state.matching with
  | none => none
  | some paths =>
    if paths.length == 0 then some ⟨state.matching, state.iteration + 1, true⟩
    else some ⟨applyPaths state.matching paths, state.iteration + 1, state.complete⟩

/-- `n` successive calls of a stepper. -/
def iterateStep {σ : Type} (step : σ → Option σ) : Nat → σ → Option σ
  | 0, s => some s
  | n + 1, s =>
    match step s with
    | none => none
    | some s1 => iterateStep step n s1

/-! ## Step controller -/

/-- Values of `stepState.phase`. -/
inductive Phase where
  | init
  | bfs
  | dfs
  | complete
deriving DecidableEq, Repr

/-- Values of `stepState.pathSubStep`. -/
inductive SubStep where
  | find
  | highlight
  | apply
deriving DecidableEq, Repr

/-- The object stored in `stepState`. -/
structure StepState where
  phase : Phase
  iteration : Nat
  maxMatch : Nat
  currentPaths : List Path
  currentPathIndex : Nat
  pathSubStep : SubStep
deriving DecidableEq, Repr

/-- The module-level variables read and written by the step controller. -/
structure Controller where
  running : Bool
  stepMode : Bool
  stepState : Option StepState
  matching : Matching
deriving DecidableEq, Repr

/-- The object assigned to `stepState` when step mode is entered. -/
def StepState.initial : StepState :=
  ⟨Phase.init, 0, 0, [], 0, SubStep.find⟩

/-- `executeStep()`.  `none` stands for a thrown `TypeError` (`stepState` is
`null`, or the indexed path is `undefined`) or for a search without result. -/
def executeStep (g : Graph) (c : Controller) : Option Controller :=
  match c.stepState with
  | none => none
  | some state =>
    match state.phase with
    | Phase.init =>
      some { c with stepState := some { state with iteration := state.iteration + 1,
                                                   phase := Phase.bfs } }
    | Phase.bfs =>
      match findPathsSync g c.matching with
      | none => none
      | some paths =>
        if paths.length == 0 then
          some { c with stepMode := false,
                        stepState := some { state with currentPaths := paths,
                                                       currentPathIndex := 0,
                                                       phase := Phase.complete } }
        else
          some { c with stepState := some { state with currentPaths := paths,
                                                       currentPathIndex := 0,
                                                       phase := Phase.dfs,
                                                       pathSubStep := SubStep.highlight } }
    | Phase.dfs =>
      match state.pathSubStep with
      | SubStep.highlight =>
        match state.currentPaths.get? state.currentPathIndex with
        | none => none
        | some path =>
          some { c with matching := applyPathSync c.matching path,
                        stepState := some { state with pathSubStep := SubStep.apply,
                                                       maxMatch := state.maxMatch + 1 } }
      | SubStep.apply =>
        if state.currentPathIndex + 1 < state.currentPaths.length then
          some { c with stepState := some { state with
                                              currentPathIndex := state.currentPathIndex + 1,
                                              pathSubStep := SubStep.highlight } }
        else
          some { c with stepState := some { state with
                                              currentPathIndex := 0,
                                              iteration := state.iteration + 1,
                                              phase := Phase.bfs,
                                              currentPaths := [] } }
      | SubStep.find => some c
    | Phase.complete => some c

/-- The module-level variables at the moment `executeStep()` throws its
`TypeError`.  With `stepState === null` the read of `state.phase` throws before
anything is written.  With a highlighted path index outside `currentPaths`,
`pathSubStep` has already been set to `'apply'` when `applyPathSync(undefined)`
throws on `path.length`; the matching and `maxMatch` are not yet touched.
`none` when the call throws nowhere. -/
def executeStepThrown (c : Controller) : Option Controller :=
  match c.stepState with
  | none => some c
  | some state =>
    match state.phase, state.pathSubStep with
    | Phase.dfs, SubStep.highlight =>
      match state.currentPaths.get? state.currentPathIndex with
      | none => some { c with stepState := some { state with pathSubStep := SubStep.apply } }
      | some _ => none
    | _, _ => none

/-- `stepAlgorithm()`: refuse while an automatic run is active, enter step mode
on the first call, otherwise call `executeStep()`.  `executeStep` is an `async`
function without `await` and is called here without `await`: its body runs
within the call, and an exception in it rejects the returned promise, which
nobody reads, so `stepAlgorithm()` itself returns normally with the variables
as they were at the throw.  `none` is left for a search without result. -/
def stepAlgorithm (g : Graph) (c : Controller) : Option Controller :=
  if c.running && !c.stepMode then some c
  else if !c.stepMode then
    some { c with stepMode := true, stepState := some StepState.initial, matching := [] }
  else
    match executeStep g c with
    | some c1 => some c1
    | none => executeStepThrown c

/-- The controller right after step mode was entered. -/
def Controller.initial : Controller :=
  ⟨false, true, some StepState.initial, []⟩

/-! ## Specification vocabulary -/

/-- A well-formed bipartite graph: the left ids are distinct, the two sides
share no id, and every edge goes from a left id to a right id. -/
def WellFormed (g : Graph) : Prop :=
  g.leftNodes.Nodup ∧ (∀ x ∈ g.leftNodes, x ∉ g.rightNodes) ∧
    ∀ e ∈ g.edges, e.from_ ∈ g.leftNodes ∧ e.to_ ∈ g.rightNodes

instance (g : Graph) : Decidable (WellFormed g) := by
  unfold WellFormed; infer_instance

/-- Every pair of the map is an edge of the graph. -/
def PairsAreEdges (g : Graph) (m : Matching) : Prop :=
  ∀ kv ∈ m, (⟨kv.1, kv.2⟩ : Edge) ∈ g.edges

instance (g : Graph) (m : Matching) : Decidable (PairsAreEdges g m) := by
  unfold PairsAreEdges; infer_instance

/-- No two left vertices are mapped to the same right vertex. -/
def Injective (m : Matching) : Prop :=
  ∀ kv ∈ m, ∀ kv1 ∈ m, kv.2 = kv1.2 → kv.1 = kv1.1

instance (m : Matching) : Decidable (Injective m) := by
  unfold Injective; infer_instance

/-- A valid matching of the graph: a map (every key occurs once) that is
injective and whose pairs are edges. -/
def ValidMatching (g : Graph) (m : Matching) : Prop :=
  (m.map Prod.fst).Nodup ∧ Injective m ∧ PairsAreEdges g m

instance (g : Graph) (m : Matching) : Decidable (ValidMatching g m) := by
  unfold ValidMatching; infer_instance

/-- A maximum matching: a valid matching such that no valid matching has more
pairs. -/
def MaximumMatching (g : Graph) (m : Matching) : Prop :=
  ValidMatching g m ∧ ∀ m1 : Matching, ValidMatching g m1 → m1.length ≤ m.length

/-- The alternating continuation of a path after the left vertex `u`: an
unmatched edge to `v`, then either `v` is unmatched and the path ends, or the
matched edge from `v` back to the next left vertex. -/
def AlternatingFrom (g : Graph) (m : Matching) : NodeId → List NodeId → Prop
  | u, [v] => (⟨u, v⟩ : Edge) ∈ g.edges ∧ ∀ kv ∈ m, kv.2 ≠ v
  | u, v :: w :: rest =>
    (⟨u, v⟩ : Edge) ∈ g.edges ∧ (u, v) ∉ m ∧ (w, v) ∈ m ∧ AlternatingFrom g m w rest
  | _, [] => False

/-- An augmenting path with respect to `m`: pairwise distinct vertices, starting
at an unmatched left vertex and alternating until an unmatched right vertex. -/
def AugmentingPath (g : Graph) (m : Matching) : Path → Prop
  | [] => False
  | u :: rest =>
    u ∈ g.leftNodes ∧ m.has u = false ∧ (u :: rest).Nodup ∧ AlternatingFrom g m u rest

/-- The `to` fields of the edges leaving `u`, in edge-list order. -/
def neighbours (edges : List Edge) (u : NodeId) : List NodeId :=
  (edges.filter (fun e => e.from_ == u)).map (fun e => e.to_)

/-- Every id that occurs in the map, as a key or as a value. -/
def idsOf (m : Matching) : List NodeId := m.map Prod.fst ++ m.map Prod.snd

/-- The adjacency array of `u`, empty when `adjList` has no entry. -/
def adjOf (adjList : JMap (List NodeId)) (u : NodeId) : List NodeId :=
  (adjList.get u).getD []

/-- The pairs `(path[i], path[i + 1])`, `i = 0, 2, 4, …`, that the augment loop
writes into the matching. -/
def pairsOf : Path → List (NodeId × NodeId)
  | a :: b :: rest => (a, b) :: pairsOf rest
  | _ => []

/-- The left vertices of the pairs of a path. -/
def lefts (p : Path) : List NodeId := (pairsOf p).map Prod.fst

/-- The right vertices of the pairs of a path. -/
def rights (p : Path) : List NodeId := (pairsOf p).map Prod.snd

/-- Writing a list of pairs into the matching, first pair first. -/
def applyPairs (m : Matching) (ps : List (NodeId × NodeId)) : Matching :=
  ps.foldl (fun acc ab => acc.set ab.1 ab.2) m

/-- What the searches follow after a left vertex `u`: a neighbour `v` of `u`
without partner ends the path; otherwise the partner `w` of `v` continues it. -/
def SearchTail (m : Matching) (adjList : JMap (List NodeId)) :
    NodeId → List NodeId → Prop
  | u, [v] => v ∈ adjOf adjList u ∧ getMatchedNodeFrom v m = none
  | u, v :: w :: rest =>
    v ∈ adjOf adjList u ∧ getMatchedNodeFrom v m = some w ∧ SearchTail m adjList w rest
  | _, [] => False

/-- Every neighbour of `x` has a partner, and that partner is in `visited`. -/
def ClosedIn (m : Matching) (adjList : JMap (List NodeId)) (visited : List NodeId)
    (x : NodeId) : Prop :=
  ∀ v ∈ adjOf adjList x, ∃ w, getMatchedNodeFrom v m = some w ∧ w ∈ visited

/-- Contract of one call `dfsAugment(u, …, visited, …, path)` that returned
`res` and left `visited1`. -/
def DfsAugmentSpec (m : Matching) (adjList : JMap (List NodeId)) (u : NodeId)
    (visited : List NodeId) (path : Path) (res : Option Path) (visited1 : List NodeId) :
    Prop :=
  visited ⊆ visited1 ∧
  (res = none → u ∈ visited1 ∧ ∀ x ∈ visited1, x ∉ visited → ClosedIn m adjList visited1 x) ∧
  (∀ p, res = some p → ∃ rest, p = path ++ u :: rest ∧ SearchTail m adjList u rest ∧
    (lefts (u :: rest)).Nodup ∧ ∀ x ∈ lefts (u :: rest), x ∉ visited)

/-- Number of ids of the map that are not yet in `visited`. -/
def unvisited (m : Matching) (visited : List NodeId) : Nat :=
  ((idsOf m).toFinset \ visited.toFinset).card

/-- What makes writing the pairs `ps` into a valid matching `m` give a valid
matching again: distinct left vertices, pairs that are edges, distinct right
vertices, and every old partner of a written right vertex is itself rewritten
by a later pair. -/
def AugPairs (g : Graph) (m : Matching) (ps : List (NodeId × NodeId)) : Prop :=
  (ps.map Prod.fst).Nodup ∧ (ps.map Prod.snd).Nodup ∧
  (∀ ab ∈ ps, (⟨ab.1, ab.2⟩ : Edge) ∈ g.edges) ∧
  (∀ ab ∈ ps, ∀ z, (z, ab.2) ∈ m → z ∈ (ps.map Prod.fst).tail)

/-- The layering invariant of the BFS: an id with a level is a left id or has
no partner. -/
def LevelOK (g : Graph) (m : Matching) (level : JMap Nat) : Prop :=
  ∀ x, level.has x = true → x ∈ g.leftNodes ∨ getMatchedNodeFrom x m = none

/-- Work left for the BFS: the queue plus the ids of the matching that have no
level yet. -/
def bfsMeasure (m : Matching) (st : JMap Nat × List NodeId) : Nat :=
  st.2.length + unvisited m (st.1.map Prod.fst)

/-- The neighbour that `dfsPath` returns for a root when no levelled neighbour
has a partner: the first neighbour with a level. -/
def firstLevelled (level : JMap Nat) (vs : List NodeId) : Option NodeId :=
  vs.find? (fun v => level.has v)

/-- What every matching reachable by the phase strategy satisfies: it is a map
whose pairs are edges. -/
def PreMatching (g : Graph) (m : Matching) : Prop :=
  (m.map Prod.fst).Nodup ∧ PairsAreEdges g m

/-- One more iteration of `benchmarkNaiveGreedy`'s loop on a loop state. -/
def naiveNext (g : Graph) (s : LoopState) : Option LoopState :=
  if s.finished then some s else benchmarkNaiveGreedyLoop g 1 s.iterations s.testMatching

/-- One more iteration of `benchmarkHopcroftKarp`'s loop on a loop state. -/
def hopcroftNext (g : Graph) (s : LoopState) : Option LoopState :=
  if s.finished then some s else benchmarkHopcroftKarpLoop g 1 s.iterations s.testMatching

/-- The first scenario of the specification: `L0–R0`, `L0–R1`, `L1–R0`. -/
def graphScenario1 : Graph :=
  ⟨[L 0, L 1], [R 0, R 1], [⟨L 0, R 0⟩, ⟨L 0, R 1⟩, ⟨L 1, R 0⟩]⟩

/-- A graph as `generateGraph` can draw it: six left and six right nodes, every
left node with the two edges to `R0` and `R1`. -/
def graphGenerated : Graph :=
  ⟨[L 0, L 1, L 2, L 3, L 4, L 5], [R 0, R 1, R 2, R 3, R 4, R 5],
    [⟨L 0, R 0⟩, ⟨L 0, R 1⟩, ⟨L 1, R 0⟩, ⟨L 1, R 1⟩, ⟨L 2, R 0⟩, ⟨L 2, R 1⟩,
     ⟨L 3, R 0⟩, ⟨L 3, R 1⟩, ⟨L 4, R 0⟩, ⟨L 4, R 1⟩, ⟨L 5, R 0⟩, ⟨L 5, R 1⟩]⟩

/-- Another graph as `generateGraph` can draw it: `L0` has the edges to `R0` and
`R1`, every other left node the edges to `R0` and `R2`. -/
def graphGeneratedB : Graph :=
  ⟨[L 0, L 1, L 2, L 3, L 4, L 5], [R 0, R 1, R 2, R 3, R 4, R 5],
    [⟨L 0, R 0⟩, ⟨L 0, R 1⟩, ⟨L 1, R 0⟩, ⟨L 1, R 2⟩, ⟨L 2, R 0⟩, ⟨L 2, R 2⟩,
     ⟨L 3, R 0⟩, ⟨L 3, R 2⟩, ⟨L 4, R 0⟩, ⟨L 4, R 2⟩, ⟨L 5, R 0⟩, ⟨L 5, R 2⟩]⟩

/-- What `runBenchmark()` does: it refuses (alert, early return) or it runs the
three strategies and shows their iteration counts. -/
inductive BenchmarkReport where
  | refused
  | ran (naiveIterations fordIterations hopcroftIterations : Nat)
deriving DecidableEq, Repr

/-- `runBenchmark()`: the guard on `leftNodes.length === 0`, then the three
benchmark calls in the order naive, Ford-Fulkerson, Hopcroft-Karp.  The timer
and the clock readings only affect the displayed times. -/
def runBenchmark (g : Graph) : Option BenchmarkReport :=
  if g.leftNodes.length == 0 then some BenchmarkReport.refused
  else
    match benchmarkNaiveGreedy g, benchmarkFordFulkerson g, benchmarkHopcroftKarp g with
    | some n, some f, some h => some (BenchmarkReport.ran n f h)
    | _, _, _ => none

/-- The controller on scenario 1 after the seven `executeStep` calls that take
it to phase `complete`. -/
def completedScenario1 : Controller :=
  ⟨false, false, some ⟨Phase.complete, 2, 2, [], 0, SubStep.apply⟩,
    [(L 0, R 0), (L 1, R 0)]⟩

/-- A graph with one left node and no right node. -/
def graphNoRight : Graph := ⟨[L 0], [], []⟩

/-- A graph with one right node and no left node. -/
def graphNoLeft : Graph := ⟨[], [R 0], []⟩

/-- `applyPath(path)` of the automatic run: the same augment loop on the
module-level `matching` (followed by a redraw and a pause). -/
def applyPath : Matching → Path → Matching
  | m, a :: b :: rest => applyPath (m.set a b) rest
  | m, _ => m

/-- The module-level data variables: the graph (`leftNodes`, `rightNodes`,
`edges`) and the `matching` of the live run. -/
structure Globals where
  graph : Graph
  matching : Matching
deriving DecidableEq, Repr

/-- State-passing form of a call `benchmarkNaiveGreedy()`.  The call reads
`leftNodes` and `edges`, keeps its map in the local `testMatching`, and neither
it nor its callees (`findAugmentingPathDFS`, `dfsAugment`, `buildAdjList`,
`getMatchedNodeFrom`) assign to a module-level variable or call a mutating
method on one: the globals are handed back as received. -/
def benchmarkNaiveGreedyCall (w : Globals) : Option (Nat × Globals) :=
  (benchmarkNaiveGreedy w.graph).map (fun n => (n, w))

/-- State-passing form of a call `benchmarkFordFulkerson()`, which only calls
`benchmarkNaiveGreedy()`. -/
def benchmarkFordFulkersonCall (w : Globals) : Option (Nat × Globals) :=
  benchmarkNaiveGreedyCall w

/-- State-passing form of a call `benchmarkHopcroftKarp()`; as for the naive
strategy, the call and its callees (`findMultiplePaths`, `dfsPath`,
`buildAdjList`, `getMatchedNodeFrom`) write to local objects only. -/
def benchmarkHopcroftKarpCall (w : Globals) : Option (Nat × Globals) :=
  (benchmarkHopcroftKarp w.graph).map (fun n => (n, w))

/-- Scenario 1 with a third right node, which has no edge. -/
def graphScenario1Wide : Graph :=
  ⟨[L 0, L 1], [R 0, R 1, R 2], [⟨L 0, R 0⟩, ⟨L 0, R 1⟩, ⟨L 1, R 0⟩]⟩

/-- The phase of the step controller after `k` calls of `executeStep` from its
initial state. -/
def phaseAfter (g : Graph) (k : Nat) : Option Phase :=
  (iterateStep (executeStep g) k Controller.initial).bind
    (fun c => c.stepState.map (fun st => st.phase))

/-- How the number `k` of `executeStep` calls made so far shows in the counters
of the controller: every applied path took two calls and every phase search
one. -/
def StepCount (k : Nat) (c : Controller) : Prop :=
  match c.stepState with
  | none => False
  | some st =>
    match st.phase with
    | Phase.init => k = 2 * st.maxMatch + st.iteration
    | Phase.bfs => k = 2 * st.maxMatch + st.iteration
    | Phase.dfs =>
      match st.pathSubStep with
      | SubStep.highlight => k = 2 * st.maxMatch + st.iteration + 1
      | SubStep.apply => k = 2 * st.maxMatch + st.iteration
      | SubStep.find => False
    | Phase.complete => 2 * st.maxMatch + st.iteration + 1 ≤ k

/-- The path that one phase extracts for the unmatched left vertex `u` of a
well-formed graph: `u` and its first neighbour without partner, if any. -/
def phasePathOf (g : Graph) (m : Matching) (u : NodeId) : Option Path :=
  ((neighbours g.edges u).find? (fun v => (getMatchedNodeFrom v m).isNone)).map
    (fun v => [u, v])

/-- The paths that one phase extracts on a well-formed graph: one for every
unmatched left vertex that has a neighbour without partner, in `leftNodes`
order. -/
def phasePathsSpec (g : Graph) (m : Matching) : List Path :=
  g.leftNodes.filterMap (fun u => if m.has u then none else phasePathOf g m u)

/-- The third scenario of the specification: one left node with the edges to
`R0`, `R1`, `R2`, in that order. -/
def graphScenario3 : Graph :=
  ⟨[L 0], [R 0, R 1, R 2], [⟨L 0, R 0⟩, ⟨L 0, R 1⟩, ⟨L 0, R 2⟩]⟩

/-- The controller on scenario 1 after two `executeStep` calls: the first phase
search has stored its two paths and path 0 is highlighted. -/
def applyingScenario1 : Controller :=
  ⟨false, true,
    some ⟨Phase.dfs, 1, 0, [[L 0, R 0], [L 1, R 0]], 0, SubStep.highlight⟩, []⟩

/-! ## Phase search of the automatic run (`bfsPhase`) -/

/-- Body of `for (const v of adjList.get(u))` in the BFS of `bfsPhase`. -/
def bfsPhaseVisit (matching : Matching) (u : NodeId) (st : JMap Nat × List NodeId)
    (v : NodeId) : JMap Nat × List NodeId :=
  match getMatchedNode matching v with
  | none => if !st.1.has v then (st.1.set v (levelOf st.1 u + 1), st.2) else st
  | some matchedTo =>
    if !st.1.has matchedTo then
      (st.1.set matchedTo (levelOf st.1 u + 2), st.2 ++ [matchedTo])
    else st

/-- The `while (queue.length > 0)` loop of `bfsPhase`. -/
def bfsPhaseLoop (matching : Matching) (adjList : JMap (List NodeId)) :
    Nat → JMap Nat → List NodeId → Option (JMap Nat)
  | _, level, [] => some level
  | 0, _, _ :: _ => none
  | fuel + 1, level, u :: queue =>
    match adjList.get u with
    | some vs =>
      let st := vs.foldl (bfsPhaseVisit matching u) (level, queue)
      bfsPhaseLoop matching adjList fuel st.1 st.2
    | none => bfsPhaseLoop matching adjList fuel level queue

/-- The final `for (const node of leftNodes)` loop of `bfsPhase`, which calls
`dfs`. -/
def bfsPhasePathsLoop (matching : Matching) (level : JMap Nat)
    (adjList : JMap (List NodeId)) (fuel : Nat) :
    List NodeId → List Path → List NodeId → Option (List Path × List NodeId)
  | [], paths, used => some (paths, used)
  | node :: nodes, paths, used =>
    if !matching.has node then
      match dfs matching level adjList fuel node used with
      | none => none
      | some (some path, used1) =>
        bfsPhasePathsLoop matching level adjList fuel nodes (paths ++ [path]) used1
      | some (none, used1) =>
        bfsPhasePathsLoop matching level adjList fuel nodes paths used1
    else bfsPhasePathsLoop matching level adjList fuel nodes paths used

/-- `bfsPhase()` of the automatic run, reading the module-level `matching`.
The function is declared `async` but contains no `await`: its body runs to the
`return` within the call, and the value is what `await bfsPhase()` yields. -/
def bfsPhase (g : Graph) (matching : Matching) : Option (List Path) :=
  let adjList := buildAdjList g.edges
  let seed := bfsInit matching g.leftNodes
  match bfsPhaseLoop matching adjList (bfsFuel g matching) seed.1 seed.2 with
  | none => none
  | some level =>
    (bfsPhasePathsLoop matching level adjList (searchFuel matching)
      g.leftNodes [] []).map (fun r => r.1)

/-- The map that sends every left vertex with at least one edge to the first
right vertex of its adjacency list, the keys in `leftNodes` order. -/
def firstNeighbourMatching (g : Graph) : Matching :=
  g.leftNodes.filterMap (fun u => (neighbours g.edges u).head?.map (fun v => (u, v)))

/-- The stored paths of the step state that are not yet written into the
matching: from the current index on while the current path is highlighted,
after the current index once it is applied. -/
def pendingPaths (st : StepState) : List Path :=
  match st.phase, st.pathSubStep with
  | Phase.dfs, SubStep.highlight => st.currentPaths.drop st.currentPathIndex
  | Phase.dfs, SubStep.apply => st.currentPaths.drop (st.currentPathIndex + 1)
  | _, _ => []

/-- What holds in every state of the step controller reached from its initial
state: the counter equals the number of pairs of the matching, the matching is
a map whose pairs are edges, and every path still to be written is `[u, v]`
with an edge `u–v` and a root `u` that is not yet a key, distinct roots. -/
def CounterInv (g : Graph) (c : Controller) : Prop :=
  ∃ st, c.stepState = some st ∧ st.maxMatch = c.matching.length ∧
    PreMatching g c.matching ∧
    (∀ p ∈ pendingPaths st, ∃ u v, p = [u, v] ∧ c.matching.has u = false ∧
      (⟨u, v⟩ : Edge) ∈ g.edges) ∧
    ((pendingPaths st).map (fun p => p.headD 0)).Nodup ∧
    (st.phase = Phase.dfs → st.pathSubStep = SubStep.highlight →
      st.currentPathIndex < st.currentPaths.length)

/-- The BFS stage of `findMultiplePaths(testMatching)`: the statements from
`const adjList = buildAdjList()` to the end of the `while (queue.length > 0)`
loop; the value is the `level` map when the loop exits.  `findMultiplePaths`
runs its final `for` loop on this map. -/
def bfsLevels (g : Graph) (testMatching : Matching) : Option (JMap Nat) :=
  bfsLoop testMatching (buildAdjList g.edges) (bfsFuel g testMatching)
    (bfsInit testMatching g.leftNodes).1 (bfsInit testMatching g.leftNodes).2

/-- The BFS stage of `findPathsSync()`, reading the module-level `matching`. -/
def bfsLevelsSync (g : Graph) (matching : Matching) : Option (JMap Nat) :=
  bfsLoopSync matching (buildAdjList g.edges) (bfsFuel g matching)
    (bfsInit matching g.leftNodes).1 (bfsInit matching g.leftNodes).2

/-- Every key of the map is a left vertex of the graph. -/
def KeysLeft (g : Graph) (m : Matching) : Prop :=
  ∀ kv ∈ m, kv.1 ∈ g.leftNodes

instance (g : Graph) (m : Matching) : Decidable (KeysLeft g m) := by
  unfold KeysLeft; infer_instance

/-- An alternating path from an unmatched left vertex to a left vertex: the
one-vertex path `[u]` at an unmatched left vertex `u`, or an alternating path
to `u` followed by an edge `u–v` that is not in the matching and the matched
edge from `v` to its partner `w`.  The path `p` has `p.length - 1` edges. -/
inductive AltPath (g : Graph) (m : Matching) : Path → NodeId → Prop where
  | root (u : NodeId) (hu : u ∈ g.leftNodes) (hm : m.has u = false) : AltPath g m [u] u
  | step (p : Path) (u v w : NodeId) (hp : AltPath g m p u)
      (he : (⟨u, v⟩ : Edge) ∈ g.edges) (hn : (u, v) ∉ m) (hw : (w, v) ∈ m) :
      AltPath g m (p ++ [v, w]) w

/-- The map `level1` keeps every level of `level`. -/
def LevelExt (level level1 : JMap Nat) : Prop :=
  ∀ x d, level.get x = some d → level1.get x = some d

/-- The BFS has looked at the neighbour `v` of the left vertex `x`: if `v` has
no partner it has a level, at most one more than that of `x`; otherwise its
partner has a level, at most two more than that of `x`. -/
def ClosedAt (m : Matching) (level : JMap Nat) (x v : NodeId) : Prop :=
  (getMatchedNodeFrom v m = none →
    ∃ d dx, level.get v = some d ∧ level.get x = some dx ∧ d ≤ dx + 1) ∧
  (∀ w, getMatchedNodeFrom v m = some w →
    ∃ d dx, level.get w = some d ∧ level.get x = some dx ∧ d ≤ dx + 2)

/-- Where the levels come from: level 0 is held by exactly the unmatched left
vertices; a left vertex with level `d` ends a simple alternating path with `d`
edges whose left vertices all have a level; any other vertex with level `d` has
no partner and is a neighbour of a left vertex with level `d - 1`. -/
structure LayerSound (g : Graph) (m : Matching) (level : JMap Nat) : Prop where
  zero : ∀ x, level.get x = some 0 ↔ x ∈ g.leftNodes ∧ m.has x = false
  soundL : ∀ x d, level.get x = some d → x ∈ g.leftNodes →
    ∃ p, AltPath g m p x ∧ p.length = d + 1 ∧ p.Nodup ∧
      ∀ y ∈ p, y ∈ g.leftNodes → level.has y = true
  soundR : ∀ x d, level.get x = some d → x ∉ g.leftNodes →
    ∃ y dy, level.get y = some dy ∧ d = dy + 1 ∧ y ∈ g.leftNodes ∧
      x ∈ adjOf (buildAdjList g.edges) y ∧ getMatchedNodeFrom x m = none

/-- Invariant of the BFS while the left vertex `u`, of level `c`, is being
processed and `queue` is what is left of the queue. -/
structure BfsInv (g : Graph) (m : Matching) (u : NodeId) (c : Nat) (level : JMap Nat)
    (queue : List NodeId) : Prop where
  sound : LayerSound g m level
  curLeft : u ∈ g.leftNodes
  cur : level.get u = some c
  boundL : ∀ x d, level.get x = some d → x ∈ g.leftNodes → d ≤ c + 2
  boundR : ∀ x d, level.get x = some d → x ∉ g.leftNodes → d ≤ c + 1
  qmin : ∀ a ∈ queue, ∀ d, level.get a = some d → c ≤ d
  qsub : ∀ a ∈ queue, a ∈ g.leftNodes ∧ level.has a = true
  qsorted : queue.Pairwise
    (fun a b => ∀ da db, level.get a = some da → level.get b = some db → da ≤ db)
  closed : ∀ x ∈ g.leftNodes, level.has x = true → x ∉ queue → x ≠ u →
    ∀ v ∈ adjOf (buildAdjList g.edges) x, ClosedAt m level x v

/-- What holds of the layering when the queue is empty. -/
structure LayerInv (g : Graph) (m : Matching) (level : JMap Nat) : Prop where
  sound : LayerSound g m level
  closed : ∀ x ∈ g.leftNodes, level.has x = true →
    ∀ v ∈ adjOf (buildAdjList g.edges) x, ClosedAt m level x v

/-- Invariant at the head of the `while` loop of the BFS. -/
def HeadInv (g : Graph) (m : Matching) (level : JMap Nat) : List NodeId → Prop
  | [] => LayerInv g m level
  | u :: queue => ∃ c, BfsInv g m u c level queue

/-- The controller in step mode with `stepState` still `null`. -/
def controllerNoState : Controller := ⟨false, true, none, []⟩

/-- The controller in phase `dfs` with a highlighted path index outside the
stored list. -/
def controllerBadIndex : Controller :=
  ⟨false, true, some ⟨Phase.dfs, 1, 0, [], 0, SubStep.highlight⟩, []⟩

/-! ## Lemmas on maps -/

theorem JMap.has_eq_true_iff {β : Type} (m : JMap β) (k : NodeId) :
    m.has k = true ↔ k ∈ m.map Prod.fst := by
  induction m with
  | nil => simp [JMap.has]
  | cons kv rest ih =>
    simp only [JMap.has, List.any_cons, Bool.or_eq_true, beq_iff_eq, List.map_cons,
      List.mem_cons] at ih ⊢
    rw [ih]
    constructor
    · rintro (h | h)
      · exact Or.inl h.symm
      · exact Or.inr h
    · rintro (h | h)
      · exact Or.inl h.symm
      · exact Or.inr h

theorem JMap.has_eq_false_iff {β : Type} (m : JMap β) (k : NodeId) :
    m.has k = false ↔ k ∉ m.map Prod.fst := by
  rw [← JMap.has_eq_true_iff]; simp

theorem JMap.get_eq_none_iff {β : Type} (m : JMap β) (k : NodeId) :
    m.get k = none ↔ m.has k = false := by
  induction m with
  | nil => simp [JMap.has, JMap.get]
  | cons kv rest ih =>
    obtain ⟨k1, v1⟩ := kv
    by_cases h : k1 = k
    · simp [JMap.get, JMap.has, h]
    · simp only [JMap.has] at ih
      simp [JMap.get, JMap.has, h, ih]

theorem JMap.mem_of_get {β : Type} {m : JMap β} {k : NodeId} {v : β}
    (h : m.get k = some v) : (k, v) ∈ m := by
  induction m with
  | nil => simp [JMap.get] at h
  | cons kv rest ih =>
    obtain ⟨k1, v1⟩ := kv
    by_cases hk : k1 = k
    · simp [JMap.get, hk] at h
      simp [hk, h]
    · simp [JMap.get, hk] at h
      exact List.mem_cons_of_mem _ (ih h)

theorem JMap.get_of_mem {β : Type} {m : JMap β} {k : NodeId} {v : β}
    (hn : (m.map Prod.fst).Nodup) (h : (k, v) ∈ m) : m.get k = some v := by
  induction m with
  | nil => simp at h
  | cons kv rest ih =>
    obtain ⟨k1, v1⟩ := kv
    simp only [List.map_cons, List.nodup_cons] at hn
    rcases List.mem_cons.1 h with h1 | h1
    · cases h1; simp [JMap.get]
    · have hne : k1 ≠ k := by
        rintro rfl
        exact hn.1 (List.mem_map.2 ⟨(k1, v), h1, rfl⟩)
      simp [JMap.get, hne, ih hn.2 h1]

theorem JMap.get_set {β : Type} (m : JMap β) (k x : NodeId) (v : β) :
    (m.set k v).get x = if k = x then some v else m.get x := by
  induction m with
  | nil => simp [JMap.set, JMap.get]
  | cons kv rest ih =>
    obtain ⟨k1, v1⟩ := kv
    by_cases h : k1 = k
    · subst h; by_cases hx : k1 = x <;> simp [JMap.set, JMap.get, hx]
    · by_cases hx : k1 = x
      · subst hx
        simp [JMap.set, JMap.get, h, Ne.symm h]
      · simp [JMap.set, JMap.get, h, hx, ih]

theorem JMap.keys_set {β : Type} (m : JMap β) (k : NodeId) (v : β) :
    (m.set k v).map Prod.fst =
      if m.has k then m.map Prod.fst else m.map Prod.fst ++ [k] := by
  induction m with
  | nil => simp [JMap.set, JMap.has]
  | cons kv rest ih =>
    obtain ⟨k1, v1⟩ := kv
    by_cases h : k1 = k
    · simp [JMap.set, JMap.has, h]
    · simp only [JMap.has] at ih
      by_cases hr : rest.any (fun kv => kv.1 == k) = true
      · simp [JMap.set, JMap.has, h, ih, hr]
      · simp [JMap.set, JMap.has, h, ih, hr]

theorem JMap.has_set {β : Type} (m : JMap β) (k x : NodeId) (v : β) :
    (m.set k v).has x = (decide (k = x) || m.has x) := by
  have h1 := JMap.get_eq_none_iff (m.set k v) x
  have h2 := JMap.get_eq_none_iff m x
  rw [JMap.get_set] at h1
  by_cases hk : k = x
  · simp [hk] at h1 ⊢; simpa using h1
  · simp only [hk, if_false] at h1
    simp only [hk, decide_False, Bool.false_or]
    cases hm : m.has x <;> cases hs : (m.set k v).has x <;> simp_all

theorem JMap.length_set {β : Type} (m : JMap β) (k : NodeId) (v : β) :
    (m.set k v).length = if m.has k then m.length else m.length + 1 := by
  have h := congrArg List.length (JMap.keys_set m k v)
  by_cases hk : m.has k = true <;> simp [hk] at h ⊢ <;> exact h

theorem JMap.nodup_keys_set {β : Type} {m : JMap β} (k : NodeId) (v : β)
    (hn : (m.map Prod.fst).Nodup) : ((m.set k v).map Prod.fst).Nodup := by
  rw [JMap.keys_set]
  by_cases hk : m.has k = true
  · simpa [hk] using hn
  · have hk' : k ∉ m.map Prod.fst := by
      rw [← JMap.has_eq_true_iff]; exact hk
    simp only [hk]
    exact List.Nodup.append hn (List.nodup_singleton k) (by
      intro a ha hb
      simp at hb
      subst hb
      exact hk' ha)

/-! ## The adjacency map -/

theorem buildAdjList_step_get (adj : JMap (List NodeId)) (e : Edge) (u : NodeId) :
    ((let adj1 := if !adj.has e.from_ then adj.set e.from_ [] else adj
      adj1.set e.from_ ((adj1.get e.from_).getD [] ++ [e.to_])).get u) =
      if e.from_ = u then some ((adj.get u).getD [] ++ [e.to_]) else adj.get u := by
  simp only [JMap.get_set]
  by_cases h : e.from_ = u
  · subst h
    by_cases hh : adj.has e.from_ = true
    · simp [hh]
    · have : adj.get e.from_ = none := (JMap.get_eq_none_iff _ _).2 (by simpa using hh)
      simp [hh, JMap.get_set, this]
  · by_cases hh : adj.has e.from_ = true
    · simp [hh, h]
    · simp [hh, h, JMap.get_set]

theorem buildAdjList_foldl_get (edges : List Edge) (u : NodeId) :
    ∀ adj : JMap (List NodeId),
      (edges.foldl
        (fun adj edge =>
          let adj1 := if !adj.has edge.from_ then adj.set edge.from_ [] else adj
          adj1.set edge.from_ ((adj1.get edge.from_).getD [] ++ [edge.to_])) adj).get u =
      match adj.get u with
      | some a => some (a ++ neighbours edges u)
      | none => if neighbours edges u = [] then none else some (neighbours edges u) := by
  induction edges with
  | nil => intro adj; cases h : adj.get u <;> simp [neighbours, h]
  | cons e rest ih =>
    intro adj
    rw [List.foldl_cons, ih, buildAdjList_step_get]
    by_cases h : e.from_ = u
    · cases hg : adj.get u <;> simp [neighbours, List.filter_cons, h]
    · cases hg : adj.get u <;> simp [neighbours, List.filter_cons, h]

theorem buildAdjList_get (edges : List Edge) (u : NodeId) :
    (buildAdjList edges).get u =
      if neighbours edges u = [] then none else some (neighbours edges u) := by
  unfold buildAdjList
  rw [buildAdjList_foldl_get]
  simp [JMap.get]

theorem mem_neighbours {edges : List Edge} {u v : NodeId} :
    v ∈ neighbours edges u ↔ (⟨u, v⟩ : Edge) ∈ edges := by
  unfold neighbours
  simp only [List.mem_map, List.mem_filter, beq_iff_eq]
  constructor
  · rintro ⟨e, ⟨he, h1⟩, h2⟩
    cases e; simp_all
  · intro h
    exact ⟨⟨u, v⟩, ⟨h, rfl⟩, rfl⟩

theorem buildAdjList_get_some {edges : List Edge} {u : NodeId} {vs : List NodeId}
    (h : (buildAdjList edges).get u = some vs) : vs = neighbours edges u := by
  rw [buildAdjList_get] at h
  by_cases hn : neighbours edges u = []
  · simp [hn] at h
  · simp [hn] at h; exact h.symm

theorem buildAdjList_get_none {edges : List Edge} {u : NodeId}
    (h : (buildAdjList edges).get u = none) : neighbours edges u = [] := by
  rw [buildAdjList_get] at h
  by_cases hn : neighbours edges u = []
  · exact hn
  · simp [hn] at h

/-! ## The partner lookup -/

theorem getMatchedNode_eq (m : Matching) (v : NodeId) :
    getMatchedNode m v = getMatchedNodeFrom v m := rfl

theorem find_value_some {m : Matching} {v : NodeId} {kv : NodeId × NodeId}
    (h : m.find? (fun kv => kv.2 == v) = some kv) : kv ∈ m ∧ kv.2 = v := by
  have h1 := List.find?_some h
  exact ⟨List.mem_of_find?_eq_some h, by simpa using h1⟩

theorem getMatchedNodeFrom_mem_idsOf {m : Matching} {v w : NodeId}
    (h : getMatchedNodeFrom v m = some w) : w ∈ idsOf m := by
  unfold getMatchedNodeFrom at h
  unfold idsOf
  by_cases hk : m.has v = true
  · rw [if_pos hk] at h
    have := JMap.mem_of_get h
    exact List.mem_append_right _ (List.mem_map.2 ⟨(v, w), this, rfl⟩)
  · rw [if_neg hk] at h
    cases hf : m.find? (fun kv => kv.2 == v) with
    | none => simp [hf] at h
    | some kv =>
      simp [hf] at h
      have := (find_value_some hf).1
      exact List.mem_append_left _ (List.mem_map.2 ⟨kv, this, h⟩)

theorem getMatchedNodeFrom_some_mem {m : Matching} {v w : NodeId}
    (hk : m.has v = false) (h : getMatchedNodeFrom v m = some w) : (w, v) ∈ m := by
  unfold getMatchedNodeFrom at h
  simp only [hk, Bool.false_eq_true, if_false] at h
  cases hf : m.find? (fun kv => kv.2 == v) with
  | none => simp [hf] at h
  | some kv =>
    simp [hf] at h
    obtain ⟨h1, h2⟩ := find_value_some hf
    obtain ⟨a, b⟩ := kv
    simp at h h2
    subst h; subst h2
    exact h1

theorem getMatchedNodeFrom_none {m : Matching} {v : NodeId}
    (h : getMatchedNodeFrom v m = none) : ∀ kv ∈ m, kv.2 ≠ v := by
  unfold getMatchedNodeFrom at h
  by_cases hk : m.has v = true
  · rw [if_pos hk] at h
    have := (JMap.get_eq_none_iff m v).1 h
    rw [hk] at this; cases this
  · rw [if_neg hk] at h
    intro kv hkv hv
    simp only [Option.map_eq_none', List.find?_eq_none] at h
    exact h kv hkv (by simpa using hv)

theorem getMatchedNodeFrom_eq_none_of {m : Matching} {v : NodeId}
    (hk : m.has v = false) (h : ∀ kv ∈ m, kv.2 ≠ v) : getMatchedNodeFrom v m = none := by
  unfold getMatchedNodeFrom
  simp only [hk, Bool.false_eq_true, if_false, Option.map_eq_none', List.find?_eq_none]
  intro kv hkv
  simpa using h kv hkv

theorem getMatchedNodeFrom_of_mem {m : Matching} {v w : NodeId}
    (hk : m.has v = false) (hinj : Injective m) (h : (w, v) ∈ m) :
    getMatchedNodeFrom v m = some w := by
  cases hg : getMatchedNodeFrom v m with
  | none => exact absurd rfl (getMatchedNodeFrom_none hg (w, v) h)
  | some w1 =>
    have h1 := getMatchedNodeFrom_some_mem hk hg
    have := hinj (w1, v) h1 (w, v) h rfl
    simp at this
    rw [this]

/-! ## The single-path search -/

theorem ClosedIn.mono {m : Matching} {adjList : JMap (List NodeId)} {V V1 : List NodeId}
    {x : NodeId} (h : ClosedIn m adjList V x) (hs : V ⊆ V1) : ClosedIn m adjList V1 x := by
  intro v hv
  obtain ⟨w, h1, h2⟩ := h v hv
  exact ⟨w, h1, hs h2⟩

theorem dfsAugmentLoop_spec (m : Matching) (adjList : JMap (List NodeId))
    (recur : NodeId → List NodeId → Path → Option SearchResult)
    (hrec : ∀ w V p res V1, recur w V p = some (res, V1) →
      DfsAugmentSpec m adjList w V p res V1)
    (path : Path) :
    ∀ (vs V : List NodeId) (res : Option Path) (V1 : List NodeId),
      dfsAugmentLoop recur m path vs V = some (res, V1) →
      V ⊆ V1 ∧
      (res = none → (∀ v ∈ vs, ∃ w, getMatchedNodeFrom v m = some w ∧ w ∈ V1) ∧
        ∀ x ∈ V1, x ∉ V → ClosedIn m adjList V1 x) ∧
      (∀ p, res = some p → ∃ v ∈ vs,
        (p = path ++ [v] ∧ getMatchedNodeFrom v m = none) ∨
        ∃ w rest, getMatchedNodeFrom v m = some w ∧ p = path ++ v :: w :: rest ∧
          SearchTail m adjList w rest ∧ (lefts (w :: rest)).Nodup ∧
          ∀ x ∈ lefts (w :: rest), x ∉ V) := by
  intro vs
  induction vs with
  | nil =>
    intro V res V1 h
    simp only [dfsAugmentLoop, Option.some.injEq, Prod.mk.injEq] at h
    obtain ⟨h1, h2⟩ := h
    subst h1; subst h2
    refine ⟨List.Subset.refl _, ?_, ?_⟩
    · intro _
      exact ⟨by simp, fun x hx hnx => absurd hx hnx⟩
    · intro p hp; cases hp
  | cons v vs ih =>
    intro V res V1 h
    rw [dfsAugmentLoop] at h
    cases hg : getMatchedNodeFrom v m with
    | none =>
      simp only [hg, Option.some.injEq, Prod.mk.injEq] at h
      obtain ⟨h1, h2⟩ := h
      subst h1; subst h2
      refine ⟨List.Subset.refl _, ?_, ?_⟩
      · intro hc; cases hc
      · intro p hp
        cases hp
        exact ⟨v, List.mem_cons_self _ _, Or.inl ⟨rfl, hg⟩⟩
    | some w =>
      simp only [hg] at h
      cases hr : recur w V (path ++ [v]) with
      | none => simp [hr] at h
      | some r =>
        obtain ⟨r1, V2⟩ := r
        have hs := hrec w V (path ++ [v]) r1 V2 hr
        obtain ⟨hsub, hnone, hsome⟩ := hs
        cases r1 with
        | some p1 =>
          simp only [hr, Option.some.injEq, Prod.mk.injEq] at h
          obtain ⟨h1, h2⟩ := h
          subst h1; subst h2
          refine ⟨hsub, ?_, ?_⟩
          · intro hc; cases hc
          · intro p hp
            cases hp
            obtain ⟨rest, hp1, ht, hnd, hnv⟩ := hsome p1 rfl
            refine ⟨v, List.mem_cons_self _ _, Or.inr ⟨w, rest, hg, ?_, ht, hnd, hnv⟩⟩
            rw [hp1]; simp
        | none =>
          simp only [hr] at h
          obtain ⟨hsub2, hnone2, hsome2⟩ := ih V2 res V1 h
          obtain ⟨hw, hcl⟩ := hnone rfl
          refine ⟨hsub.trans hsub2, ?_, ?_⟩
          · intro hres
            obtain ⟨hall, hcl2⟩ := hnone2 hres
            refine ⟨?_, ?_⟩
            · intro v1 hv1
              rcases List.mem_cons.1 hv1 with h1 | h1
              · subst h1
                exact ⟨w, hg, hsub2 hw⟩
              · exact hall v1 h1
            · intro x hx hnx
              by_cases hx2 : x ∈ V2
              · exact (hcl x hx2 hnx).mono hsub2
              · exact hcl2 x hx hx2
          · intro p hp
            obtain ⟨v1, hv1, hcase⟩ := hsome2 p hp
            refine ⟨v1, List.mem_cons_of_mem _ hv1, ?_⟩
            rcases hcase with hc | ⟨w1, rest, h1, h2, h3, h4, h5⟩
            · exact Or.inl hc
            · exact Or.inr ⟨w1, rest, h1, h2, h3, h4, fun x hx hxV => h5 x hx (hsub hxV)⟩

theorem dfsAugment_spec (m : Matching) (adjList : JMap (List NodeId)) :
    ∀ (fuel : Nat) (u : NodeId) (V : List NodeId) (path : Path) (res : Option Path)
      (V1 : List NodeId),
      dfsAugment m adjList fuel u V path = some (res, V1) →
      DfsAugmentSpec m adjList u V path res V1 := by
  intro fuel
  induction fuel with
  | zero =>
    intro u V path res V1 h
    rw [dfsAugment] at h
    by_cases hu : V.contains u = true
    · simp only [hu, if_true, Option.some.injEq, Prod.mk.injEq] at h
      obtain ⟨h1, h2⟩ := h
      subst h1; subst h2
      refine ⟨List.Subset.refl _, fun _ => ⟨by simpa using hu, fun x hx hnx => absurd hx hnx⟩, ?_⟩
      intro p hp; cases hp
    · simp only [hu, Bool.false_eq_true, if_false] at h
      cases h
  | succ fuel ih =>
    intro u V path res V1 h
    rw [dfsAugment] at h
    by_cases hu : V.contains u = true
    · simp only [hu, if_true, Option.some.injEq, Prod.mk.injEq] at h
      obtain ⟨h1, h2⟩ := h
      subst h1; subst h2
      refine ⟨List.Subset.refl _, fun _ => ⟨by simpa using hu, fun x hx hnx => absurd hx hnx⟩, ?_⟩
      intro p hp; cases hp
    · simp only [hu, Bool.false_eq_true, if_false] at h
      have huV : u ∉ V := by simpa using hu
      cases hadj : adjList.get u with
      | none =>
        simp only [hadj, Option.some.injEq, Prod.mk.injEq] at h
        obtain ⟨h1, h2⟩ := h
        subst h1; subst h2
        refine ⟨List.subset_cons_self _ _, fun _ => ⟨List.mem_cons_self _ _, ?_⟩, ?_⟩
        · intro x hx hnx
          rcases List.mem_cons.1 hx with h1 | h1
          · subst h1
            intro v hv
            simp [adjOf, hadj] at hv
          · exact absurd h1 hnx
        · intro p hp; cases hp
      | some vs =>
        simp only [hadj] at h
        have hl := dfsAugmentLoop_spec m adjList _ (fun w V p res V1 hh => ih w V p res V1 hh)
          (path ++ [u]) vs (u :: V) res V1 h
        obtain ⟨hsub, hnone, hsome⟩ := hl
        have hsubV : V ⊆ V1 := (List.subset_cons_self _ _).trans hsub
        refine ⟨hsubV, ?_, ?_⟩
        · intro hres
          obtain ⟨hall, hcl⟩ := hnone hres
          refine ⟨hsub (List.mem_cons_self _ _), ?_⟩
          intro x hx hnx
          by_cases hxu : x = u
          · subst hxu
            intro v hv
            have : v ∈ vs := by simpa [adjOf, hadj] using hv
            exact hall v this
          · exact hcl x hx (by simp [hxu, hnx])
        · intro p hp
          obtain ⟨v, hv, hcase⟩ := hsome p hp
          have hvadj : v ∈ adjOf adjList u := by simpa [adjOf, hadj] using hv
          rcases hcase with ⟨hp1, hg⟩ | ⟨w, rest, hg, hp1, ht, hnd, hnv⟩
          · refine ⟨[v], by simp [hp1], ⟨hvadj, hg⟩, by simp [lefts, pairsOf], ?_⟩
            intro x hx
            simp only [lefts, pairsOf, List.map_cons, List.map_nil, List.mem_singleton] at hx
            subst hx; exact huV
          · refine ⟨v :: w :: rest, by simp [hp1], ⟨hvadj, hg, ht⟩, ?_, ?_⟩
            · show (u :: lefts (w :: rest)).Nodup
              refine List.nodup_cons.2 ⟨?_, hnd⟩
              intro hmem
              exact hnv u hmem (List.mem_cons_self _ _)
            · intro x hx
              change x ∈ u :: lefts (w :: rest) at hx
              rcases List.mem_cons.1 hx with h1 | h1
              · subst h1; exact huV
              · intro hxV
                exact hnv x h1 (List.mem_cons_of_mem _ hxV)

theorem unvisited_mono (m : Matching) {V V1 : List NodeId} (h : V ⊆ V1) :
    unvisited m V1 ≤ unvisited m V := by
  unfold unvisited
  apply Finset.card_le_card
  apply Finset.sdiff_subset_sdiff (Finset.Subset.refl _)
  intro x hx
  simp only [List.mem_toFinset] at hx ⊢
  exact h hx

theorem unvisited_cons_lt (m : Matching) {V : List NodeId} {w : NodeId}
    (hw : w ∈ idsOf m) (hV : w ∉ V) : unvisited m (w :: V) + 1 ≤ unvisited m V := by
  unfold unvisited
  apply Nat.succ_le_of_lt
  apply Finset.card_lt_card
  rw [Finset.ssubset_iff_of_subset]
  · refine ⟨w, ?_, ?_⟩
    · simp [hw, hV]
    · simp
  · intro x hx
    simp only [Finset.mem_sdiff, List.mem_toFinset, List.mem_cons, not_or] at hx ⊢
    exact ⟨hx.1, hx.2.2⟩

theorem unvisited_le (m : Matching) (V : List NodeId) : unvisited m V ≤ 2 * m.length := by
  unfold unvisited
  calc ((idsOf m).toFinset \ V.toFinset).card
      ≤ (idsOf m).toFinset.card := Finset.card_le_card Finset.sdiff_subset
    _ ≤ (idsOf m).length := List.toFinset_card_le _
    _ = 2 * m.length := by simp [idsOf]; omega

theorem dfsAugmentLoop_some (m : Matching)
    (recur : NodeId → List NodeId → Path → Option SearchResult) (V0 : List NodeId)
    (hrec : ∀ w ∈ idsOf m, ∀ V p, V0 ⊆ V → ∃ r, recur w V p = some r)
    (hmono : ∀ w V p res V1, recur w V p = some (res, V1) → V ⊆ V1)
    (path : Path) :
    ∀ (vs V : List NodeId), V0 ⊆ V → ∃ r, dfsAugmentLoop recur m path vs V = some r := by
  intro vs
  induction vs with
  | nil => intro V _; exact ⟨_, rfl⟩
  | cons v vs ih =>
    intro V hV
    rw [dfsAugmentLoop]
    cases hg : getMatchedNodeFrom v m with
    | none => exact ⟨_, rfl⟩
    | some w =>
      obtain ⟨r, hr⟩ := hrec w (getMatchedNodeFrom_mem_idsOf hg) V (path ++ [v]) hV
      obtain ⟨r1, V2⟩ := r
      have hsub := hmono w V _ r1 V2 hr
      cases r1 with
      | some p1 => simp only [hr]; exact ⟨_, rfl⟩
      | none =>
        simp only [hr]
        exact ih V2 (hV.trans hsub)

theorem dfsAugment_some (m : Matching) (adjList : JMap (List NodeId)) :
    ∀ (fuel : Nat) (u : NodeId) (V : List NodeId) (path : Path),
      (u ∉ V → unvisited m (u :: V) + 1 ≤ fuel) →
      ∃ r, dfsAugment m adjList fuel u V path = some r := by
  intro fuel
  induction fuel with
  | zero =>
    intro u V path h
    rw [dfsAugment]
    by_cases hu : V.contains u = true
    · simp only [hu, if_true]; exact ⟨_, rfl⟩
    · have : u ∉ V := by simpa using hu
      have := h this
      omega
  | succ fuel ih =>
    intro u V path h
    rw [dfsAugment]
    by_cases hu : V.contains u = true
    · simp only [hu, if_true]; exact ⟨_, rfl⟩
    · simp only [hu, Bool.false_eq_true, if_false]
      have huV : u ∉ V := by simpa using hu
      have hf := h huV
      cases hadj : adjList.get u with
      | none => exact ⟨_, rfl⟩
      | some vs =>
        simp only []
        apply dfsAugmentLoop_some m _ (u :: V)
        · intro w hw V2 p hV2
          apply ih
          intro hwV
          have h1 := unvisited_cons_lt m hw hwV
          have h2 := unvisited_mono m hV2
          omega
        · intro w V2 p res V3 hh
          exact (dfsAugment_spec m adjList fuel w V2 p res V3 hh).1
        · exact List.Subset.refl _

theorem findAugmentingPathLoop_some (m : Matching) (adjList : JMap (List NodeId)) :
    ∀ (nodes V : List NodeId),
      ∃ r, findAugmentingPathLoop m adjList (searchFuel m) nodes V = some r := by
  intro nodes
  induction nodes with
  | nil => intro V; exact ⟨_, rfl⟩
  | cons node nodes ih =>
    intro V
    rw [findAugmentingPathLoop]
    by_cases hm : m.has node = true
    · simp only [hm, Bool.not_true, Bool.false_eq_true, if_false]
      exact ih V
    · simp only [hm, Bool.not_false, if_true]
      obtain ⟨r, hr⟩ := dfsAugment_some m adjList (searchFuel m) node V [] (by
        intro _
        have := unvisited_le m (node :: V)
        unfold searchFuel; omega)
      obtain ⟨r1, V2⟩ := r
      cases r1 with
      | some p1 => simp only [hr]; exact ⟨_, rfl⟩
      | none => simp only [hr]; exact ih V2

theorem findAugmentingPathLoop_spec (m : Matching) (adjList : JMap (List NodeId))
    (fuel : Nat) :
    ∀ (nodes V : List NodeId) (res : Option Path) (V1 : List NodeId),
      findAugmentingPathLoop m adjList fuel nodes V = some (res, V1) →
      V ⊆ V1 ∧
      (res = none → (∀ n ∈ nodes, m.has n = false → n ∈ V1) ∧
        ∀ x ∈ V1, x ∉ V → ClosedIn m adjList V1 x) ∧
      (∀ p, res = some p → ∃ u ∈ nodes, m.has u = false ∧ ∃ rest, p = u :: rest ∧
        SearchTail m adjList u rest ∧ (lefts (u :: rest)).Nodup) := by
  intro nodes
  induction nodes with
  | nil =>
    intro V res V1 h
    simp only [findAugmentingPathLoop, Option.some.injEq, Prod.mk.injEq] at h
    obtain ⟨h1, h2⟩ := h
    subst h1; subst h2
    refine ⟨List.Subset.refl _, fun _ => ⟨by simp, fun x hx hnx => absurd hx hnx⟩, ?_⟩
    intro p hp; cases hp
  | cons node nodes ih =>
    intro V res V1 h
    rw [findAugmentingPathLoop] at h
    by_cases hm : m.has node = true
    · simp only [hm, Bool.not_true, Bool.false_eq_true, if_false] at h
      obtain ⟨hsub, hnone, hsome⟩ := ih V res V1 h
      refine ⟨hsub, ?_, ?_⟩
      · intro hres
        obtain ⟨h1, h2⟩ := hnone hres
        refine ⟨?_, h2⟩
        intro n hn hnm
        rcases List.mem_cons.1 hn with h3 | h3
        · subst h3; rw [hm] at hnm; cases hnm
        · exact h1 n h3 hnm
      · intro p hp
        obtain ⟨u, hu, rest⟩ := hsome p hp
        exact ⟨u, List.mem_cons_of_mem _ hu, rest⟩
    · simp only [hm, Bool.not_false, if_true] at h
      have hmf : m.has node = false := by simpa using hm
      cases hr : dfsAugment m adjList fuel node V [] with
      | none => simp [hr] at h
      | some r =>
        obtain ⟨r1, V2⟩ := r
        obtain ⟨hsub, hnone, hsome⟩ := dfsAugment_spec m adjList fuel node V [] r1 V2 hr
        cases r1 with
        | some p1 =>
          simp only [hr, Option.some.injEq, Prod.mk.injEq] at h
          obtain ⟨h1, h2⟩ := h
          subst h1; subst h2
          refine ⟨hsub, ?_, ?_⟩
          · intro hc; cases hc
          intro p hp
          cases hp
          obtain ⟨rest, hp1, ht, hnd, _⟩ := hsome p1 rfl
          exact ⟨node, List.mem_cons_self _ _, hmf, rest, by simpa using hp1, ht, hnd⟩
        | none =>
          simp only [hr] at h
          obtain ⟨hsub2, hnone2, hsome2⟩ := ih V2 res V1 h
          obtain ⟨hw, hcl⟩ := hnone rfl
          refine ⟨hsub.trans hsub2, ?_, ?_⟩
          · intro hres
            obtain ⟨h1, h2⟩ := hnone2 hres
            refine ⟨?_, ?_⟩
            · intro n hn hnm
              rcases List.mem_cons.1 hn with h3 | h3
              · subst h3; exact hsub2 hw
              · exact h1 n h3 hnm
            · intro x hx hnx
              by_cases hx2 : x ∈ V2
              · exact (hcl x hx2 hnx).mono hsub2
              · exact h2 x hx hx2
          · intro p hp
            obtain ⟨u, hu, rest⟩ := hsome2 p hp
            exact ⟨u, List.mem_cons_of_mem _ hu, rest⟩

/-! ## Writing a path into the matching -/

theorem applyPathSync_eq_applyPairs : ∀ (p : Path) (m : Matching),
    applyPathSync m p = applyPairs m (pairsOf p)
  | [], m => by simp [applyPathSync, pairsOf, applyPairs]
  | [_], m => by simp [applyPathSync, pairsOf, applyPairs]
  | a :: b :: rest, m => by
    rw [applyPathSync, applyPathSync_eq_applyPairs rest (m.set a b)]
    simp [pairsOf, applyPairs]

theorem applyPairs_get_frame (ps : List (NodeId × NodeId)) :
    ∀ (m : Matching) (x : NodeId), x ∉ ps.map Prod.fst →
      (applyPairs m ps).get x = m.get x := by
  induction ps with
  | nil => intro m x _; rfl
  | cons ab ps ih =>
    intro m x hx
    simp only [List.map_cons, List.mem_cons, not_or] at hx
    show (applyPairs (m.set ab.1 ab.2) ps).get x = m.get x
    rw [ih _ _ hx.2, JMap.get_set, if_neg (Ne.symm hx.1)]

theorem applyPairs_get_hit (ps : List (NodeId × NodeId)) :
    ∀ (m : Matching) (a b : NodeId), (ps.map Prod.fst).Nodup → (a, b) ∈ ps →
      (applyPairs m ps).get a = some b := by
  induction ps with
  | nil => intro m a b _ h; simp at h
  | cons ab ps ih =>
    intro m a b hn h
    simp only [List.map_cons, List.nodup_cons] at hn
    show (applyPairs (m.set ab.1 ab.2) ps).get a = some b
    rcases List.mem_cons.1 h with h1 | h1
    · subst h1
      rw [applyPairs_get_frame ps _ _ hn.1, JMap.get_set, if_pos rfl]
    · exact ih _ a b hn.2 h1

theorem applyPairs_nodup_keys (ps : List (NodeId × NodeId)) :
    ∀ (m : Matching), (m.map Prod.fst).Nodup → ((applyPairs m ps).map Prod.fst).Nodup := by
  induction ps with
  | nil => intro m h; exact h
  | cons ab ps ih =>
    intro m h
    exact ih _ (JMap.nodup_keys_set ab.1 ab.2 h)

theorem applyPairs_has (ps : List (NodeId × NodeId)) :
    ∀ (m : Matching) (x : NodeId),
      (applyPairs m ps).has x = true ↔ (m.has x = true ∨ x ∈ ps.map Prod.fst) := by
  induction ps with
  | nil => intro m x; simp [applyPairs]
  | cons ab ps ih =>
    intro m x
    show (applyPairs (m.set ab.1 ab.2) ps).has x = true ↔ _
    rw [ih, JMap.has_set]
    simp only [Bool.or_eq_true, decide_eq_true_eq, List.map_cons, List.mem_cons]
    constructor
    · rintro ((h | h) | h)
      · exact Or.inr (Or.inl h.symm)
      · exact Or.inl h
      · exact Or.inr (Or.inr h)
    · rintro (h | h | h)
      · exact Or.inl (Or.inr h)
      · exact Or.inl (Or.inl h.symm)
      · exact Or.inr h

theorem applyPairs_keys_of_has (ps : List (NodeId × NodeId)) :
    ∀ (m : Matching), (∀ ab ∈ ps, m.has ab.1 = true) →
      (applyPairs m ps).map Prod.fst = m.map Prod.fst := by
  induction ps with
  | nil => intro m _; rfl
  | cons ab ps ih =>
    intro m h
    show (applyPairs (m.set ab.1 ab.2) ps).map Prod.fst = _
    have h1 : m.has ab.1 = true := h ab (List.mem_cons_self _ _)
    rw [ih, JMap.keys_set, if_pos h1]
    intro cd hcd
    rw [JMap.has_set, h _ (List.mem_cons_of_mem _ hcd)]
    simp

theorem applyPairs_length_le (ps : List (NodeId × NodeId)) :
    ∀ (m : Matching), m.length ≤ (applyPairs m ps).length := by
  induction ps with
  | nil => intro m; exact Nat.le_refl _
  | cons ab ps ih =>
    intro m
    show m.length ≤ (applyPairs (m.set ab.1 ab.2) ps).length
    refine Nat.le_trans ?_ (ih _)
    rw [JMap.length_set]
    split <;> omega

theorem validMatching_applyPairs {g : Graph} {m : Matching} {ps : List (NodeId × NodeId)}
    (hv : ValidMatching g m) (ha : AugPairs g m ps) : ValidMatching g (applyPairs m ps) := by
  obtain ⟨hk, hinj, hedge⟩ := hv
  obtain ⟨hl, hr, he, hK⟩ := ha
  have hk1 := applyPairs_nodup_keys ps m hk
  have key : ∀ kv ∈ applyPairs m ps,
      (kv.1 ∈ ps.map Prod.fst ∧ kv ∈ ps) ∨ (kv.1 ∉ ps.map Prod.fst ∧ kv ∈ m) := by
    intro kv hkv
    have hget := JMap.get_of_mem hk1 (show (kv.1, kv.2) ∈ applyPairs m ps from hkv)
    by_cases hmem : kv.1 ∈ ps.map Prod.fst
    · left
      refine ⟨hmem, ?_⟩
      obtain ⟨ab, hab, h1⟩ := List.mem_map.1 hmem
      have := applyPairs_get_hit ps m ab.1 ab.2 hl hab
      rw [h1, hget] at this
      have h2 : kv.2 = ab.2 := by simpa using this
      have : kv = ab := Prod.ext h1.symm h2
      rw [this]; exact hab
    · right
      refine ⟨hmem, ?_⟩
      rw [applyPairs_get_frame ps m _ hmem] at hget
      exact JMap.mem_of_get hget
  refine ⟨hk1, ?_, ?_⟩
  · intro kv hkv kv1 hkv1 h2
    rcases key kv hkv with ⟨h1, h3⟩ | ⟨h1, h3⟩ <;> rcases key kv1 hkv1 with ⟨h4, h5⟩ | ⟨h4, h5⟩
    · have := List.inj_on_of_nodup_map hr h3 h5 h2
      rw [this]
    · exfalso
      have : (kv1.1, kv.2) ∈ m := by rw [h2]; exact h5
      exact h4 (List.mem_of_mem_tail (hK kv h3 kv1.1 this))
    · exfalso
      have : (kv.1, kv1.2) ∈ m := by rw [← h2]; exact h3
      exact h1 (List.mem_of_mem_tail (hK kv1 h5 kv.1 this))
    · exact hinj kv h3 kv1 h5 h2
  · intro kv hkv
    rcases key kv hkv with ⟨_, h3⟩ | ⟨_, h3⟩
    · exact he kv h3
    · exact hedge kv h3

/-! ## Alternating paths -/

theorem adjOf_buildAdjList (edges : List Edge) (u : NodeId) :
    adjOf (buildAdjList edges) u = neighbours edges u := by
  unfold adjOf
  rw [buildAdjList_get]
  by_cases h : neighbours edges u = []
  · simp [h]
  · simp [h]

theorem mem_adjOf_buildAdjList {edges : List Edge} {u v : NodeId} :
    v ∈ adjOf (buildAdjList edges) u ↔ (⟨u, v⟩ : Edge) ∈ edges := by
  rw [adjOf_buildAdjList, mem_neighbours]

theorem pair_sides {g : Graph} {m : Matching} (hw : WellFormed g) (he : PairsAreEdges g m)
    {k v : NodeId} (h : (k, v) ∈ m) : k ∈ g.leftNodes ∧ v ∈ g.rightNodes :=
  hw.2.2 _ (he (k, v) h)

theorem has_false_of_right {g : Graph} {m : Matching} (hw : WellFormed g)
    (he : PairsAreEdges g m) {v : NodeId} (hv : v ∈ g.rightNodes) : m.has v = false := by
  rw [JMap.has_eq_false_iff]
  intro hmem
  obtain ⟨kv, hkv, h1⟩ := List.mem_map.1 hmem
  have := (pair_sides hw he (show (kv.1, kv.2) ∈ m from hkv)).1
  rw [h1] at this
  exact hw.2.1 v this hv

theorem lefts_cons_cons (a b : NodeId) (rest : Path) :
    lefts (a :: b :: rest) = a :: lefts rest := rfl

theorem rights_cons_cons (a b : NodeId) (rest : Path) :
    rights (a :: b :: rest) = b :: rights rest := rfl

theorem searchTail_alternating {g : Graph} {m : Matching} (hw : WellFormed g)
    (hv : ValidMatching g m) :
    ∀ (rest : Path) (u : NodeId), SearchTail m (buildAdjList g.edges) u rest →
      (lefts (u :: rest)).Nodup → AlternatingFrom g m u rest
  | [], _, h, _ => by simp [SearchTail] at h
  | [v], u, h, _ => by
    obtain ⟨h1, h2⟩ := h
    exact ⟨mem_adjOf_buildAdjList.1 h1, getMatchedNodeFrom_none h2⟩
  | [v, w], u, h, _ => by simp [SearchTail] at h
  | v :: w :: x :: rest, u, h, hn => by
    obtain ⟨h1, h2, h3⟩ := h
    have hedge := mem_adjOf_buildAdjList.1 h1
    have hvr : v ∈ g.rightNodes := (hw.2.2 _ hedge).2
    have hkv := has_false_of_right hw hv.2.2 hvr
    have hwv := getMatchedNodeFrom_some_mem hkv h2
    rw [lefts_cons_cons, lefts_cons_cons] at hn
    have hn1 := List.nodup_cons.1 hn
    refine ⟨hedge, ?_, hwv, ?_⟩
    · intro huv
      have := hv.2.1 (u, v) huv (w, v) hwv rfl
      simp only at this
      exact hn1.1 (by rw [this]; exact List.mem_cons_self _ _)
    · exact searchTail_alternating hw hv (x :: rest) w h3 (by
        rw [lefts_cons_cons]; exact hn1.2)

theorem alternating_even {g : Graph} {m : Matching} :
    ∀ (rest : Path) (u : NodeId), AlternatingFrom g m u rest → (u :: rest).length % 2 = 0
  | [], _, h => by simp [AlternatingFrom] at h
  | [v], u, _ => by simp
  | v :: w :: rest, u, h => by
    have := alternating_even rest w h.2.2.2
    simp only [List.length_cons] at this ⊢
    omega

theorem alternating_edges {g : Graph} {m : Matching} :
    ∀ (rest : Path) (u : NodeId), AlternatingFrom g m u rest →
      ∀ ab ∈ pairsOf (u :: rest), (⟨ab.1, ab.2⟩ : Edge) ∈ g.edges
  | [], _, h => by simp [AlternatingFrom] at h
  | [v], u, h => by
    intro ab hab
    simp only [pairsOf, List.mem_singleton] at hab
    subst hab; exact h.1
  | v :: w :: rest, u, h => by
    intro ab hab
    simp only [pairsOf, List.mem_cons] at hab
    rcases hab with h1 | h1
    · subst h1; exact h.1
    · exact alternating_edges rest w h.2.2.2 ab h1

theorem alternating_partner {g : Graph} {m : Matching} (hinj : Injective m) :
    ∀ (rest : Path) (u : NodeId), AlternatingFrom g m u rest →
      ∀ y ∈ rights (u :: rest), ∀ z, (z, y) ∈ m → z ∈ (lefts (u :: rest)).tail
  | [], _, h => by simp [AlternatingFrom] at h
  | [v], u, h => by
    intro y hy z hz
    simp only [rights, pairsOf, List.map_cons, List.map_nil, List.mem_singleton] at hy
    subst hy
    exact absurd rfl (h.2 (z, y) hz)
  | [v, w], u, h => by simp [AlternatingFrom] at h
  | v :: w :: x :: rest, u, h => by
    intro y hy z hz
    rw [rights_cons_cons] at hy
    rw [lefts_cons_cons, List.tail_cons, lefts_cons_cons]
    rcases List.mem_cons.1 hy with h1 | h1
    · subst h1
      have := hinj (z, y) hz (w, y) h.2.2.1 rfl
      simp only at this
      rw [this]; exact List.mem_cons_self _ _
    · have := alternating_partner hinj (x :: rest) w h.2.2.2 y h1 z hz
      rw [lefts_cons_cons, List.tail_cons] at this
      exact List.mem_cons_of_mem _ this

theorem alternating_lefts_matched {g : Graph} {m : Matching} :
    ∀ (rest : Path) (u : NodeId), AlternatingFrom g m u rest →
      ∀ a ∈ (lefts (u :: rest)).tail, ∃ b, (a, b) ∈ m
  | [], _, h => by simp [AlternatingFrom] at h
  | [v], u, _ => by
    intro a ha
    simp [lefts, pairsOf] at ha
  | [v, w], u, h => by simp [AlternatingFrom] at h
  | v :: w :: x :: rest, u, h => by
    intro a ha
    rw [lefts_cons_cons, List.tail_cons, lefts_cons_cons] at ha
    rcases List.mem_cons.1 ha with h1 | h1
    · subst h1; exact ⟨v, h.2.2.1⟩
    · have := alternating_lefts_matched (x :: rest) w h.2.2.2 a (by
        rw [lefts_cons_cons, List.tail_cons]; exact h1)
      exact this

theorem alternating_rights_nodup {g : Graph} {m : Matching} (hinj : Injective m) :
    ∀ (rest : Path) (u : NodeId), AlternatingFrom g m u rest →
      (lefts (u :: rest)).Nodup → (rights (u :: rest)).Nodup
  | [], _, h, _ => by simp [AlternatingFrom] at h
  | [v], u, _, _ => by simp [rights, pairsOf]
  | [v, w], u, h, _ => by simp [AlternatingFrom] at h
  | v :: w :: x :: rest, u, h, hn => by
    rw [lefts_cons_cons] at hn
    have hn1 := List.nodup_cons.1 hn
    rw [rights_cons_cons]
    refine List.nodup_cons.2 ⟨?_, alternating_rights_nodup hinj (x :: rest) w h.2.2.2 hn1.2⟩
    intro hmem
    have := alternating_partner hinj (x :: rest) w h.2.2.2 v hmem w h.2.2.1
    rw [lefts_cons_cons] at this hn1
    exact (List.nodup_cons.1 hn1.2).1 this

theorem mem_lefts_or_rights : ∀ (p : Path), p.length % 2 = 0 → ∀ x ∈ p,
    x ∈ lefts p ∨ x ∈ rights p
  | [], _ => by simp
  | [a], h => by simp at h
  | a :: b :: rest, h => by
    intro x hx
    have hr : rest.length % 2 = 0 := by
      simp only [List.length_cons] at h; omega
    rw [lefts_cons_cons, rights_cons_cons]
    simp only [List.mem_cons] at hx ⊢
    rcases hx with h1 | h1 | h1
    · exact Or.inl (Or.inl h1)
    · exact Or.inr (Or.inl h1)
    · rcases mem_lefts_or_rights rest hr x h1 with h2 | h2
      · exact Or.inl (Or.inr h2)
      · exact Or.inr (Or.inr h2)

theorem nodup_of_lefts_rights : ∀ (p : Path), p.length % 2 = 0 → (lefts p).Nodup →
    (rights p).Nodup → (∀ x ∈ lefts p, x ∉ rights p) → p.Nodup
  | [], _, _, _, _ => List.nodup_nil
  | [a], h, _, _, _ => by simp at h
  | a :: b :: rest, h, hl, hr, hd => by
    have hlen : rest.length % 2 = 0 := by
      simp only [List.length_cons] at h; omega
    rw [lefts_cons_cons] at hl hd
    rw [rights_cons_cons] at hr hd
    have hl1 := List.nodup_cons.1 hl
    have hr1 := List.nodup_cons.1 hr
    have ih := nodup_of_lefts_rights rest hlen hl1.2 hr1.2
      (fun x hx hx2 => hd x (List.mem_cons_of_mem _ hx) (List.mem_cons_of_mem _ hx2))
    refine List.nodup_cons.2 ⟨?_, List.nodup_cons.2 ⟨?_, ih⟩⟩
    · intro hmem
      rcases List.mem_cons.1 hmem with h1 | h1
      · exact hd a (List.mem_cons_self _ _) (by rw [h1]; exact List.mem_cons_self _ _)
      · rcases mem_lefts_or_rights rest hlen a h1 with h2 | h2
        · exact hl1.1 h2
        · exact hd a (List.mem_cons_self _ _) (List.mem_cons_of_mem _ h2)
    · intro hmem
      rcases mem_lefts_or_rights rest hlen b hmem with h2 | h2
      · exact hd b (List.mem_cons_of_mem _ h2) (List.mem_cons_self _ _)
      · exact hr1.1 h2

theorem lefts_sublist : ∀ (p : Path), (lefts p).Sublist p
  | [] => by simp [lefts, pairsOf]
  | [a] => by simp [lefts, pairsOf]
  | a :: b :: rest => by
    rw [lefts_cons_cons]
    exact List.Sublist.cons₂ a (List.Sublist.cons b (lefts_sublist rest))

theorem rights_sublist : ∀ (p : Path), (rights p).Sublist p
  | [] => by simp [rights, pairsOf]
  | [a] => by simp [rights, pairsOf]
  | a :: b :: rest => by
    rw [rights_cons_cons]
    exact List.Sublist.cons a (List.Sublist.cons₂ b (rights_sublist rest))

/-! ## Soundness and completeness of the single-path search -/

theorem augmentingPath_augPairs {g : Graph} {m : Matching} {p : Path}
    (hinj : Injective m) (h : AugmentingPath g m p) : AugPairs g m (pairsOf p) := by
  cases p with
  | nil => simp [AugmentingPath] at h
  | cons u rest =>
    obtain ⟨_, _, hn, halt⟩ := h
    refine ⟨hn.sublist (lefts_sublist _), hn.sublist (rights_sublist _),
      alternating_edges rest u halt, ?_⟩
    intro ab hab z hz
    exact alternating_partner hinj rest u halt ab.2 (List.mem_map.2 ⟨ab, hab, rfl⟩) z hz

theorem validMatching_applyPathSync {g : Graph} {m : Matching} {p : Path}
    (hv : ValidMatching g m) (h : AugmentingPath g m p) :
    ValidMatching g (applyPathSync m p) := by
  rw [applyPathSync_eq_applyPairs]
  exact validMatching_applyPairs hv (augmentingPath_augPairs hv.2.1 h)

theorem lefts_tail_subset_keys {g : Graph} {m : Matching} {u : NodeId} {rest : Path}
    (h : AlternatingFrom g m u rest) : ∀ a ∈ (lefts (u :: rest)).tail, m.has a = true := by
  intro a ha
  obtain ⟨b, hb⟩ := alternating_lefts_matched rest u h a ha
  rw [JMap.has_eq_true_iff]
  exact List.mem_map.2 ⟨(a, b), hb, rfl⟩

theorem lefts_eq_head_tail {g : Graph} {m : Matching} {u : NodeId} {rest : Path}
    (h : AlternatingFrom g m u rest) : lefts (u :: rest) = u :: (lefts (u :: rest)).tail := by
  cases rest with
  | nil => simp [AlternatingFrom] at h
  | cons v rest => rw [lefts_cons_cons]; rfl

theorem length_applyPathSync_augmenting {g : Graph} {m : Matching} {p : Path}
    (h : AugmentingPath g m p) : (applyPathSync m p).length = m.length + 1 := by
  cases p with
  | nil => simp [AugmentingPath] at h
  | cons u rest =>
    obtain ⟨_, hu, _, halt⟩ := h
    cases rest with
    | nil => simp [AlternatingFrom] at halt
    | cons v rest =>
      have htail := lefts_tail_subset_keys halt
      rw [lefts_cons_cons, List.tail_cons] at htail
      rw [applyPathSync]
      rw [applyPathSync_eq_applyPairs]
      have hk := applyPairs_keys_of_has (pairsOf rest) (m.set u v) (by
        intro ab hab
        rw [JMap.has_set, htail ab.1 (List.mem_map.2 ⟨ab, hab, rfl⟩)]
        simp)
      have h1 := congrArg List.length hk
      simp only [List.length_map] at h1
      rw [h1, JMap.length_set, hu]
      simp

theorem searchTail_augmentingPath {g : Graph} {m : Matching} (hw : WellFormed g)
    (hv : ValidMatching g m) {u : NodeId} {rest : Path} (hu : u ∈ g.leftNodes)
    (hum : m.has u = false) (ht : SearchTail m (buildAdjList g.edges) u rest)
    (hn : (lefts (u :: rest)).Nodup) : AugmentingPath g m (u :: rest) := by
  have halt := searchTail_alternating hw hv rest u ht hn
  refine ⟨hu, hum, ?_, halt⟩
  apply nodup_of_lefts_rights _ (alternating_even rest u halt) hn
    (alternating_rights_nodup hv.2.1 rest u halt hn)
  intro x hx hxr
  have hxl : x ∈ g.leftNodes := by
    rw [lefts_eq_head_tail halt] at hx
    rcases List.mem_cons.1 hx with h1 | h1
    · rw [h1]; exact hu
    · obtain ⟨b, hb⟩ := alternating_lefts_matched rest u halt x h1
      exact (pair_sides hw hv.2.2 hb).1
  have hxr2 : x ∈ g.rightNodes := by
    obtain ⟨ab, hab, h1⟩ := List.mem_map.1 hxr
    have := (hw.2.2 _ (alternating_edges rest u halt ab hab)).2
    simp only at this h1
    rw [← h1]; exact this
  exact hw.2.1 x hxl hxr2

theorem findAugmentingPathDFS_some (g : Graph) (m : Matching) :
    ∃ r, findAugmentingPathDFS g m = some r := by
  unfold findAugmentingPathDFS
  obtain ⟨r, hr⟩ := findAugmentingPathLoop_some m (buildAdjList g.edges) g.leftNodes []
  exact ⟨r.1, by rw [hr]; rfl⟩

theorem findAugmentingPathDFS_head {g : Graph} {m : Matching} {p : Path}
    (h : findAugmentingPathDFS g m = some (some p)) :
    ∃ u rest, p = u :: rest ∧ u ∈ g.leftNodes ∧ m.has u = false ∧
      SearchTail m (buildAdjList g.edges) u rest ∧ (lefts (u :: rest)).Nodup := by
  unfold findAugmentingPathDFS at h
  cases hl : findAugmentingPathLoop m (buildAdjList g.edges) (searchFuel m) g.leftNodes [] with
  | none => simp [hl] at h
  | some r =>
    obtain ⟨r1, V1⟩ := r
    simp [hl] at h
    subst h
    obtain ⟨_, _, hsome⟩ := findAugmentingPathLoop_spec m _ _ _ _ _ _ hl
    obtain ⟨u, hu, hum, rest, hp, ht, hn⟩ := hsome p rfl
    exact ⟨u, rest, hp, hu, hum, ht, hn⟩

theorem findAugmentingPathDFS_augmenting {g : Graph} {m : Matching} {p : Path}
    (hw : WellFormed g) (hv : ValidMatching g m)
    (h : findAugmentingPathDFS g m = some (some p)) : AugmentingPath g m p := by
  obtain ⟨u, rest, hp, hu, hum, ht, hn⟩ := findAugmentingPathDFS_head h
  rw [hp]
  exact searchTail_augmentingPath hw hv hu hum ht hn

theorem closed_no_alternating {g : Graph} {m : Matching} (hw : WellFormed g)
    (hv : ValidMatching g m) {V : List NodeId}
    (hcl : ∀ x ∈ V, ClosedIn m (buildAdjList g.edges) V x) :
    ∀ (rest : Path) (u : NodeId), u ∈ V → AlternatingFrom g m u rest → False
  | [], _, _, h => by simp [AlternatingFrom] at h
  | [v], u, hu, h => by
    obtain ⟨w, hg, _⟩ := hcl u hu v (mem_adjOf_buildAdjList.2 h.1)
    have hvr : v ∈ g.rightNodes := (hw.2.2 _ h.1).2
    have := getMatchedNodeFrom_some_mem (has_false_of_right hw hv.2.2 hvr) hg
    exact h.2 (w, v) this rfl
  | v :: w :: rest, u, hu, h => by
    obtain ⟨w1, hg, hw1⟩ := hcl u hu v (mem_adjOf_buildAdjList.2 h.1)
    have hvr : v ∈ g.rightNodes := (hw.2.2 _ h.1).2
    have hm := getMatchedNodeFrom_some_mem (has_false_of_right hw hv.2.2 hvr) hg
    have := hv.2.1 (w1, v) hm (w, v) h.2.2.1 rfl
    simp only at this
    rw [this] at hw1
    exact closed_no_alternating hw hv hcl rest w hw1 h.2.2.2

theorem findAugmentingPathDFS_none {g : Graph} {m : Matching} (hw : WellFormed g)
    (hv : ValidMatching g m) (h : findAugmentingPathDFS g m = some none) :
    ¬ ∃ p, AugmentingPath g m p := by
  unfold findAugmentingPathDFS at h
  cases hl : findAugmentingPathLoop m (buildAdjList g.edges) (searchFuel m) g.leftNodes [] with
  | none => simp [hl] at h
  | some r =>
    obtain ⟨r1, V1⟩ := r
    simp [hl] at h
    subst h
    obtain ⟨_, hnone, _⟩ := findAugmentingPathLoop_spec m _ _ _ _ _ _ hl
    obtain ⟨hall, hcl⟩ := hnone rfl
    rintro ⟨p, hp⟩
    cases p with
    | nil => simp [AugmentingPath] at hp
    | cons u rest =>
      obtain ⟨hu, hum, _, halt⟩ := hp
      exact closed_no_alternating hw hv (fun x hx => hcl x hx (by simp)) rest u
        (hall u hu hum) halt

/-! ## The BFS stage of the phase search -/

theorem unvisited_append_lt (m : Matching) {V : List NodeId} {w : NodeId}
    (hw : w ∈ idsOf m) (hV : w ∉ V) : unvisited m (V ++ [w]) + 1 ≤ unvisited m V := by
  have h1 : unvisited m (V ++ [w]) ≤ unvisited m (w :: V) :=
    unvisited_mono m (by intro x hx; simp at hx ⊢; tauto)
  have h2 := unvisited_cons_lt m hw hV
  omega

theorem keys_set_new {β : Type} (l : JMap β) (k : NodeId) (v : β) (h : l.has k = false) :
    (l.set k v).map Prod.fst = l.map Prod.fst ++ [k] := by
  rw [JMap.keys_set, h]; simp

theorem bfsVisit_measure (m : Matching) (u v : NodeId) (st : JMap Nat × List NodeId) :
    bfsMeasure m (bfsVisit m u st v) ≤ bfsMeasure m st := by
  unfold bfsVisit
  cases hg : getMatchedNodeFrom v m with
  | none =>
    simp only
    by_cases hl : st.1.has v = true
    · simp [hl]
    · have hl' : st.1.has v = false := by simpa using hl
      simp only [hl', Bool.not_false, if_true, bfsMeasure]
      rw [keys_set_new _ _ _ hl']
      have := unvisited_mono m (show st.1.map Prod.fst ⊆ st.1.map Prod.fst ++ [v] from
        List.subset_append_left _ _)
      omega
  | some w =>
    simp only
    by_cases hl : st.1.has w = true
    · simp [hl]
    · have hl' : st.1.has w = false := by simpa using hl
      simp only [hl', Bool.not_false, if_true, bfsMeasure]
      rw [keys_set_new _ _ _ hl']
      have := unvisited_append_lt m (getMatchedNodeFrom_mem_idsOf hg)
        ((JMap.has_eq_false_iff _ _).1 hl')
      simp only [List.length_append, List.length_singleton]
      omega

theorem bfsVisit_foldl_measure (m : Matching) (u : NodeId) (vs : List NodeId) :
    ∀ st : JMap Nat × List NodeId,
      bfsMeasure m (vs.foldl (bfsVisit m u) st) ≤ bfsMeasure m st := by
  induction vs with
  | nil => intro st; exact Nat.le_refl _
  | cons v vs ih =>
    intro st
    rw [List.foldl_cons]
    exact Nat.le_trans (ih _) (bfsVisit_measure m u v st)

theorem bfsLoop_some (m : Matching) (adjList : JMap (List NodeId)) :
    ∀ (fuel : Nat) (level : JMap Nat) (queue : List NodeId),
      bfsMeasure m (level, queue) ≤ fuel →
      ∃ level1, bfsLoop m adjList fuel level queue = some level1 := by
  intro fuel
  induction fuel with
  | zero =>
    intro level queue h
    cases queue with
    | nil => exact ⟨level, by simp [bfsLoop]⟩
    | cons u q => simp [bfsMeasure] at h
  | succ fuel ih =>
    intro level queue h
    cases queue with
    | nil => exact ⟨level, by simp [bfsLoop]⟩
    | cons u q =>
      rw [bfsLoop]
      have hq : bfsMeasure m (level, q) ≤ fuel := by
        simp only [bfsMeasure, List.length_cons] at h ⊢; omega
      cases hadj : adjList.get u with
      | none => exact ih level q hq
      | some vs =>
        simp only
        apply ih
        exact Nat.le_trans (bfsVisit_foldl_measure m u vs (level, q)) hq

theorem bfsInit_foldl_length (m : Matching) (nodes : List NodeId) :
    ∀ st : JMap Nat × List NodeId,
      (nodes.foldl (fun st node =>
        if !m.has node then (st.1.set node 0, st.2 ++ [node]) else st) st).2.length
        ≤ st.2.length + nodes.length := by
  induction nodes with
  | nil => intro st; simp
  | cons n nodes ih =>
    intro st
    rw [List.foldl_cons]
    refine Nat.le_trans (ih _) ?_
    by_cases h : m.has n = true
    · simp [h]
    · simp [h]; omega

theorem bfsInit_measure (g : Graph) (m : Matching) :
    bfsMeasure m (bfsInit m g.leftNodes) ≤ bfsFuel g m := by
  unfold bfsMeasure bfsFuel
  have h1 := bfsInit_foldl_length m g.leftNodes ([], [])
  have h2 := unvisited_le m ((bfsInit m g.leftNodes).1.map Prod.fst)
  unfold bfsInit
  unfold bfsInit at h2
  simp only [List.length_nil, Nat.zero_add] at h1
  omega

theorem bfsVisit_foldl_invariant (m : Matching) (u : NodeId) (P : JMap Nat → Prop)
    (vs : List NodeId)
    (hstep : ∀ v ∈ vs, ∀ st : JMap Nat × List NodeId, P st.1 → P (bfsVisit m u st v).1) :
    ∀ st : JMap Nat × List NodeId, P st.1 → P (vs.foldl (bfsVisit m u) st).1 := by
  induction vs with
  | nil => intro st h; exact h
  | cons v vs ih =>
    intro st h
    rw [List.foldl_cons]
    exact ih (fun v1 hv1 => hstep v1 (List.mem_cons_of_mem _ hv1)) _
      (hstep v (List.mem_cons_self _ _) st h)

theorem bfsLoop_invariant (m : Matching) (adjList : JMap (List NodeId)) (P : JMap Nat → Prop)
    (hstep : ∀ u v, v ∈ adjOf adjList u →
      ∀ st : JMap Nat × List NodeId, P st.1 → P (bfsVisit m u st v).1) :
    ∀ (fuel : Nat) (level : JMap Nat) (queue : List NodeId) (level1 : JMap Nat),
      P level → bfsLoop m adjList fuel level queue = some level1 → P level1 := by
  intro fuel
  induction fuel with
  | zero =>
    intro level queue level1 hP h
    cases queue with
    | nil => simp [bfsLoop] at h; rw [← h]; exact hP
    | cons u q => simp [bfsLoop] at h
  | succ fuel ih =>
    intro level queue level1 hP h
    cases queue with
    | nil => simp [bfsLoop] at h; rw [← h]; exact hP
    | cons u q =>
      rw [bfsLoop] at h
      cases hadj : adjList.get u with
      | none =>
        simp only [hadj] at h
        exact ih level q level1 hP h
      | some vs =>
        simp only [hadj] at h
        refine ih _ _ level1 ?_ h
        exact bfsVisit_foldl_invariant m u P vs
          (fun v hv => hstep u v (by simp [adjOf, hadj, hv])) (level, q) hP

theorem bfsInit_foldl_levelOK (g : Graph) (m : Matching) (nodes : List NodeId)
    (hsub : nodes ⊆ g.leftNodes) :
    ∀ st : JMap Nat × List NodeId, LevelOK g m st.1 →
      LevelOK g m (nodes.foldl (fun st node =>
        if !m.has node then (st.1.set node 0, st.2 ++ [node]) else st) st).1 := by
  induction nodes with
  | nil => intro st h; exact h
  | cons n nodes ih =>
    intro st h
    rw [List.foldl_cons]
    apply ih (fun x hx => hsub (List.mem_cons_of_mem _ hx))
    by_cases hn : m.has n = true
    · simpa [hn] using h
    · simp only [hn, Bool.not_false, if_true]
      intro x hx
      rw [JMap.has_set] at hx
      simp only [Bool.or_eq_true, decide_eq_true_eq] at hx
      rcases hx with h1 | h1
      · left; rw [← h1]; exact hsub (List.mem_cons_self _ _)
      · exact h x h1

theorem bfsInit_levelOK (g : Graph) (m : Matching) :
    LevelOK g m (bfsInit m g.leftNodes).1 := by
  unfold bfsInit
  apply bfsInit_foldl_levelOK g m g.leftNodes (List.Subset.refl _)
  intro x hx
  simp [JMap.has] at hx

theorem bfsVisit_levelOK {g : Graph} {m : Matching} (hw : WellFormed g)
    (he : PairsAreEdges g m) {u v : NodeId} (hv : v ∈ adjOf (buildAdjList g.edges) u)
    (st : JMap Nat × List NodeId) (h : LevelOK g m st.1) :
    LevelOK g m (bfsVisit m u st v).1 := by
  unfold bfsVisit
  have hvr : v ∈ g.rightNodes := (hw.2.2 _ (mem_adjOf_buildAdjList.1 hv)).2
  cases hg : getMatchedNodeFrom v m with
  | none =>
    simp only
    by_cases hl : st.1.has v = true
    · simpa [hl] using h
    · simp only [hl, Bool.not_false, if_true]
      intro x hx
      rw [JMap.has_set] at hx
      simp only [Bool.or_eq_true, decide_eq_true_eq] at hx
      rcases hx with h1 | h1
      · right; rw [← h1]; exact hg
      · exact h x h1
  | some w =>
    simp only
    by_cases hl : st.1.has w = true
    · simpa [hl] using h
    · simp only [hl, Bool.not_false, if_true]
      intro x hx
      rw [JMap.has_set] at hx
      simp only [Bool.or_eq_true, decide_eq_true_eq] at hx
      rcases hx with h1 | h1
      · left
        rw [← h1]
        exact (pair_sides hw he
          (getMatchedNodeFrom_some_mem (has_false_of_right hw he hvr) hg)).1
      · exact h x h1

theorem bfsLoop_levelOK {g : Graph} {m : Matching} (hw : WellFormed g)
    (he : PairsAreEdges g m) {fuel : Nat} {level1 : JMap Nat}
    (h : bfsLoop m (buildAdjList g.edges) fuel (bfsInit m g.leftNodes).1
      (bfsInit m g.leftNodes).2 = some level1) : LevelOK g m level1 :=
  bfsLoop_invariant m (buildAdjList g.edges) (LevelOK g m)
    (fun _ _ hv st hst => bfsVisit_levelOK hw he hv st hst) fuel _ _ level1
    (bfsInit_levelOK g m) h

/-! ## The DFS stage of the phase search -/

theorem dfsPathLoop_dead (recur : NodeId → List NodeId → Option SearchResult)
    (m : Matching) (level : JMap Nat) (u : NodeId) (used : List NodeId) :
    ∀ vs : List NodeId, (∀ v ∈ vs, level.has v = true → getMatchedNodeFrom v m = none) →
      dfsPathLoop recur m level u vs used =
        some ((firstLevelled level vs).map (fun v => [u, v]), used) := by
  intro vs
  induction vs with
  | nil => intro _; rfl
  | cons v vs ih =>
    intro h
    rw [dfsPathLoop]
    by_cases hl : level.has v = true
    · have hg := h v (List.mem_cons_self _ _) hl
      simp [hl, hg, firstLevelled]
    · have hl' : level.has v = false := by simpa using hl
      simp only [hl', Bool.not_false, if_true]
      rw [ih (fun v1 hv1 => h v1 (List.mem_cons_of_mem _ hv1))]
      simp [firstLevelled, hl']

theorem dfsPath_dead (m : Matching) (level : JMap Nat) (adjList : JMap (List NodeId))
    (fuel : Nat) (u : NodeId) (used : List NodeId)
    (h : ∀ v ∈ adjOf adjList u, level.has v = true → getMatchedNodeFrom v m = none) :
    dfsPath m level adjList (fuel + 1) u used =
      some (if used.contains u then (none, used)
        else ((firstLevelled level (adjOf adjList u)).map (fun v => [u, v]), u :: used)) := by
  rw [dfsPath]
  by_cases hu : used.contains u = true
  · simp only [hu, if_true]
  · simp only [hu, Bool.false_eq_true, if_false]
    cases hadj : adjList.get u with
    | none => simp [adjOf, hadj, firstLevelled]
    | some vs =>
      simp only
      rw [dfsPathLoop_dead]
      · simp [adjOf, hadj]
      · intro v hv
        exact h v (by simp [adjOf, hadj, hv])

/-- The paths of one phase when no levelled neighbour has a partner. -/
theorem findMultiplePathsLoop_dead (m : Matching) (level : JMap Nat)
    (adjList : JMap (List NodeId)) (fuel : Nat)
    (h : ∀ u v, v ∈ adjOf adjList u → level.has v = true → getMatchedNodeFrom v m = none) :
    ∀ (nodes : List NodeId) (paths : List Path) (used : List NodeId),
      ∃ newPaths used1,
        findMultiplePathsLoop m level adjList (fuel + 1) nodes paths used =
          some (paths ++ newPaths, used1) ∧
        (∀ p ∈ newPaths, ∃ u v, p = [u, v] ∧ u ∈ nodes ∧ m.has u = false ∧
          v ∈ adjOf adjList u ∧ getMatchedNodeFrom v m = none) ∧
        (newPaths.map (fun p => p.headD 0)).Sublist nodes := by
  intro nodes
  induction nodes with
  | nil =>
    intro paths used
    exact ⟨[], used, by simp [findMultiplePathsLoop], by simp, by simp⟩
  | cons n nodes ih =>
    intro paths used
    rw [findMultiplePathsLoop]
    by_cases hm : m.has n = true
    · simp only [hm, Bool.not_true, Bool.false_eq_true, if_false]
      obtain ⟨np, u1, h1, h2, h3⟩ := ih paths used
      refine ⟨np, u1, h1, ?_, List.Sublist.cons _ h3⟩
      intro p hp
      obtain ⟨u, v, hh⟩ := h2 p hp
      exact ⟨u, v, hh.1, List.mem_cons_of_mem _ hh.2.1, hh.2.2⟩
    · have hm' : m.has n = false := by simpa using hm
      simp only [hm', Bool.not_false, if_true]
      rw [dfsPath_dead m level adjList fuel n used (h n)]
      by_cases hu : used.contains n = true
      · simp only [hu, if_true]
        obtain ⟨np, u1, h1, h2, h3⟩ := ih paths used
        refine ⟨np, u1, h1, ?_, List.Sublist.cons _ h3⟩
        intro p hp
        obtain ⟨u, v, hh⟩ := h2 p hp
        exact ⟨u, v, hh.1, List.mem_cons_of_mem _ hh.2.1, hh.2.2⟩
      · simp only [hu, Bool.false_eq_true, if_false]
        cases hf : firstLevelled level (adjOf adjList n) with
        | none =>
          simp only [Option.map_none']
          obtain ⟨np, u1, h1, h2, h3⟩ := ih paths (n :: used)
          refine ⟨np, u1, h1, ?_, List.Sublist.cons _ h3⟩
          intro p hp
          obtain ⟨u, v, hh⟩ := h2 p hp
          exact ⟨u, v, hh.1, List.mem_cons_of_mem _ hh.2.1, hh.2.2⟩
        | some v =>
          simp only [Option.map_some']
          obtain ⟨np, u1, h1, h2, h3⟩ := ih (paths ++ [[n, v]]) (n :: used)
          refine ⟨[n, v] :: np, u1, by rw [h1]; simp, ?_, ?_⟩
          · intro p hp
            rcases List.mem_cons.1 hp with h4 | h4
            · have hv1 := List.mem_of_find?_eq_some hf
              have hv2 := List.find?_some hf
              exact ⟨n, v, h4, List.mem_cons_self _ _, hm', hv1,
                h n v hv1 (by simpa using hv2)⟩
            · obtain ⟨u, v1, hh⟩ := h2 p h4
              exact ⟨u, v1, hh.1, List.mem_cons_of_mem _ hh.2.1, hh.2.2⟩
          · simp only [List.map_cons, List.headD_cons]
            exact List.Sublist.cons₂ _ h3

theorem bfsLoop_dead_branch {g : Graph} {m : Matching} (hw : WellFormed g)
    {level : JMap Nat} (h : LevelOK g m level) :
    ∀ u v, v ∈ adjOf (buildAdjList g.edges) u → level.has v = true →
      getMatchedNodeFrom v m = none := by
  intro u v hv hl
  have hedge := hw.2.2 _ (mem_adjOf_buildAdjList.1 hv)
  rcases h v hl with h1 | h1
  · exact absurd hedge.2 (hw.2.1 v h1)
  · exact h1

/-- Shape of the result of one phase search on a well-formed graph. -/
theorem findMultiplePaths_shape {g : Graph} {m : Matching} (hw : WellFormed g)
    (he : PairsAreEdges g m) :
    ∃ paths, findMultiplePaths g m = some paths ∧
      (∀ p ∈ paths, ∃ u v, p = [u, v] ∧ u ∈ g.leftNodes ∧ m.has u = false ∧
        (⟨u, v⟩ : Edge) ∈ g.edges ∧ getMatchedNodeFrom v m = none) ∧
      (paths.map (fun p => p.headD 0)).Sublist g.leftNodes := by
  unfold findMultiplePaths
  simp only
  obtain ⟨level, hlevel⟩ := bfsLoop_some m (buildAdjList g.edges) (bfsFuel g m)
    (bfsInit m g.leftNodes).1 (bfsInit m g.leftNodes).2 (bfsInit_measure g m)
  rw [hlevel]
  simp only
  have hok := bfsLoop_levelOK hw he hlevel
  obtain ⟨np, u1, h1, h2, h3⟩ := findMultiplePathsLoop_dead m level (buildAdjList g.edges)
    (2 * m.length) (bfsLoop_dead_branch hw hok) g.leftNodes [] []
  have hfuel : searchFuel m = 2 * m.length + 1 := rfl
  rw [hfuel, h1]
  refine ⟨np, by simp, ?_, h3⟩
  intro p hp
  obtain ⟨u, v, hh⟩ := h2 p hp
  exact ⟨u, v, hh.1, hh.2.1, hh.2.2.1, mem_adjOf_buildAdjList.1 hh.2.2.2.1, hh.2.2.2.2⟩

/-! ## The copies of the phase search agree -/

theorem bfsVisitSync_eq (m : Matching) (u : NodeId) (st : JMap Nat × List NodeId)
    (v : NodeId) : bfsVisitSync m u st v = bfsVisit m u st v := rfl

theorem bfsLoopSync_eq (m : Matching) (adjList : JMap (List NodeId)) :
    ∀ (fuel : Nat) (level : JMap Nat) (queue : List NodeId),
      bfsLoopSync m adjList fuel level queue = bfsLoop m adjList fuel level queue := by
  intro fuel
  induction fuel with
  | zero =>
    intro level queue
    cases queue <;> simp [bfsLoopSync, bfsLoop]
  | succ fuel ih =>
    intro level queue
    cases queue with
    | nil => simp [bfsLoopSync, bfsLoop]
    | cons u q =>
      rw [bfsLoopSync, bfsLoop]
      cases hadj : adjList.get u with
      | none => exact ih _ _
      | some vs =>
        simp only
        have : bfsVisitSync m u = bfsVisit m u := by
          funext st v; rfl
        rw [this]
        exact ih _ _

theorem dfsLoop_eq (recur : NodeId → List NodeId → Option SearchResult) (m : Matching)
    (level : JMap Nat) (u : NodeId) :
    ∀ (vs used : List NodeId),
      dfsLoop recur m level u vs used = dfsPathLoop recur m level u vs used := by
  intro vs
  induction vs with
  | nil => intro used; rfl
  | cons v vs ih =>
    intro used
    rw [dfsLoop, dfsPathLoop, getMatchedNode_eq]
    by_cases hl : level.has v = true
    · simp only [hl, Bool.not_true, Bool.false_eq_true, if_false]
      cases hg : getMatchedNodeFrom v m with
      | none => rfl
      | some w =>
        simp only
        by_cases hn : levelIsNext level w u = true
        · simp only [hn, if_true]
          cases hr : recur w used with
          | none => rfl
          | some r =>
            obtain ⟨r1, u1⟩ := r
            cases r1 with
            | none => exact ih _
            | some p => rfl
        · simp only [hn, Bool.false_eq_true, if_false]
          exact ih _
    · simp only [hl, Bool.not_false, if_true]
      exact ih _

theorem dfs_eq (m : Matching) (level : JMap Nat) (adjList : JMap (List NodeId)) :
    ∀ (fuel : Nat) (u : NodeId) (used : List NodeId),
      dfs m level adjList fuel u used = dfsPath m level adjList fuel u used := by
  intro fuel
  induction fuel with
  | zero => intro u used; rw [dfs, dfsPath]
  | succ fuel ih =>
    intro u used
    rw [dfs, dfsPath]
    have : (fun w us => dfs m level adjList fuel w us) =
        (fun w us => dfsPath m level adjList fuel w us) := by
      funext w us; exact ih w us
    rw [this]
    by_cases hu : used.contains u = true
    · simp only [hu, if_true]
    · simp only [hu, Bool.false_eq_true, if_false]
      cases hadj : adjList.get u with
      | none => rfl
      | some vs => exact dfsLoop_eq _ m level u vs _

theorem findPathsSyncLoop_eq (m : Matching) (level : JMap Nat)
    (adjList : JMap (List NodeId)) (fuel : Nat) :
    ∀ (nodes : List NodeId) (paths : List Path) (used : List NodeId),
      findPathsSyncLoop m level adjList fuel nodes paths used =
        findMultiplePathsLoop m level adjList fuel nodes paths used := by
  intro nodes
  induction nodes with
  | nil => intro paths used; rfl
  | cons n nodes ih =>
    intro paths used
    rw [findPathsSyncLoop, findMultiplePathsLoop, dfs_eq]
    by_cases hm : m.has n = true
    · simp only [hm, Bool.not_true, Bool.false_eq_true, if_false]
      exact ih _ _
    · simp only [hm, Bool.not_false, if_true]
      cases hr : dfsPath m level adjList fuel n used with
      | none => rfl
      | some r =>
        obtain ⟨r1, u1⟩ := r
        cases r1 with
        | none => exact ih _ _
        | some p => exact ih _ _

theorem findPathsSync_eq (g : Graph) (m : Matching) :
    findPathsSync g m = findMultiplePaths g m := by
  unfold findPathsSync findMultiplePaths
  simp only [bfsLoopSync_eq]
  cases bfsLoop m (buildAdjList g.edges) (bfsFuel g m) (bfsInit m g.leftNodes).1
      (bfsInit m g.leftNodes).2 with
  | none => rfl
  | some level => simp only [findPathsSyncLoop_eq]

/-! ## Writing the paths of a phase -/

theorem JMap.mem_set {β : Type} {m : JMap β} {k : NodeId} {v : β} {kv : NodeId × β}
    (h : kv ∈ m.set k v) : kv = (k, v) ∨ kv ∈ m := by
  induction m with
  | nil => simp [JMap.set] at h; exact Or.inl h
  | cons ab rest ih =>
    obtain ⟨a, b⟩ := ab
    by_cases hk : a = k
    · simp only [JMap.set, hk, beq_self_eq_true, if_true, List.mem_cons] at h
      rcases h with h1 | h1
      · exact Or.inl h1
      · exact Or.inr (List.mem_cons_of_mem _ h1)
    · simp only [JMap.set, beq_iff_eq, hk, if_false, List.mem_cons] at h
      rcases h with h1 | h1
      · exact Or.inr (by rw [h1]; exact List.mem_cons_self _ _)
      · rcases ih h1 with h2 | h2
        · exact Or.inl h2
        · exact Or.inr (List.mem_cons_of_mem _ h2)

theorem preMatching_set {g : Graph} {m : Matching} {u v : NodeId} (h : PreMatching g m)
    (he : (⟨u, v⟩ : Edge) ∈ g.edges) : PreMatching g (m.set u v) := by
  refine ⟨JMap.nodup_keys_set u v h.1, ?_⟩
  intro kv hkv
  rcases JMap.mem_set hkv with h1 | h1
  · rw [h1]; exact he
  · exact h.2 kv h1

theorem preMatching_length_le {g : Graph} {m : Matching} (hw : WellFormed g)
    (h : PreMatching g m) : m.length ≤ g.leftNodes.length := by
  have hsub : m.map Prod.fst ⊆ g.leftNodes := by
    intro x hx
    obtain ⟨kv, hkv, h1⟩ := List.mem_map.1 hx
    rw [← h1]
    exact (pair_sides hw h.2 (show (kv.1, kv.2) ∈ m from hkv)).1
  have := (List.subperm_of_subset h.1 hsub).length_le
  simpa using this

theorem validMatching_preMatching {g : Graph} {m : Matching} (h : ValidMatching g m) :
    PreMatching g m := ⟨h.1, h.2.2⟩

theorem applyPaths_shape {g : Graph} :
    ∀ (paths : List Path) (m : Matching),
      (∀ p ∈ paths, ∃ u v, p = [u, v] ∧ m.has u = false ∧ (⟨u, v⟩ : Edge) ∈ g.edges) →
      (paths.map (fun p => p.headD 0)).Nodup → PreMatching g m →
      PreMatching g (applyPaths m paths) ∧
        (applyPaths m paths).length = m.length + paths.length := by
  intro paths
  induction paths with
  | nil => intro m _ _ hm; exact ⟨hm, rfl⟩
  | cons p paths ih =>
    intro m hp hn hm
    obtain ⟨u, v, hpe, hu, he⟩ := hp p (List.mem_cons_self _ _)
    subst hpe
    simp only [List.map_cons, List.headD_cons, List.nodup_cons] at hn
    have hstep : applyPaths m ([u, v] :: paths) = applyPaths (m.set u v) paths := by
      simp [applyPaths, applyPathSync]
    rw [hstep]
    have := ih (m.set u v) (by
      intro q hq
      obtain ⟨u1, v1, hq1, hu1, he1⟩ := hp q (List.mem_cons_of_mem _ hq)
      refine ⟨u1, v1, hq1, ?_, he1⟩
      rw [JMap.has_set, hu1]
      have hne : u ≠ u1 := by
        intro hh
        apply hn.1
        refine List.mem_map.2 ⟨q, hq, ?_⟩
        rw [hq1, hh]; rfl
      simp [hne]) hn.2 (preMatching_set hm he)
    refine ⟨this.1, ?_⟩
    rw [this.2, JMap.length_set, hu]
    simp only [Bool.false_eq_true, if_false, List.length_cons]
    omega

theorem applyPaths_length_le : ∀ (paths : List Path) (m : Matching),
    m.length ≤ (applyPaths m paths).length := by
  intro paths
  induction paths with
  | nil => intro m; exact Nat.le_refl _
  | cons p paths ih =>
    intro m
    have hstep : applyPaths m (p :: paths) = applyPaths (applyPathSync m p) paths := by
      simp [applyPaths]
    rw [hstep]
    refine Nat.le_trans ?_ (ih _)
    rw [applyPathSync_eq_applyPairs]
    exact applyPairs_length_le _ _

/-- Result of one phase on a pre-matching of a well-formed graph. -/
theorem phase_result {g : Graph} {m : Matching} (hw : WellFormed g) (hm : PreMatching g m) :
    ∃ paths, findMultiplePaths g m = some paths ∧
      (∀ p ∈ paths, ∃ u v, p = [u, v] ∧ u ∈ g.leftNodes ∧ m.has u = false ∧
        (⟨u, v⟩ : Edge) ∈ g.edges ∧ getMatchedNodeFrom v m = none) ∧
      PreMatching g (applyPaths m paths) ∧
      (applyPaths m paths).length = m.length + paths.length := by
  obtain ⟨paths, h1, h2, h3⟩ := findMultiplePaths_shape hw hm.2
  have := applyPaths_shape (g := g) paths m (by
    intro p hp
    obtain ⟨u, v, hh⟩ := h2 p hp
    exact ⟨u, v, hh.1, hh.2.2.1, hh.2.2.2.1⟩) (h3.nodup hw.1) hm
  exact ⟨paths, h1, h2, this.1, this.2⟩

/-! ## Runs of the loops and steppers -/

theorem iterateStep_succ {σ : Type} (step : σ → Option σ) :
    ∀ (n : Nat) (s : σ), iterateStep step (n + 1) s = (iterateStep step n s).bind step := by
  intro n
  induction n with
  | zero =>
    intro s
    cases hs : step s <;> simp [iterateStep, hs]
  | succ n ih =>
    intro s
    rw [iterateStep]
    cases hs : step s with
    | none => simp [iterateStep, hs]
    | some s1 =>
      simp only
      rw [ih s1]
      conv_rhs => rw [iterateStep, hs]

theorem iterateStep_add {σ : Type} (step : σ → Option σ) :
    ∀ (a b : Nat) (s : σ),
      iterateStep step (a + b) s = (iterateStep step a s).bind (iterateStep step b) := by
  intro a b
  induction b with
  | zero => intro s; cases h : iterateStep step a s <;> simp [iterateStep, h]
  | succ b ih =>
    intro s
    rw [← Nat.add_assoc, iterateStep_succ, ih]
    cases h : iterateStep step a s with
    | none => rfl
    | some s1 => simp only [Option.some_bind]; rw [iterateStep_succ]

theorem naiveLoop_succ (g : Graph) :
    ∀ (k it : Nat) (m : Matching),
      benchmarkNaiveGreedyLoop g (k + 1) it m =
        (benchmarkNaiveGreedyLoop g k it m).bind (naiveNext g) := by
  intro k
  induction k with
  | zero => intro it m; simp [benchmarkNaiveGreedyLoop, naiveNext]
  | succ k ih =>
    intro it m
    rw [benchmarkNaiveGreedyLoop]
    conv_rhs => rw [benchmarkNaiveGreedyLoop]
    cases hf : findAugmentingPathDFS g m with
    | none => rfl
    | some r =>
      cases r with
      | none => simp [naiveNext]
      | some p => exact ih _ _

theorem hopcroftLoop_succ (g : Graph) :
    ∀ (k it : Nat) (m : Matching),
      benchmarkHopcroftKarpLoop g (k + 1) it m =
        (benchmarkHopcroftKarpLoop g k it m).bind (hopcroftNext g) := by
  intro k
  induction k with
  | zero => intro it m; simp [benchmarkHopcroftKarpLoop, hopcroftNext]
  | succ k ih =>
    intro it m
    rw [benchmarkHopcroftKarpLoop]
    conv_rhs => rw [benchmarkHopcroftKarpLoop]
    cases hf : findMultiplePaths g m with
    | none => rfl
    | some paths =>
      by_cases hp : (paths.length == 0) = true
      · simp [hp, hopcroftNext]
      · simp only [hp, Bool.false_eq_true, if_false]
        exact ih _ _

theorem naiveLoop_valid {g : Graph} (hw : WellFormed g) :
    ∀ (k it : Nat) (m : Matching) (s : LoopState), ValidMatching g m →
      benchmarkNaiveGreedyLoop g k it m = some s → ValidMatching g s.testMatching := by
  intro k
  induction k with
  | zero =>
    intro it m s hv h
    simp [benchmarkNaiveGreedyLoop] at h
    rw [← h]; exact hv
  | succ k ih =>
    intro it m s hv h
    rw [benchmarkNaiveGreedyLoop] at h
    cases hf : findAugmentingPathDFS g m with
    | none => simp [hf] at h
    | some r =>
      cases r with
      | none =>
        simp [hf] at h
        rw [← h]; exact hv
      | some p =>
        simp only [hf] at h
        exact ih _ _ s
          (validMatching_applyPathSync hv (findAugmentingPathDFS_augmenting hw hv hf)) h

theorem stepNaive_valid {g : Graph} (hw : WellFormed g) {s s1 : RaceState}
    (hv : ValidMatching g s.matching) (h : stepNaiveGreedy g s = some s1) :
    ValidMatching g s1.matching := by
  unfold stepNaiveGreedy at h
  cases hf : findAugmentingPathDFS g s.matching with
  | none => simp [hf] at h
  | some r =>
    cases r with
    | none =>
      simp [hf] at h
      rw [← h]; exact hv
    | some p =>
      simp [hf] at h
      rw [← h]
      exact validMatching_applyPathSync hv (findAugmentingPathDFS_augmenting hw hv hf)

theorem iterateStep_invariant {σ : Type} (step : σ → Option σ) (P : σ → Prop)
    (hstep : ∀ s s1, P s → step s = some s1 → P s1) :
    ∀ (n : Nat) (s s1 : σ), P s → iterateStep step n s = some s1 → P s1 := by
  intro n
  induction n with
  | zero =>
    intro s s1 hP h
    simp [iterateStep] at h
    rw [← h]; exact hP
  | succ n ih =>
    intro s s1 hP h
    rw [iterateStep] at h
    cases hs : step s with
    | none => simp [hs] at h
    | some s2 =>
      simp only [hs] at h
      exact ih s2 s1 (hstep s s2 hP hs) h

theorem hopcroftLoop_pre {g : Graph} (hw : WellFormed g) :
    ∀ (k it : Nat) (m : Matching) (s : LoopState), PreMatching g m →
      benchmarkHopcroftKarpLoop g k it m = some s → PreMatching g s.testMatching := by
  intro k
  induction k with
  | zero =>
    intro it m s hv h
    simp [benchmarkHopcroftKarpLoop] at h
    rw [← h]; exact hv
  | succ k ih =>
    intro it m s hv h
    rw [benchmarkHopcroftKarpLoop] at h
    obtain ⟨paths, hf, _, hpre, _⟩ := phase_result hw hv
    simp only [hf] at h
    by_cases hp : (paths.length == 0) = true
    · simp [hp] at h
      rw [← h]; exact hv
    · simp only [hp, Bool.false_eq_true, if_false] at h
      exact ih _ _ s hpre h

theorem hopcroftLoop_finishes {g : Graph} (hw : WellFormed g) :
    ∀ (fuel it : Nat) (m : Matching), PreMatching g m →
      g.leftNodes.length - m.length < fuel →
      ∃ s, benchmarkHopcroftKarpLoop g fuel it m = some s ∧ s.finished = true := by
  intro fuel
  induction fuel with
  | zero => intro it m _ h; omega
  | succ fuel ih =>
    intro it m hv h
    rw [benchmarkHopcroftKarpLoop]
    obtain ⟨paths, hf, _, hpre, hlen⟩ := phase_result hw hv
    simp only [hf]
    by_cases hp : (paths.length == 0) = true
    · simp [hp]
    · simp only [hp, Bool.false_eq_true, if_false]
      apply ih _ _ hpre
      have h1 := preMatching_length_le hw hpre
      have h2 : paths.length ≠ 0 := by simpa using hp
      omega

theorem stepHopcroft_pre {g : Graph} (hw : WellFormed g) {s s1 : RaceState}
    (hv : PreMatching g s.matching) (h : stepHopcroftKarp g s = some s1) :
    PreMatching g s1.matching := by
  unfold stepHopcroftKarp at h
  obtain ⟨paths, hf, _, hpre, _⟩ := phase_result hw hv
  simp only [hf] at h
  by_cases hp : (paths.length == 0) = true
  · simp [hp] at h
    rw [← h]; exact hv
  · simp [hp] at h
    rw [← h]; exact hpre

theorem preMatching_nil (g : Graph) : PreMatching g [] :=
  ⟨List.nodup_nil, fun _ h => by simp at h⟩

theorem validMatching_nil (g : Graph) : ValidMatching g [] :=
  ⟨List.nodup_nil, fun _ h => by simp at h, fun _ h => by simp at h⟩

theorem alternating_index {g : Graph} {m : Matching} :
    ∀ (rest : Path) (u : NodeId), AlternatingFrom g m u rest →
      (∀ i, 2 * i + 1 < (u :: rest).length →
        (⟨(u :: rest).getD (2 * i) 0, (u :: rest).getD (2 * i + 1) 0⟩ : Edge) ∈ g.edges ∧
        ((u :: rest).getD (2 * i) 0, (u :: rest).getD (2 * i + 1) 0) ∉ m) ∧
      (∀ i, 2 * i + 2 < (u :: rest).length →
        ((u :: rest).getD (2 * i + 2) 0, (u :: rest).getD (2 * i + 1) 0) ∈ m) ∧
      (∀ kv ∈ m, kv.2 ≠ (u :: rest).getD ((u :: rest).length - 1) 0)
  | [], _, h => by simp [AlternatingFrom] at h
  | [v], u, h => by
    refine ⟨?_, ?_, ?_⟩
    · intro i hi
      have : i = 0 := by simp only [List.length_cons, List.length_nil] at hi; omega
      subst this
      exact ⟨h.1, fun hm => h.2 (u, v) hm rfl⟩
    · intro i hi
      simp only [List.length_cons, List.length_nil] at hi; omega
    · intro kv hkv
      exact h.2 kv hkv
  | v :: w :: rest, u, h => by
    obtain ⟨ih1, ih2, ih3⟩ := alternating_index rest w h.2.2.2
    refine ⟨?_, ?_, ?_⟩
    · intro i hi
      cases i with
      | zero => exact ⟨h.1, h.2.1⟩
      | succ j =>
        have e1 : 2 * (j + 1) = (2 * j) + 1 + 1 := by omega
        have e2 : 2 * (j + 1) + 1 = (2 * j + 1) + 1 + 1 := by omega
        rw [e2, e1]
        simp only [List.getD_cons_succ]
        apply ih1 j
        simp only [List.length_cons] at hi ⊢; omega
    · intro i hi
      cases i with
      | zero => exact h.2.2.1
      | succ j =>
        have e1 : 2 * (j + 1) + 2 = (2 * j + 2) + 1 + 1 := by omega
        have e2 : 2 * (j + 1) + 1 = (2 * j + 1) + 1 + 1 := by omega
        rw [e2, e1]
        simp only [List.getD_cons_succ]
        apply ih2 j
        simp only [List.length_cons] at hi ⊢; omega
    · have e : (u :: v :: w :: rest).length - 1 = ((w :: rest).length - 1) + 1 + 1 := by
        simp only [List.length_cons]; omega
      rw [e]
      simp only [List.getD_cons_succ]
      exact ih3

/-! ## The searches and loops return on every input -/

theorem dfsPathLoop_mono (recur : NodeId → List NodeId → Option SearchResult)
    (m : Matching) (level : JMap Nat) (u : NodeId)
    (hmono : ∀ w V res V1, recur w V = some (res, V1) → V ⊆ V1) :
    ∀ (vs V : List NodeId) (res : Option Path) (V1 : List NodeId),
      dfsPathLoop recur m level u vs V = some (res, V1) → V ⊆ V1 := by
  intro vs
  induction vs with
  | nil =>
    intro V res V1 h
    simp only [dfsPathLoop, Option.some.injEq, Prod.mk.injEq] at h
    rw [← h.2]; exact List.Subset.refl _
  | cons v vs ih =>
    intro V res V1 h
    rw [dfsPathLoop] at h
    by_cases hl : level.has v = true
    · simp only [hl, Bool.not_true, Bool.false_eq_true, if_false] at h
      cases hg : getMatchedNodeFrom v m with
      | none =>
        simp only [hg, Option.some.injEq, Prod.mk.injEq] at h
        rw [← h.2]; exact List.Subset.refl _
      | some w =>
        simp only [hg] at h
        by_cases hn : levelIsNext level w u = true
        · simp only [hn, if_true] at h
          cases hr : recur w V with
          | none => simp [hr] at h
          | some r =>
            obtain ⟨r1, V2⟩ := r
            have hsub := hmono w V r1 V2 hr
            cases r1 with
            | some p =>
              simp only [hr, Option.some.injEq, Prod.mk.injEq] at h
              rw [← h.2]; exact hsub
            | none =>
              simp only [hr] at h
              exact hsub.trans (ih V2 res V1 h)
        · simp only [hn, Bool.false_eq_true, if_false] at h
          exact ih V res V1 h
    · simp only [hl, Bool.not_false, if_true] at h
      exact ih V res V1 h

theorem dfsPath_mono (m : Matching) (level : JMap Nat) (adjList : JMap (List NodeId)) :
    ∀ (fuel : Nat) (u : NodeId) (V : List NodeId) (res : Option Path) (V1 : List NodeId),
      dfsPath m level adjList fuel u V = some (res, V1) → V ⊆ V1 := by
  intro fuel
  induction fuel with
  | zero =>
    intro u V res V1 h
    rw [dfsPath] at h
    by_cases hu : V.contains u = true
    · simp only [hu, if_true, Option.some.injEq, Prod.mk.injEq] at h
      rw [← h.2]; exact List.Subset.refl _
    · simp only [hu, Bool.false_eq_true, if_false] at h
      cases h
  | succ fuel ih =>
    intro u V res V1 h
    rw [dfsPath] at h
    by_cases hu : V.contains u = true
    · simp only [hu, if_true, Option.some.injEq, Prod.mk.injEq] at h
      rw [← h.2]; exact List.Subset.refl _
    · simp only [hu, Bool.false_eq_true, if_false] at h
      cases hadj : adjList.get u with
      | none =>
        simp only [hadj, Option.some.injEq, Prod.mk.injEq] at h
        rw [← h.2]; exact List.subset_cons_self _ _
      | some vs =>
        simp only [hadj] at h
        exact (List.subset_cons_self _ _).trans
          (dfsPathLoop_mono _ m level u (fun w V2 r V3 hh => ih w V2 r V3 hh) vs _ res V1 h)

theorem dfsPathLoop_some (recur : NodeId → List NodeId → Option SearchResult)
    (m : Matching) (level : JMap Nat) (u : NodeId) (V0 : List NodeId)
    (hrec : ∀ w ∈ idsOf m, ∀ V, V0 ⊆ V → ∃ r, recur w V = some r)
    (hmono : ∀ w V res V1, recur w V = some (res, V1) → V ⊆ V1) :
    ∀ (vs V : List NodeId), V0 ⊆ V → ∃ r, dfsPathLoop recur m level u vs V = some r := by
  intro vs
  induction vs with
  | nil => intro V _; exact ⟨_, rfl⟩
  | cons v vs ih =>
    intro V hV
    rw [dfsPathLoop]
    by_cases hl : level.has v = true
    · simp only [hl, Bool.not_true, Bool.false_eq_true, if_false]
      cases hg : getMatchedNodeFrom v m with
      | none => exact ⟨_, rfl⟩
      | some w =>
        simp only
        by_cases hn : levelIsNext level w u = true
        · simp only [hn, if_true]
          obtain ⟨r, hr⟩ := hrec w (getMatchedNodeFrom_mem_idsOf hg) V hV
          obtain ⟨r1, V2⟩ := r
          have hsub := hmono w V r1 V2 hr
          cases r1 with
          | some p => simp only [hr]; exact ⟨_, rfl⟩
          | none => simp only [hr]; exact ih V2 (hV.trans hsub)
        · simp only [hn, Bool.false_eq_true, if_false]
          exact ih V hV
    · simp only [hl, Bool.not_false, if_true]
      exact ih V hV

theorem dfsPath_some (m : Matching) (level : JMap Nat) (adjList : JMap (List NodeId)) :
    ∀ (fuel : Nat) (u : NodeId) (V : List NodeId),
      (u ∉ V → unvisited m (u :: V) + 1 ≤ fuel) →
      ∃ r, dfsPath m level adjList fuel u V = some r := by
  intro fuel
  induction fuel with
  | zero =>
    intro u V h
    rw [dfsPath]
    by_cases hu : V.contains u = true
    · simp only [hu, if_true]; exact ⟨_, rfl⟩
    · have : u ∉ V := by simpa using hu
      have := h this
      omega
  | succ fuel ih =>
    intro u V h
    rw [dfsPath]
    by_cases hu : V.contains u = true
    · simp only [hu, if_true]; exact ⟨_, rfl⟩
    · simp only [hu, Bool.false_eq_true, if_false]
      have huV : u ∉ V := by simpa using hu
      have hf := h huV
      cases hadj : adjList.get u with
      | none => exact ⟨_, rfl⟩
      | some vs =>
        simp only []
        apply dfsPathLoop_some _ m level u (u :: V)
        · intro w hw V2 hV2
          apply ih
          intro hwV
          have h1 := unvisited_cons_lt m hw hwV
          have h2 := unvisited_mono m hV2
          omega
        · intro w V2 res V3 hh
          exact dfsPath_mono m level adjList fuel w V2 res V3 hh
        · exact List.Subset.refl _

theorem findMultiplePathsLoop_some (m : Matching) (level : JMap Nat)
    (adjList : JMap (List NodeId)) :
    ∀ (nodes : List NodeId) (paths : List Path) (used : List NodeId),
      ∃ r, findMultiplePathsLoop m level adjList (searchFuel m) nodes paths used = some r := by
  intro nodes
  induction nodes with
  | nil => intro paths used; exact ⟨_, rfl⟩
  | cons node nodes ih =>
    intro paths used
    rw [findMultiplePathsLoop]
    by_cases hm : m.has node = true
    · simp only [hm, Bool.not_true, Bool.false_eq_true, if_false]
      exact ih paths used
    · simp only [hm, Bool.not_false, if_true]
      obtain ⟨r, hr⟩ := dfsPath_some m level adjList (searchFuel m) node used (by
        intro _
        have := unvisited_le m (node :: used)
        unfold searchFuel; omega)
      obtain ⟨r1, V2⟩ := r
      cases r1 with
      | some p1 => simp only [hr]; exact ih _ _
      | none => simp only [hr]; exact ih _ _

/-- The phase search returns on every graph and every map. -/
theorem findMultiplePaths_some (g : Graph) (m : Matching) :
    ∃ paths, findMultiplePaths g m = some paths := by
  unfold findMultiplePaths
  simp only
  obtain ⟨level, hlevel⟩ := bfsLoop_some m (buildAdjList g.edges) (bfsFuel g m)
    (bfsInit m g.leftNodes).1 (bfsInit m g.leftNodes).2 (bfsInit_measure g m)
  rw [hlevel]
  simp only
  obtain ⟨r, hr⟩ := findMultiplePathsLoop_some m level (buildAdjList g.edges) g.leftNodes [] []
  exact ⟨r.1, by rw [hr]; rfl⟩

theorem findPathsSync_some (g : Graph) (m : Matching) :
    ∃ paths, findPathsSync g m = some paths := by
  rw [findPathsSync_eq]; exact findMultiplePaths_some g m

theorem naiveLoop_finishes {g : Graph} (hw : WellFormed g) :
    ∀ (fuel it : Nat) (m : Matching), ValidMatching g m →
      g.leftNodes.length - m.length < fuel →
      ∃ s, benchmarkNaiveGreedyLoop g fuel it m = some s ∧ s.finished = true := by
  intro fuel
  induction fuel with
  | zero => intro it m _ h; omega
  | succ fuel ih =>
    intro it m hv h
    rw [benchmarkNaiveGreedyLoop]
    obtain ⟨r, hr⟩ := findAugmentingPathDFS_some g m
    cases r with
    | none => simp [hr]
    | some p =>
      simp only [hr]
      have hp := findAugmentingPathDFS_augmenting hw hv hr
      have hv1 := validMatching_applyPathSync hv hp
      apply ih _ _ hv1
      have h1 := preMatching_length_le hw (validMatching_preMatching hv1)
      have h2 := length_applyPathSync_augmenting hp
      omega

/-- On a well-formed graph both benchmark functions return an iteration
count. -/
theorem benchmarks_return {g : Graph} (hw : WellFormed g) :
    (∃ n, benchmarkNaiveGreedy g = some n) ∧ (∃ n, benchmarkHopcroftKarp g = some n) := by
  constructor
  · obtain ⟨s, hs, hfin⟩ := naiveLoop_finishes hw (loopFuel g) 0 [] (validMatching_nil g)
      (by unfold loopFuel; simp)
    exact ⟨s.iterations, by simp [benchmarkNaiveGreedy, hs, hfin]⟩
  · obtain ⟨s, hs, hfin⟩ := hopcroftLoop_finishes hw (loopFuel g) 0 [] (preMatching_nil g)
      (by unfold loopFuel; simp)
    exact ⟨s.iterations, by simp [benchmarkHopcroftKarp, hs, hfin]⟩

/-! ## The claims -/

theorem maximum_of_length_eq_left {g : Graph} {m : Matching} (hw : WellFormed g)
    (hv : ValidMatching g m) (h : m.length = g.leftNodes.length) : MaximumMatching g m :=
  ⟨hv, fun m1 hv1 => by
    rw [h]; exact preMatching_length_le hw (validMatching_preMatching hv1)⟩

theorem validMatching_values_nodup {g : Graph} {m : Matching} (hv : ValidMatching g m) :
    (m.map Prod.snd).Nodup := by
  apply List.Nodup.map_on _ (List.Nodup.of_map _ hv.1)
  intro x hx y hy hxy
  exact Prod.ext (hv.2.1 x hx y hy hxy) hxy

theorem graphGenerated_at_most_two (m : Matching) (hv : ValidMatching graphGenerated m) :
    m.length ≤ 2 := by
  have hsub : m.map Prod.snd ⊆ [R 0, R 1] := by
    intro x hx
    obtain ⟨kv, hkv, h1⟩ := List.mem_map.1 hx
    have := hv.2.2 kv hkv
    simp only [graphGenerated, List.mem_cons, Edge.mk.injEq, List.mem_singleton,
      List.not_mem_nil, or_false] at this
    rw [← h1]
    simp only [List.mem_cons, List.mem_singleton, List.not_mem_nil, or_false]
    rcases this with h | h | h | h | h | h | h | h | h | h | h | h
    all_goals first | exact Or.inl h.2 | exact Or.inr h.2
  have := (List.subperm_of_subset (validMatching_values_nodup hv) hsub).length_le
  simpa using this

/-- C1 (code defect).  On a graph that `generateGraph` can draw (six left
nodes, each with the edges to `R0` and `R1`) the loop of
`benchmarkHopcroftKarp` ends with the six-key map that sends every left node to
`R0`, the loop of `benchmarkNaiveGreedy` ends with a two-pair matching, and two
pairs is the size of a maximum matching: the strategies do not end with
matchings of the same size. -/
theorem C1_phase_strategy_size_differs :
    WellFormed graphGenerated ∧
    benchmarkHopcroftKarpLoop graphGenerated (loopFuel graphGenerated) 0 [] =
      some ⟨true, 2,
        [(L 0, R 0), (L 1, R 0), (L 2, R 0), (L 3, R 0), (L 4, R 0), (L 5, R 0)]⟩ ∧
    benchmarkNaiveGreedyLoop graphGenerated (loopFuel graphGenerated) 0 [] =
      some ⟨true, 3, [(L 0, R 1), (L 1, R 0)]⟩ ∧
    MaximumMatching graphGenerated [(L 0, R 1), (L 1, R 0)] := by
  refine ⟨by decide, by decide, by decide, by decide, ?_⟩
  intro m1 hv1
  exact graphGenerated_at_most_two m1 hv1

/-- C2 (code defect).  The phase strategy reaches maps that are not injective:
on scenario 1 the matching is `L0 ↦ R0, L1 ↦ R0` after the first iteration of
`benchmarkHopcroftKarp`'s loop and after five `executeStep` calls, and on a
graph that `generateGraph` can draw the first iteration sends all six left
nodes to `R0`. -/
theorem C2_phase_strategy_not_injective :
    WellFormed graphScenario1 ∧
    benchmarkHopcroftKarpLoop graphScenario1 1 0 [] =
      some ⟨false, 1, [(L 0, R 0), (L 1, R 0)]⟩ ∧
    (iterateStep (executeStep graphScenario1) 5 Controller.initial).map
      (fun c => c.matching) = some [(L 0, R 0), (L 1, R 0)] ∧
    ¬ Injective [(L 0, R 0), (L 1, R 0)] ∧
    WellFormed graphGenerated ∧
    benchmarkHopcroftKarpLoop graphGenerated 1 0 [] =
      some ⟨false, 1,
        [(L 0, R 0), (L 1, R 0), (L 2, R 0), (L 3, R 0), (L 4, R 0), (L 5, R 0)]⟩ ∧
    (iterateStep (stepHopcroftKarp graphGenerated) 1 RaceState.initial).map
      (fun s => s.matching) =
      some [(L 0, R 0), (L 1, R 0), (L 2, R 0), (L 3, R 0), (L 4, R 0), (L 5, R 0)] ∧
    ¬ Injective [(L 0, R 0), (L 1, R 0), (L 2, R 0), (L 3, R 0), (L 4, R 0), (L 5, R 0)] := by
  refine ⟨by decide, by decide, by decide, by decide, by decide, by decide, by decide,
    by decide⟩

/-- C3 (code defect).  With the empty matching one call of the phase search
returns paths that share a right vertex: `[L0, R0]` and `[L1, R0]` on
scenario 1, and six paths that all end in `R0` on a graph that `generateGraph`
can draw; `used` only ever receives left vertices. -/
theorem C3_phase_paths_share_right_vertex :
    WellFormed graphScenario1 ∧
    findMultiplePaths graphScenario1 [] = some [[L 0, R 0], [L 1, R 0]] ∧
    findPathsSync graphScenario1 [] = some [[L 0, R 0], [L 1, R 0]] ∧
    R 0 ∈ [L 0, R 0] ∧ R 0 ∈ [L 1, R 0] ∧
    WellFormed graphGenerated ∧
    findMultiplePaths graphGenerated [] =
      some [[L 0, R 0], [L 1, R 0], [L 2, R 0], [L 3, R 0], [L 4, R 0], [L 5, R 0]] := by
  refine ⟨by decide, by decide, by decide, by decide, by decide, by decide, by decide⟩

/-- C4 (code defect).  The phase search returns no path although an augmenting
path exists and the matching is not maximum: on scenario 1 with the valid
matching `L0 ↦ R0` (augmenting path `[L1, R0, L0, R1]`), and on a graph that
`generateGraph` can draw with the valid matching `L0 ↦ R0, L1 ↦ R2`
(augmenting path `[L2, R0, L0, R1]`). -/
theorem C4_phase_search_misses_augmenting_path :
    WellFormed graphScenario1 ∧ ValidMatching graphScenario1 [(L 0, R 0)] ∧
    findMultiplePaths graphScenario1 [(L 0, R 0)] = some [] ∧
    findPathsSync graphScenario1 [(L 0, R 0)] = some [] ∧
    AugmentingPath graphScenario1 [(L 0, R 0)] [L 1, R 0, L 0, R 1] ∧
    ¬ MaximumMatching graphScenario1 [(L 0, R 0)] ∧
    WellFormed graphGeneratedB ∧ ValidMatching graphGeneratedB [(L 0, R 0), (L 1, R 2)] ∧
    findMultiplePaths graphGeneratedB [(L 0, R 0), (L 1, R 2)] = some [] ∧
    AugmentingPath graphGeneratedB [(L 0, R 0), (L 1, R 2)] [L 2, R 0, L 0, R 1] ∧
    ¬ MaximumMatching graphGeneratedB [(L 0, R 0), (L 1, R 2)] := by
  refine ⟨by decide, by decide, by decide, by decide, ?_, ?_, by decide, by decide,
    by decide, ?_, ?_⟩
  · refine ⟨by decide, by decide, by decide, by decide, by decide, by decide, by decide, ?_⟩
    intro kv hkv
    simp only [List.mem_singleton] at hkv
    subst hkv
    decide
  · intro h
    have := h.2 [(L 0, R 1), (L 1, R 0)] (by decide)
    simp at this
  · refine ⟨by decide, by decide, by decide, by decide, by decide, by decide, by decide, ?_⟩
    intro kv hkv
    simp only [List.mem_cons, List.mem_singleton, List.not_mem_nil, or_false] at hkv
    rcases hkv with h | h <;> subst h <;> decide
  · intro h
    have := h.2 [(L 0, R 1), (L 1, R 0), (L 2, R 2)] (by decide)
    simp at this

/-- C5.  On a well-formed graph and a valid matching `findAugmentingPathDFS`
always returns normally, and it returns `null` exactly when there is no
augmenting path. -/
theorem C5_single_path_search_complete (g : Graph) (m : Matching) (hw : WellFormed g)
    (hv : ValidMatching g m) :
    (∃ r, findAugmentingPathDFS g m = some r) ∧
    (findAugmentingPathDFS g m = some none ↔ ¬ ∃ p, AugmentingPath g m p) := by
  refine ⟨findAugmentingPathDFS_some g m, findAugmentingPathDFS_none hw hv, ?_⟩
  intro hno
  obtain ⟨r, hr⟩ := findAugmentingPathDFS_some g m
  cases r with
  | none => exact hr
  | some p => exact absurd ⟨p, findAugmentingPathDFS_augmenting hw hv hr⟩ hno

theorem C5_single_path_search_complete_witness :
    WellFormed graphScenario1 ∧ ValidMatching graphScenario1 [(L 0, R 0)] ∧
    ((∃ r, findAugmentingPathDFS graphScenario1 [(L 0, R 0)] = some r) ∧
      (findAugmentingPathDFS graphScenario1 [(L 0, R 0)] = some none ↔
        ¬ ∃ p, AugmentingPath graphScenario1 [(L 0, R 0)] p)) :=
  ⟨by decide, by decide,
    C5_single_path_search_complete graphScenario1 [(L 0, R 0)] (by decide) (by decide)⟩

/-- C6.  A path `[u0, v0, …, uk, vk]` returned by `findAugmentingPathDFS` on a
well-formed graph and a valid matching has an even number, at least two, of
pairwise distinct vertices; every `(ui, vi)` goes from a left to a right
vertex along an edge that is not in the matching; `u0` and `vk` are unmatched;
and every `vi` before the last is matched to `u(i+1)`. -/
theorem C6_returned_path_is_augmenting (g : Graph) (m : Matching) (p : Path)
    (hw : WellFormed g) (hv : ValidMatching g m)
    (h : findAugmentingPathDFS g m = some (some p)) :
    2 ≤ p.length ∧ p.length % 2 = 0 ∧ p.Nodup ∧
    (∀ i, 2 * i + 1 < p.length →
      p.getD (2 * i) 0 ∈ g.leftNodes ∧ p.getD (2 * i + 1) 0 ∈ g.rightNodes ∧
      (⟨p.getD (2 * i) 0, p.getD (2 * i + 1) 0⟩ : Edge) ∈ g.edges ∧
      (p.getD (2 * i) 0, p.getD (2 * i + 1) 0) ∉ m) ∧
    m.has (p.getD 0 0) = false ∧
    (∀ kv ∈ m, kv.2 ≠ p.getD (p.length - 1) 0) ∧
    (∀ i, 2 * i + 2 < p.length → (p.getD (2 * i + 2) 0, p.getD (2 * i + 1) 0) ∈ m) := by
  have ha := findAugmentingPathDFS_augmenting hw hv h
  cases p with
  | nil => simp [AugmentingPath] at ha
  | cons u rest =>
    obtain ⟨_, hum, hn, halt⟩ := ha
    obtain ⟨h1, h2, h3⟩ := alternating_index rest u halt
    have heven := alternating_even rest u halt
    refine ⟨?_, heven, hn, ?_, hum, h3, h2⟩
    · cases rest with
      | nil => simp [AlternatingFrom] at halt
      | cons v rest => simp
    · intro i hi
      obtain ⟨he, hnm⟩ := h1 i hi
      exact ⟨(hw.2.2 _ he).1, (hw.2.2 _ he).2, he, hnm⟩

theorem C6_returned_path_is_augmenting_witness :
    WellFormed graphScenario1 ∧ ValidMatching graphScenario1 [(L 0, R 0)] ∧
    findAugmentingPathDFS graphScenario1 [(L 0, R 0)] = some (some [L 1, R 0, L 0, R 1]) ∧
    [L 1, R 0, L 0, R 1].Nodup ∧
    (∀ i, 2 * i + 2 < [L 1, R 0, L 0, R 1].length →
      ([L 1, R 0, L 0, R 1].getD (2 * i + 2) 0, [L 1, R 0, L 0, R 1].getD (2 * i + 1) 0) ∈
        [(L 0, R 0)]) :=
  have h := C6_returned_path_is_augmenting graphScenario1 [(L 0, R 0)] [L 1, R 0, L 0, R 1]
    (by decide) (by decide) (by decide)
  ⟨by decide, by decide, by decide, h.2.2.1, h.2.2.2.2.2.2⟩

/-- C7.  On a well-formed graph every matching reached by the single-path
strategy from the empty matching, in `benchmarkNaiveGreedy`'s loop after any
number of iterations and in the race after any number of `stepNaiveGreedy`
calls, is injective and consists of edges of the graph. -/
theorem C7_single_path_strategy_keeps_matching_valid (g : Graph) (hw : WellFormed g) :
    (∀ k s, benchmarkNaiveGreedyLoop g k 0 [] = some s →
      Injective s.testMatching ∧ PairsAreEdges g s.testMatching) ∧
    (∀ n s, iterateStep (stepNaiveGreedy g) n RaceState.initial = some s →
      Injective s.matching ∧ PairsAreEdges g s.matching) := by
  constructor
  · intro k s h
    exact (naiveLoop_valid hw k 0 [] s (validMatching_nil g) h).2
  · intro n s h
    exact (iterateStep_invariant (stepNaiveGreedy g) (fun s => ValidMatching g s.matching)
      (fun s s1 hs hstep => stepNaive_valid hw hs hstep) n RaceState.initial s
      (validMatching_nil g) h).2

theorem C7_single_path_strategy_keeps_matching_valid_witness :
    WellFormed graphScenario1 ∧
    (∀ k s, benchmarkNaiveGreedyLoop graphScenario1 k 0 [] = some s →
      Injective s.testMatching ∧ PairsAreEdges graphScenario1 s.testMatching) ∧
    (∀ n s, iterateStep (stepNaiveGreedy graphScenario1) n RaceState.initial = some s →
      Injective s.matching ∧ PairsAreEdges graphScenario1 s.matching) :=
  ⟨by decide, C7_single_path_strategy_keeps_matching_valid graphScenario1 (by decide)⟩

/-! ## Growth of the matching -/

theorem applyPathSync_length_le (m : Matching) (p : Path) :
    m.length ≤ (applyPathSync m p).length := by
  rw [applyPathSync_eq_applyPairs]
  exact applyPairs_length_le _ _

theorem searchTail_ne_nil {m : Matching} {adjList : JMap (List NodeId)} {u : NodeId}
    {rest : Path} (h : SearchTail m adjList u rest) : ∃ v rest1, rest = v :: rest1 := by
  cases rest with
  | nil => simp [SearchTail] at h
  | cons v rest1 => exact ⟨v, rest1, rfl⟩

theorem naive_iteration_grows {g : Graph} {m : Matching} {p : Path}
    (h : findAugmentingPathDFS g m = some (some p)) :
    m.length + 1 ≤ (applyPathSync m p).length := by
  obtain ⟨u, rest, hp, _, hum, ht, _⟩ := findAugmentingPathDFS_head h
  obtain ⟨v, rest1, hr⟩ := searchTail_ne_nil ht
  subst hr; subst hp
  rw [applyPathSync]
  refine Nat.le_trans ?_ (applyPathSync_length_le _ _)
  rw [JMap.length_set, hum]
  simp

theorem maximum_no_augmenting {g : Graph} {m : Matching} (h : MaximumMatching g m) :
    ¬ ∃ p, AugmentingPath g m p := by
  rintro ⟨p, hp⟩
  have h1 := h.2 _ (validMatching_applyPathSync h.1 hp)
  have h2 := length_applyPathSync_augmenting hp
  omega

theorem phase_path_augmenting {g : Graph} {m : Matching} (hw : WellFormed g) {u v : NodeId}
    (hu : u ∈ g.leftNodes) (hum : m.has u = false) (he : (⟨u, v⟩ : Edge) ∈ g.edges)
    (hg : getMatchedNodeFrom v m = none) : AugmentingPath g m [u, v] := by
  refine ⟨hu, hum, ?_, he, getMatchedNodeFrom_none hg⟩
  have hv := (hw.2.2 _ he).2
  have hne : u ≠ v := fun h => hw.2.1 u hu (by rw [h]; exact hv)
  simp [hne]

theorem maximum_phase_empty {g : Graph} {m : Matching} (hw : WellFormed g)
    (h : MaximumMatching g m) : findMultiplePaths g m = some [] := by
  obtain ⟨paths, hf, hshape, _, _⟩ := phase_result hw (validMatching_preMatching h.1)
  cases paths with
  | nil => exact hf
  | cons p paths =>
    exfalso
    obtain ⟨u, v, _, hu, hum, he, hg⟩ := hshape p (List.mem_cons_self _ _)
    exact maximum_no_augmenting h ⟨[u, v], phase_path_augmenting hw hu hum he hg⟩

theorem maximum_single_null {g : Graph} {m : Matching} (hw : WellFormed g)
    (h : MaximumMatching g m) : findAugmentingPathDFS g m = some none := by
  obtain ⟨r, hr⟩ := findAugmentingPathDFS_some g m
  cases r with
  | none => exact hr
  | some p =>
    exact absurd ⟨p, findAugmentingPathDFS_augmenting hw h.1 hr⟩ (maximum_no_augmenting h)

/-! ## The claims on growth and completion -/

/-- C8.  Along a run of either strategy from the empty matching on a
well-formed graph, in the benchmark loops (state after `k` and after `k + 1`
iterations) and in the race steppers, the number of keys of the matching never
decreases from one iteration to the next, and it grows by at least one in
every iteration whose search returned a path (a non-empty list of paths). -/
theorem C8_matching_size_monotone (g : Graph) (hw : WellFormed g) :
    (∀ k s s1, benchmarkNaiveGreedyLoop g k 0 [] = some s →
      benchmarkNaiveGreedyLoop g (k + 1) 0 [] = some s1 →
      s.testMatching.length ≤ s1.testMatching.length ∧
      (s.finished = false → ∀ p, findAugmentingPathDFS g s.testMatching = some (some p) →
        s.testMatching.length + 1 ≤ s1.testMatching.length)) ∧
    (∀ n s s1, iterateStep (stepNaiveGreedy g) n RaceState.initial = some s →
      stepNaiveGreedy g s = some s1 →
      s.matching.length ≤ s1.matching.length ∧
      (∀ p, findAugmentingPathDFS g s.matching = some (some p) →
        s.matching.length + 1 ≤ s1.matching.length)) ∧
    (∀ k s s1, benchmarkHopcroftKarpLoop g k 0 [] = some s →
      benchmarkHopcroftKarpLoop g (k + 1) 0 [] = some s1 →
      s.testMatching.length ≤ s1.testMatching.length ∧
      (s.finished = false → ∀ paths, findMultiplePaths g s.testMatching = some paths →
        paths ≠ [] → s.testMatching.length + 1 ≤ s1.testMatching.length)) ∧
    (∀ n s s1, iterateStep (stepHopcroftKarp g) n RaceState.initial = some s →
      stepHopcroftKarp g s = some s1 →
      s.matching.length ≤ s1.matching.length ∧
      (∀ paths, findMultiplePaths g s.matching = some paths → paths ≠ [] →
        s.matching.length + 1 ≤ s1.matching.length)) := by
  refine ⟨?_, ?_, ?_, ?_⟩
  · intro k s s1 hs hs1
    rw [naiveLoop_succ, hs] at hs1
    simp only [Option.some_bind, naiveNext] at hs1
    by_cases hfin : s.finished = true
    · simp only [hfin, if_true, Option.some.injEq] at hs1
      subst hs1
      exact ⟨Nat.le_refl _, fun h => by rw [hfin] at h; cases h⟩
    · simp only [hfin, Bool.false_eq_true, if_false] at hs1
      rw [benchmarkNaiveGreedyLoop] at hs1
      cases hf : findAugmentingPathDFS g s.testMatching with
      | none => simp [hf] at hs1
      | some r =>
        cases r with
        | none =>
          simp only [hf, Option.some.injEq] at hs1
          subst hs1
          exact ⟨Nat.le_refl _, fun _ p hp => by cases hp⟩
        | some p =>
          simp only [hf, benchmarkNaiveGreedyLoop, Option.some.injEq] at hs1
          subst hs1
          have := naive_iteration_grows hf
          refine ⟨by simp only; omega, fun _ p1 hp1 => ?_⟩
          cases hp1
          exact this
  · intro n s s1 _ hs1
    unfold stepNaiveGreedy at hs1
    cases hf : findAugmentingPathDFS g s.matching with
    | none => simp [hf] at hs1
    | some r =>
      cases r with
      | none =>
        simp only [hf, Option.some.injEq] at hs1
        subst hs1
        exact ⟨Nat.le_refl _, fun p hp => by cases hp⟩
      | some p =>
        simp only [hf, Option.some.injEq] at hs1
        subst hs1
        have := naive_iteration_grows hf
        refine ⟨by simp only; omega, fun p1 hp1 => ?_⟩
        cases hp1
        exact this
  · intro k s s1 hs hs1
    have hpre := hopcroftLoop_pre hw k 0 [] s (preMatching_nil g) hs
    rw [hopcroftLoop_succ, hs] at hs1
    simp only [Option.some_bind, hopcroftNext] at hs1
    by_cases hfin : s.finished = true
    · simp only [hfin, if_true, Option.some.injEq] at hs1
      subst hs1
      exact ⟨Nat.le_refl _, fun h => by rw [hfin] at h; cases h⟩
    · simp only [hfin, Bool.false_eq_true, if_false] at hs1
      rw [benchmarkHopcroftKarpLoop] at hs1
      obtain ⟨paths, hf, _, _, hlen⟩ := phase_result hw hpre
      simp only [hf] at hs1
      by_cases hp : (paths.length == 0) = true
      · simp only [hp, if_true, Option.some.injEq] at hs1
        subst hs1
        refine ⟨Nat.le_refl _, fun _ paths1 hp1 hne => ?_⟩
        rw [hf] at hp1
        cases hp1
        exact absurd (List.length_eq_zero.1 (by simpa using hp)) hne
      · simp only [hp, Bool.false_eq_true, if_false, benchmarkHopcroftKarpLoop,
          Option.some.injEq] at hs1
        subst hs1
        have h2 : paths.length ≠ 0 := by simpa using hp
        exact ⟨by simp only; omega, fun _ _ _ _ => by simp only; omega⟩
  · intro n s s1 hs hs1
    have hpre := iterateStep_invariant (stepHopcroftKarp g) (fun s => PreMatching g s.matching)
      (fun s s1 h1 h2 => stepHopcroft_pre hw h1 h2) n RaceState.initial s
      (preMatching_nil g) hs
    unfold stepHopcroftKarp at hs1
    obtain ⟨paths, hf, _, _, hlen⟩ := phase_result hw hpre
    simp only [hf] at hs1
    by_cases hp : (paths.length == 0) = true
    · simp only [hp, if_true, Option.some.injEq] at hs1
      subst hs1
      refine ⟨Nat.le_refl _, fun paths1 hp1 hne => ?_⟩
      rw [hf] at hp1
      cases hp1
      exact absurd (List.length_eq_zero.1 (by simpa using hp)) hne
    · simp only [hp, Bool.false_eq_true, if_false, Option.some.injEq] at hs1
      subst hs1
      have h2 : paths.length ≠ 0 := by simpa using hp
      exact ⟨by simp only; omega, fun _ _ _ => by simp only; omega⟩

theorem C8_matching_size_monotone_witness :
    WellFormed graphScenario1 ∧
    benchmarkHopcroftKarpLoop graphScenario1 0 0 [] = some ⟨false, 0, []⟩ ∧
    benchmarkHopcroftKarpLoop graphScenario1 1 0 [] =
      some ⟨false, 1, [(L 0, R 0), (L 1, R 0)]⟩ ∧
    ([] : Matching).length + 1 ≤ [(L 0, R 0), (L 1, R 0)].length :=
  ⟨by decide, by decide, by decide,
    ((C8_matching_size_monotone graphScenario1 (by decide)).2.2.1 0 ⟨false, 0, []⟩
      ⟨false, 1, [(L 0, R 0), (L 1, R 0)]⟩ (by decide) (by decide)).2 rfl
      [[L 0, R 0], [L 1, R 0]] (by decide) (by decide)⟩

/-- C9.  On a well-formed graph and a maximum matching `m`, `findMultiplePaths`
(and its copy `findPathsSync`) returns the empty list and
`findAugmentingPathDFS` returns `null`; both searches only read the matching,
so however often the race steppers repeat the call the matching stays `m`. -/
theorem C9_search_on_maximum_matching_is_empty (g : Graph) (m : Matching)
    (hw : WellFormed g) (hmax : MaximumMatching g m) :
    findMultiplePaths g m = some [] ∧ findPathsSync g m = some [] ∧
    findAugmentingPathDFS g m = some none ∧
    (∀ n i c s, iterateStep (stepHopcroftKarp g) n ⟨m, i, c⟩ = some s → s.matching = m) ∧
    (∀ n i c s, iterateStep (stepNaiveGreedy g) n ⟨m, i, c⟩ = some s → s.matching = m) := by
  have h1 := maximum_phase_empty hw hmax
  have h2 := maximum_single_null hw hmax
  refine ⟨h1, by rw [findPathsSync_eq]; exact h1, h2, ?_, ?_⟩
  · intro n i c s hs
    refine iterateStep_invariant (stepHopcroftKarp g) (fun s => s.matching = m) ?_ n _ s rfl hs
    intro s0 s1 h0 hstep
    unfold stepHopcroftKarp at hstep
    rw [h0, h1] at hstep
    simp at hstep
    rw [← hstep]
  · intro n i c s hs
    refine iterateStep_invariant (stepNaiveGreedy g) (fun s => s.matching = m) ?_ n _ s rfl hs
    intro s0 s1 h0 hstep
    unfold stepNaiveGreedy at hstep
    rw [h0, h2] at hstep
    simp at hstep
    rw [← hstep]

theorem C9_search_on_maximum_matching_is_empty_witness :
    WellFormed graphScenario1 ∧ MaximumMatching graphScenario1 [(L 0, R 1), (L 1, R 0)] ∧
    findMultiplePaths graphScenario1 [(L 0, R 1), (L 1, R 0)] = some [] ∧
    findAugmentingPathDFS graphScenario1 [(L 0, R 1), (L 1, R 0)] = some none :=
  have hmax : MaximumMatching graphScenario1 [(L 0, R 1), (L 1, R 0)] :=
    maximum_of_length_eq_left (by decide) (by decide) (by decide)
  have h := C9_search_on_maximum_matching_is_empty graphScenario1 [(L 0, R 1), (L 1, R 0)]
    (by decide) hmax
  ⟨by decide, hmax, h.1, h.2.2.1⟩

/-! ## The step controller against the phase loop -/

theorem executeStep_complete (g : Graph) (c : Controller) (st : StepState)
    (h1 : c.stepState = some st) (h2 : st.phase = Phase.complete) :
    executeStep g c = some c := by
  unfold executeStep
  rw [h1]
  simp only [h2]

theorem applyPaths_cons (m : Matching) (p : Path) (paths : List Path) :
    applyPaths m (p :: paths) = applyPaths (applyPathSync m p) paths := rfl

theorem iterateStep_succ_left {σ : Type} (step : σ → Option σ) (n : Nat) (s : σ) :
    iterateStep step (n + 1) s = (step s).bind (iterateStep step n) := by
  rw [iterateStep]
  cases step s <;> rfl

theorem iterateStep_fixed {σ : Type} (step : σ → Option σ) (s : σ) (h : step s = some s) :
    ∀ n, iterateStep step n s = some s := by
  intro n
  induction n with
  | zero => rfl
  | succ n ih => rw [iterateStep_succ_left, h]; exact ih

theorem executeStep_highlight (g : Graph) (paths : List Path) (i : Nat) (p : Path)
    (h : paths.get? i = some p) (m : Matching) (it mm : Nat) (r sm : Bool) :
    executeStep g ⟨r, sm, some ⟨Phase.dfs, it, mm, paths, i, SubStep.highlight⟩, m⟩ =
      some ⟨r, sm, some ⟨Phase.dfs, it, mm + 1, paths, i, SubStep.apply⟩,
        applyPathSync m p⟩ := by
  unfold executeStep
  simp only []
  rw [h]

theorem executeStep_apply_more (g : Graph) (paths : List Path) (i : Nat)
    (h : i + 1 < paths.length) (m : Matching) (it mm : Nat) (r sm : Bool) :
    executeStep g ⟨r, sm, some ⟨Phase.dfs, it, mm, paths, i, SubStep.apply⟩, m⟩ =
      some ⟨r, sm, some ⟨Phase.dfs, it, mm, paths, i + 1, SubStep.highlight⟩, m⟩ := by
  unfold executeStep
  simp only [h, if_true]

theorem executeStep_apply_last (g : Graph) (paths : List Path) (i : Nat)
    (h : ¬ i + 1 < paths.length) (m : Matching) (it mm : Nat) (r sm : Bool) :
    executeStep g ⟨r, sm, some ⟨Phase.dfs, it, mm, paths, i, SubStep.apply⟩, m⟩ =
      some ⟨r, sm, some ⟨Phase.bfs, it + 1, mm, [], 0, SubStep.apply⟩, m⟩ := by
  unfold executeStep
  simp only [h, if_false]

theorem executeStep_apply_loop (g : Graph) (paths : List Path) :
    ∀ (d i : Nat) (m : Matching) (it mm : Nat) (r sm : Bool),
      i + (d + 1) = paths.length →
      iterateStep (executeStep g) (2 * (d + 1))
          ⟨r, sm, some ⟨Phase.dfs, it, mm, paths, i, SubStep.highlight⟩, m⟩ =
        some ⟨r, sm, some ⟨Phase.bfs, it + 1, mm + (d + 1), [], 0, SubStep.apply⟩,
          applyPaths m (paths.drop i)⟩ := by
  intro d
  induction d with
  | zero =>
    intro i m it mm r sm hi
    have hlt : i < paths.length := by omega
    have hget : paths.get? i = some (paths.get ⟨i, hlt⟩) := List.get?_eq_get hlt
    have hdrop : paths.drop i = [paths.get ⟨i, hlt⟩] := by
      rw [List.drop_eq_getElem_cons hlt]
      have : paths.drop (i + 1) = [] := List.drop_eq_nil_of_le (by omega)
      rw [this]; rfl
    have hnlt : ¬ (i + 1 < paths.length) := by omega
    have e : 2 * (0 + 1) = 0 + 1 + 1 := by omega
    rw [e, iterateStep_succ_left, executeStep_highlight g paths i _ hget, Option.some_bind,
      iterateStep_succ_left, executeStep_apply_last g paths i hnlt, Option.some_bind, hdrop]
    rfl
  | succ d ih =>
    intro i m it mm r sm hi
    have hlt : i < paths.length := by omega
    have hget : paths.get? i = some (paths.get ⟨i, hlt⟩) := List.get?_eq_get hlt
    have hdrop : paths.drop i = paths.get ⟨i, hlt⟩ :: paths.drop (i + 1) := by
      rw [List.drop_eq_getElem_cons hlt]; rfl
    have hlt1 : i + 1 < paths.length := by omega
    have e : 2 * (d + 1 + 1) = 2 * (d + 1) + 1 + 1 := by omega
    rw [e, iterateStep_succ_left, executeStep_highlight g paths i _ hget, Option.some_bind,
      iterateStep_succ_left, executeStep_apply_more g paths i hlt1, Option.some_bind,
      ih (i + 1) _ it (mm + 1) r sm (by omega), hdrop, applyPaths_cons]
    have e2 : mm + 1 + (d + 1) = mm + (d + 1 + 1) := by omega
    rw [e2]

theorem executeStep_first_of_phase (g : Graph) (m : Matching) (paths : List Path)
    (hf : findMultiplePaths g m = some paths) (hne : paths ≠ [])
    (it mm idx : Nat) (cps : List Path) (sub : SubStep) (r sm : Bool) :
    executeStep g ⟨r, sm, some ⟨Phase.bfs, it, mm, cps, idx, sub⟩, m⟩ =
      some ⟨r, sm, some ⟨Phase.dfs, it, mm, paths, 0, SubStep.highlight⟩, m⟩ := by
  have hlen : (paths.length == 0) = false := by
    cases paths with
    | nil => exact absurd rfl hne
    | cons p ps => rfl
  unfold executeStep
  simp only [findPathsSync_eq, hf, hlen, Bool.false_eq_true, if_false]

theorem executeStep_phase (g : Graph) (m : Matching) (paths : List Path)
    (hf : findMultiplePaths g m = some paths) (hne : paths ≠ [])
    (it mm idx : Nat) (cps : List Path) (sub : SubStep) (r sm : Bool) :
    iterateStep (executeStep g) (2 * paths.length + 1)
        ⟨r, sm, some ⟨Phase.bfs, it, mm, cps, idx, sub⟩, m⟩ =
      some ⟨r, sm, some ⟨Phase.bfs, it + 1, mm + paths.length, [], 0, SubStep.apply⟩,
        applyPaths m paths⟩ := by
  obtain ⟨d, hd⟩ : ∃ d, paths.length = d + 1 := by
    cases paths with
    | nil => exact absurd rfl hne
    | cons p ps => exact ⟨ps.length, rfl⟩
  rw [iterateStep_succ_left, executeStep_first_of_phase g m paths hf hne, Option.some_bind,
    hd, executeStep_apply_loop g paths d 0 m it mm r sm (by omega)]
  rfl

theorem executeStep_last_phase (g : Graph) (m : Matching)
    (hf : findMultiplePaths g m = some [])
    (it mm idx : Nat) (cps : List Path) (sub : SubStep) (r sm : Bool) :
    executeStep g ⟨r, sm, some ⟨Phase.bfs, it, mm, cps, idx, sub⟩, m⟩ =
      some ⟨r, false, some ⟨Phase.complete, it, mm, [], 0, sub⟩, m⟩ := by
  unfold executeStep
  simp only [findPathsSync_eq, hf]
  rfl

theorem controller_simulates_loop {g : Graph} (hw : WellFormed g) :
    ∀ (fuel it0 : Nat) (m : Matching) (s : LoopState), PreMatching g m →
      benchmarkHopcroftKarpLoop g fuel it0 m = some s → s.finished = true →
      ∀ (it idx : Nat) (cps : List Path) (sub : SubStep) (r sm : Bool),
        ∃ n c1 st1,
          iterateStep (executeStep g) n
            ⟨r, sm, some ⟨Phase.bfs, it, m.length, cps, idx, sub⟩, m⟩ = some c1 ∧
          c1.matching = s.testMatching ∧ c1.stepState = some st1 ∧
          st1.phase = Phase.complete ∧ st1.maxMatch = s.testMatching.length := by
  intro fuel
  induction fuel with
  | zero =>
    intro it0 m s _ h hfin
    simp [benchmarkHopcroftKarpLoop] at h
    rw [← h] at hfin
    cases hfin
  | succ fuel ih =>
    intro it0 m s hpre h hfin it idx cps sub r sm
    rw [benchmarkHopcroftKarpLoop] at h
    obtain ⟨paths, hf, _, hpre1, hlen⟩ := phase_result hw hpre
    simp only [hf] at h
    cases paths with
    | nil =>
      simp at h
      refine ⟨1, ⟨r, false, some ⟨Phase.complete, it, m.length, [], 0, sub⟩, m⟩,
        ⟨Phase.complete, it, m.length, [], 0, sub⟩, ?_, ?_, rfl, rfl, ?_⟩
      · rw [iterateStep_succ_left, executeStep_last_phase g m hf]; rfl
      · rw [← h]
      · rw [← h]
    | cons p ps =>
      simp only [List.length_cons, beq_iff_eq, Nat.add_one_ne_zero, if_false] at h
      obtain ⟨n, c1, st1, h1, h2, h3, h4, h5⟩ :=
        ih (it0 + 1) _ s hpre1 h hfin (it + 1) 0 [] SubStep.apply r sm
      refine ⟨(2 * (p :: ps).length + 1) + n, c1, st1, ?_, h2, h3, h4, h5⟩
      rw [iterateStep_add, executeStep_phase g m (p :: ps) hf (by simp) it m.length idx cps
        sub r sm, Option.some_bind, ← hlen]
      exact h1

theorem stepper_simulates_loop (g : Graph) :
    ∀ (fuel it : Nat) (m : Matching) (s : LoopState),
      benchmarkHopcroftKarpLoop g fuel it m = some s → s.finished = true →
      ∃ k r, iterateStep (stepHopcroftKarp g) k ⟨m, it, false⟩ = some r ∧
        r.complete = true ∧ r.matching = s.testMatching ∧ r.iteration = s.iterations := by
  intro fuel
  induction fuel with
  | zero =>
    intro it m s h hfin
    simp [benchmarkHopcroftKarpLoop] at h
    rw [← h] at hfin
    cases hfin
  | succ fuel ih =>
    intro it m s h hfin
    rw [benchmarkHopcroftKarpLoop] at h
    cases hf : findMultiplePaths g m with
    | none => simp [hf] at h
    | some paths =>
      simp only [hf] at h
      by_cases hp : (paths.length == 0) = true
      · simp only [hp, if_true, Option.some.injEq] at h
        refine ⟨1, ⟨m, it + 1, true⟩, ?_, rfl, by rw [← h], by rw [← h]⟩
        rw [iterateStep_succ_left]
        simp only [stepHopcroftKarp, hf, hp, if_true]
        rfl
      · simp only [hp, Bool.false_eq_true, if_false] at h
        obtain ⟨k, r, h1, h2, h3, h4⟩ := ih _ _ s h hfin
        refine ⟨k + 1, r, ?_, h2, h3, h4⟩
        rw [iterateStep_succ_left]
        simp only [stepHopcroftKarp, hf, hp, Bool.false_eq_true, if_false]
        exact h1

theorem iterateStep_unique_fixed {σ : Type} (step : σ → Option σ) (s0 c1 : σ) (n0 : Nat)
    (h0 : iterateStep step n0 s0 = some c1) (hfix : step c1 = some c1)
    (P : σ → Prop) (hP : ∀ c, P c → step c = some c) :
    ∀ n c, iterateStep step n s0 = some c → P c → c = c1 := by
  intro n c hn hc
  rcases Nat.le_total n n0 with hle | hle
  · obtain ⟨d, hd⟩ := Nat.exists_eq_add_of_le hle
    rw [hd, iterateStep_add, hn, Option.some_bind,
      iterateStep_fixed step c (hP c hc) d] at h0
    exact Option.some.inj h0
  · obtain ⟨d, hd⟩ := Nat.exists_eq_add_of_le hle
    rw [hd, iterateStep_add, h0, Option.some_bind, iterateStep_fixed step c1 hfix d] at hn
    exact (Option.some.inj hn).symm

/-- C10.  On a well-formed graph the loop of `benchmarkHopcroftKarp` ends (and
`stepHopcroftKarp`, iterated, completes with the same matching); the step
controller, driven by `executeStep` from its initial state, reaches phase
`complete`; and whenever it is in phase `complete` its matching is the final
matching of the loop and `maxMatch` is the size of that matching. -/
theorem C10_step_controller_refines_phase_loop (g : Graph) (hw : WellFormed g) :
    ∃ s, benchmarkHopcroftKarpLoop g (loopFuel g) 0 [] = some s ∧ s.finished = true ∧
      (∃ k r, iterateStep (stepHopcroftKarp g) k RaceState.initial = some r ∧
        r.complete = true ∧ r.matching = s.testMatching) ∧
      (∃ n c st, iterateStep (executeStep g) n Controller.initial = some c ∧
        c.stepState = some st ∧ st.phase = Phase.complete) ∧
      (∀ n c st, iterateStep (executeStep g) n Controller.initial = some c →
        c.stepState = some st → st.phase = Phase.complete →
        st.maxMatch = s.testMatching.length ∧ c.matching = s.testMatching) := by
  obtain ⟨s, hs, hfin⟩ := hopcroftLoop_finishes hw (loopFuel g) 0 [] (preMatching_nil g)
    (by unfold loopFuel; simp)
  obtain ⟨k, r, hr1, hr2, hr3, _⟩ := stepper_simulates_loop g _ _ _ s hs hfin
  obtain ⟨n, c1, st1, h1, h2, h3, h4, h5⟩ :=
    controller_simulates_loop hw _ _ _ s (preMatching_nil g) hs hfin 1 0 [] SubStep.find
      false true
  have hreach : iterateStep (executeStep g) (n + 1) Controller.initial = some c1 := by
    rw [iterateStep_succ_left]
    exact h1
  refine ⟨s, hs, hfin, ⟨k, r, hr1, hr2, hr3⟩, ⟨n + 1, c1, st1, hreach, h3, h4⟩, ?_⟩
  intro n2 c st hn hst hph
  have := iterateStep_unique_fixed (executeStep g) Controller.initial c1 (n + 1) hreach
    (executeStep_complete g c1 st1 h3 h4)
    (fun c => ∃ st, c.stepState = some st ∧ st.phase = Phase.complete)
    (fun c hc => by
      obtain ⟨st, hc1, hc2⟩ := hc
      exact executeStep_complete g c st hc1 hc2)
    n2 c hn ⟨st, hst, hph⟩
  subst this
  rw [h3] at hst
  cases hst
  exact ⟨h5, h2⟩

theorem C10_step_controller_refines_phase_loop_witness :
    WellFormed graphScenario1 ∧
    ∃ s, benchmarkHopcroftKarpLoop graphScenario1 (loopFuel graphScenario1) 0 [] = some s ∧
      s.finished = true ∧
      (∃ k r, iterateStep (stepHopcroftKarp graphScenario1) k RaceState.initial = some r ∧
        r.complete = true ∧ r.matching = s.testMatching) ∧
      (∃ n c st, iterateStep (executeStep graphScenario1) n Controller.initial = some c ∧
        c.stepState = some st ∧ st.phase = Phase.complete) ∧
      (∀ n c st, iterateStep (executeStep graphScenario1) n Controller.initial = some c →
        c.stepState = some st → st.phase = Phase.complete →
        st.maxMatch = s.testMatching.length ∧ c.matching = s.testMatching) :=
  ⟨by decide, C10_step_controller_refines_phase_loop graphScenario1 (by decide)⟩

/-! ## Claims on the Ford-Fulkerson variant and the adjacency map -/

theorem JMap.has_eq_isSome_get {β : Type} (m : JMap β) (k : NodeId) :
    m.has k = (m.get k).isSome := by
  cases h : m.get k with
  | none => simpa using (JMap.get_eq_none_iff m k).1 h
  | some v =>
    cases hh : m.has k with
    | true => rfl
    | false => rw [(JMap.get_eq_none_iff m k).2 hh] at h; cases h

/-- C16.  The Ford-Fulkerson strategy is the naive greedy strategy:
`benchmarkFordFulkerson()` returns what `benchmarkNaiveGreedy()` returns, and on
every race state `stepFordFulkerson` leaves the iteration counter, completion
flag and matching that `stepNaiveGreedy` leaves. -/
theorem C16_ford_fulkerson_is_naive_greedy (g : Graph) :
    benchmarkFordFulkerson g = benchmarkNaiveGreedy g ∧
    ∀ s : RaceState, stepFordFulkerson g s = stepNaiveGreedy g s ∧
      (stepFordFulkerson g s).map (fun r => (r.iteration, r.complete, r.matching)) =
        (stepNaiveGreedy g s).map (fun r => (r.iteration, r.complete, r.matching)) :=
  ⟨rfl, fun _ => ⟨rfl, rfl⟩⟩

/-- C18.  `buildAdjList()` has an entry for `u` exactly when some edge has
`from = u`, and the entry is the list of the `to` fields of the edges with
`from = u` in edge-list order, duplicates kept. -/
theorem C18_buildAdjList_entries (edges : List Edge) (u : NodeId) :
    ((buildAdjList edges).has u = true ↔ ∃ e ∈ edges, e.from_ = u) ∧
    (∀ vs, (buildAdjList edges).get u = some vs →
      vs = (edges.filter (fun e => e.from_ == u)).map (fun e => e.to_)) ∧
    ((∃ e ∈ edges, e.from_ = u) →
      (buildAdjList edges).get u =
        some ((edges.filter (fun e => e.from_ == u)).map (fun e => e.to_))) := by
  have hne : neighbours edges u ≠ [] ↔ ∃ e ∈ edges, e.from_ = u := by
    unfold neighbours
    simp only [ne_eq, List.map_eq_nil_iff, List.filter_eq_nil_iff, beq_iff_eq, not_forall,
      Classical.not_imp, not_not, exists_prop]
  have hget := buildAdjList_get edges u
  refine ⟨?_, ?_, ?_⟩
  · rw [JMap.has_eq_isSome_get, hget, ← hne]
    by_cases h : neighbours edges u = [] <;> simp [h]
  · intro vs h
    exact buildAdjList_get_some h
  · intro h
    rw [hget, if_neg (hne.2 h)]
    rfl

/-! ## Claims on completion of the step controller and on empty graphs -/

theorem stepAlgorithm_complete (g : Graph) (c : Controller) (st : StepState)
    (h1 : c.stepState = some st) (h2 : st.phase = Phase.complete) :
    stepAlgorithm g c =
      some (if c.running || c.stepMode then c
        else { c with stepMode := true, stepState := some StepState.initial, matching := [] }) := by
  unfold stepAlgorithm
  cases hr : c.running <;> cases hs : c.stepMode <;>
    simp [executeStep_complete g c st h1 h2]

/-- C12 (counterexample).  On scenario 1 the controller is in phase `complete`
after seven `executeStep` calls; a further `executeStep` call and a further
`stepAlgorithm` call both return normally. -/
theorem C12_step_after_complete_is_no_error :
    iterateStep (executeStep graphScenario1) 7 Controller.initial = some completedScenario1 ∧
    executeStep graphScenario1 completedScenario1 ≠ none ∧
    stepAlgorithm graphScenario1 completedScenario1 ≠ none := by
  refine ⟨by decide, by decide, by decide⟩

/-- C12 (amended).  A step call on a controller whose phase is `complete` is
not an error: `executeStep` returns normally and changes nothing, and
`stepAlgorithm` returns normally as well. -/
theorem C12_step_after_complete_returns (g : Graph) (c : Controller) (st : StepState)
    (h1 : c.stepState = some st) (h2 : st.phase = Phase.complete) :
    executeStep g c = some c ∧ ∃ c1, stepAlgorithm g c = some c1 :=
  ⟨executeStep_complete g c st h1 h2, _, stepAlgorithm_complete g c st h1 h2⟩

theorem C12_step_after_complete_returns_witness :
    completedScenario1.stepState = some ⟨Phase.complete, 2, 2, [], 0, SubStep.apply⟩ ∧
    executeStep graphScenario1 completedScenario1 = some completedScenario1 ∧
    ∃ c1, stepAlgorithm graphScenario1 completedScenario1 = some c1 :=
  ⟨rfl, C12_step_after_complete_returns graphScenario1 completedScenario1
    ⟨Phase.complete, 2, 2, [], 0, SubStep.apply⟩ rfl rfl⟩

/-- C13 (counterexample).  On scenario 1 the controller completes with two
pairs and `maxMatch = 2`; the next `stepAlgorithm` call leaves phase `init`, an
empty matching and `maxMatch = 0`. -/
theorem C13_stepAlgorithm_restarts_after_complete :
    iterateStep (executeStep graphScenario1) 7 Controller.initial = some completedScenario1 ∧
    stepAlgorithm graphScenario1 completedScenario1 =
      some ⟨false, true, some ⟨Phase.init, 0, 0, [], 0, SubStep.find⟩, []⟩ := by
  refine ⟨by decide, by decide⟩

/-- C13 (amended).  `complete` is terminal for `executeStep`: on a controller in
phase `complete` it leaves phase, matching and counter as they are.
`stepAlgorithm` does the same as long as step mode is on (or an automatic run
is active); but the `executeStep` call that enters `complete` switches step
mode off, and with step mode off `stepAlgorithm` starts a fresh run: phase
`init`, empty matching, `maxMatch = 0`. -/
theorem C13_complete_is_terminal_for_executeStep (g : Graph) (c : Controller)
    (st : StepState) (h1 : c.stepState = some st) (h2 : st.phase = Phase.complete) :
    executeStep g c = some c ∧
    ((c.stepMode = true ∨ c.running = true) → stepAlgorithm g c = some c) ∧
    (c.stepMode = false → c.running = false →
      stepAlgorithm g c = some ⟨false, true, some StepState.initial, []⟩) ∧
    (∀ c0 st0, c0.stepState = some st0 → st0.phase ≠ Phase.complete →
      executeStep g c0 = some c → c.stepMode = false) := by
  refine ⟨executeStep_complete g c st h1 h2, ?_, ?_, ?_⟩
  · intro h
    rw [stepAlgorithm_complete g c st h1 h2]
    rcases h with h | h
    · simp [h]
    · simp [h]
  · intro hs hr
    rw [stepAlgorithm_complete g c st h1 h2]
    simp [hs, hr]
  · intro c0 st0 hc0 hne hstep
    unfold executeStep at hstep
    rw [hc0] at hstep
    cases hph : st0.phase with
    | init =>
      simp only [hph, Option.some.injEq] at hstep
      rw [← hstep] at h1
      simp only [Option.some.injEq] at h1
      rw [← h1] at h2
      cases h2
    | bfs =>
      simp only [hph] at hstep
      cases hf : findPathsSync g c0.matching with
      | none => simp [hf] at hstep
      | some paths =>
        simp only [hf] at hstep
        by_cases hp : (paths.length == 0) = true
        · simp only [hp, if_true, Option.some.injEq] at hstep
          rw [← hstep]
        · simp only [hp, Bool.false_eq_true, if_false, Option.some.injEq] at hstep
          rw [← hstep] at h1
          simp only [Option.some.injEq] at h1
          rw [← h1] at h2
          cases h2
    | dfs =>
      simp only [hph] at hstep
      cases hsub : st0.pathSubStep with
      | find =>
        simp only [hsub, Option.some.injEq] at hstep
        rw [← hstep, hc0] at h1
        simp only [Option.some.injEq] at h1
        rw [← h1] at h2
        exact absurd h2 hne
      | highlight =>
        simp only [hsub] at hstep
        cases hg : st0.currentPaths.get? st0.currentPathIndex with
        | none =>
          rw [hg] at hstep
          cases hstep
        | some p =>
          rw [hg] at hstep
          simp only [Option.some.injEq] at hstep
          rw [← hstep] at h1
          simp only [Option.some.injEq] at h1
          rw [← h1] at h2
          simp only [hph] at h2
          cases h2
      | apply =>
        simp only [hsub] at hstep
        by_cases hi : st0.currentPathIndex + 1 < st0.currentPaths.length
        · simp only [hi, if_true, Option.some.injEq] at hstep
          rw [← hstep] at h1
          simp only [Option.some.injEq] at h1
          rw [← h1] at h2
          simp only [hph] at h2
          cases h2
        · simp only [hi, if_false, Option.some.injEq] at hstep
          rw [← hstep] at h1
          simp only [Option.some.injEq] at h1
          rw [← h1] at h2
          cases h2
    | complete => exact absurd hph hne

theorem C13_complete_is_terminal_for_executeStep_witness :
    completedScenario1.stepState = some ⟨Phase.complete, 2, 2, [], 0, SubStep.apply⟩ ∧
    executeStep graphScenario1 completedScenario1 = some completedScenario1 ∧
    stepAlgorithm graphScenario1 completedScenario1 =
      some ⟨false, true, some StepState.initial, []⟩ :=
  have h := C13_complete_is_terminal_for_executeStep graphScenario1 completedScenario1
    ⟨Phase.complete, 2, 2, [], 0, SubStep.apply⟩ rfl rfl
  ⟨rfl, h.1, h.2.2.1 rfl rfl⟩

theorem noEdges_of_empty_side {g : Graph} (hw : WellFormed g)
    (h0 : g.leftNodes = [] ∨ g.rightNodes = []) : g.edges = [] := by
  cases he : g.edges with
  | nil => rfl
  | cons e es =>
    exfalso
    have := hw.2.2 e (by rw [he]; exact List.mem_cons_self _ _)
    rcases h0 with h | h
    · rw [h] at this; exact absurd this.1 (List.not_mem_nil _)
    · rw [h] at this; exact absurd this.2 (List.not_mem_nil _)

theorem maximum_nil_of_noEdges {g : Graph} (he : g.edges = []) : MaximumMatching g [] := by
  refine ⟨validMatching_nil g, ?_⟩
  intro m1 hv
  cases m1 with
  | nil => exact Nat.le_refl _
  | cons kv rest =>
    exfalso
    have := hv.2.2 kv (List.mem_cons_self _ _)
    rw [he] at this
    exact absurd this (List.not_mem_nil _)

/-- C14 (counterexample).  On a graph without right nodes, and on a graph
without left nodes, each benchmark function returns the iteration count 1. -/
theorem C14_empty_graph_counts_one_iteration :
    WellFormed graphNoRight ∧ benchmarkNaiveGreedy graphNoRight = some 1 ∧
    benchmarkFordFulkerson graphNoRight = some 1 ∧
    benchmarkHopcroftKarp graphNoRight = some 1 ∧
    WellFormed graphNoLeft ∧ benchmarkNaiveGreedy graphNoLeft = some 1 ∧
    benchmarkFordFulkerson graphNoLeft = some 1 ∧
    benchmarkHopcroftKarp graphNoLeft = some 1 := by
  refine ⟨by decide, by decide, by decide, by decide, by decide, by decide, by decide,
    by decide⟩

/-- C14 (amended).  On a well-formed graph with no left or no right vertex each
benchmark loop ends without error after its first iteration, the one search
that finds nothing, with an empty matching, so each benchmark function returns
the iteration count 1; `runBenchmark` does not start them when there is no left
vertex. -/
theorem C14_empty_graph_one_iteration (g : Graph) (hw : WellFormed g)
    (h0 : g.leftNodes = [] ∨ g.rightNodes = []) :
    benchmarkNaiveGreedyLoop g (loopFuel g) 0 [] = some ⟨true, 1, []⟩ ∧
    benchmarkHopcroftKarpLoop g (loopFuel g) 0 [] = some ⟨true, 1, []⟩ ∧
    benchmarkNaiveGreedy g = some 1 ∧ benchmarkFordFulkerson g = some 1 ∧
    benchmarkHopcroftKarp g = some 1 ∧
    (g.leftNodes = [] → runBenchmark g = some BenchmarkReport.refused) ∧
    (g.leftNodes ≠ [] → runBenchmark g = some (BenchmarkReport.ran 1 1 1)) := by
  have hmax := maximum_nil_of_noEdges (noEdges_of_empty_side hw h0)
  have h1 := maximum_single_null hw hmax
  have h2 := maximum_phase_empty hw hmax
  have hn : benchmarkNaiveGreedyLoop g (loopFuel g) 0 [] = some ⟨true, 1, []⟩ := by
    unfold loopFuel
    rw [benchmarkNaiveGreedyLoop, h1]
  have hh : benchmarkHopcroftKarpLoop g (loopFuel g) 0 [] = some ⟨true, 1, []⟩ := by
    unfold loopFuel
    rw [benchmarkHopcroftKarpLoop, h2]
    rfl
  have bn : benchmarkNaiveGreedy g = some 1 := by
    unfold benchmarkNaiveGreedy; rw [hn]; rfl
  have bh : benchmarkHopcroftKarp g = some 1 := by
    unfold benchmarkHopcroftKarp; rw [hh]; rfl
  have bf : benchmarkFordFulkerson g = some 1 := bn
  refine ⟨hn, hh, bn, bf, bh, ?_, ?_⟩
  · intro hl
    unfold runBenchmark
    rw [hl]; rfl
  · intro hl
    unfold runBenchmark
    have : (g.leftNodes.length == 0) = false := by
      cases hg : g.leftNodes with
      | nil => exact absurd hg hl
      | cons a as => rfl
    rw [this, bn, bf, bh]
    rfl

theorem C14_empty_graph_one_iteration_witness :
    WellFormed graphNoRight ∧ (graphNoRight.leftNodes = [] ∨ graphNoRight.rightNodes = []) ∧
    benchmarkNaiveGreedy graphNoRight = some 1 ∧
    runBenchmark graphNoRight = some (BenchmarkReport.ran 1 1 1) :=
  have h := C14_empty_graph_one_iteration graphNoRight (by decide) (Or.inr rfl)
  ⟨by decide, Or.inr rfl, h.2.2.1, h.2.2.2.2.2.2 (by decide)⟩

/-! ## Claim on the augment loop -/

theorem applyPath_eq_applyPathSync : ∀ (p : Path) (m : Matching),
    applyPath m p = applyPathSync m p
  | [], m => by simp [applyPath, applyPathSync]
  | [_], m => by simp [applyPath, applyPathSync]
  | a :: b :: rest, m => by
    rw [applyPath, applyPathSync, applyPath_eq_applyPathSync rest]

theorem mem_lefts_index : ∀ (p : Path) (x : NodeId), x ∈ lefts p →
    ∃ i, i % 2 = 0 ∧ i + 1 < p.length ∧ p.getD i 0 = x
  | [], x, h => by simp [lefts, pairsOf] at h
  | [_], x, h => by simp [lefts, pairsOf] at h
  | a :: b :: rest, x, h => by
    rw [lefts_cons_cons] at h
    rcases List.mem_cons.1 h with h1 | h1
    · exact ⟨0, rfl, by simp, by simp [h1]⟩
    · obtain ⟨i, hi1, hi2, hi3⟩ := mem_lefts_index rest x h1
      refine ⟨i + 2, by omega, by simp only [List.length_cons]; omega, ?_⟩
      simpa [List.getD_cons_succ] using hi3

theorem applyPathSync_get_frame (m : Matching) (p : Path) (k : NodeId)
    (h : ∀ i, i % 2 = 0 → i + 1 < p.length → p.getD i 0 ≠ k) :
    (applyPathSync m p).get k = m.get k := by
  rw [applyPathSync_eq_applyPairs]
  apply applyPairs_get_frame
  intro hk
  obtain ⟨i, h1, h2, h3⟩ := mem_lefts_index p k hk
  exact h i h1 h2 h3

theorem applyPathSync_get_last : ∀ (p : Path) (m : Matching) (i : Nat),
    i % 2 = 0 → i + 1 < p.length →
    (∀ j, j % 2 = 0 → j + 1 < p.length → i < j → p.getD j 0 ≠ p.getD i 0) →
    (applyPathSync m p).get (p.getD i 0) = some (p.getD (i + 1) 0)
  | [], m, i, _, h, _ => by simp at h
  | [_], m, i, _, h, _ => by simp at h
  | a :: b :: rest, m, i, he, hl, hlast => by
    rw [applyPathSync]
    cases i with
    | zero =>
      simp only [List.getD_cons_zero, Nat.zero_add, List.getD_cons_succ]
      rw [applyPathSync_get_frame, JMap.get_set, if_pos rfl]
      intro j hj1 hj2
      have := hlast (j + 2) (by omega) (by simp only [List.length_cons]; omega) (by omega)
      simpa [List.getD_cons_succ] using this
    | succ i1 =>
      cases i1 with
      | zero => omega
      | succ i2 =>
        simp only [List.getD_cons_succ]
        apply applyPathSync_get_last rest (m.set a b) i2 (by omega)
          (by simp only [List.length_cons] at hl; omega)
        intro j hj1 hj2 hj3
        have := hlast (j + 2) (by omega) (by simp only [List.length_cons]; omega) (by omega)
        simpa [List.getD_cons_succ] using this

/-- C17.  Applying a path `p` to a matching `m` (`applyPathSync`, `applyPath`
and the inline augment loops are the same loop) gives a matching in which, for
every even offset `i` with `i + 1 < p.length`, the vertex `p[i]` is mapped to
`p[i + 1]` unless a later even offset writes the same left vertex again, and in
which every key that is at no even offset of `p` has the partner, or the
absence of a partner, that it had in `m`. -/
theorem C17_augment_writes_pairs_and_frames_rest (m : Matching) (p : Path) :
    applyPath m p = applyPathSync m p ∧
    (∀ i, i % 2 = 0 → i + 1 < p.length →
      (∀ j, j % 2 = 0 → j + 1 < p.length → i < j → p.getD j 0 ≠ p.getD i 0) →
      (applyPathSync m p).get (p.getD i 0) = some (p.getD (i + 1) 0)) ∧
    (∀ k, (∀ i, i % 2 = 0 → i < p.length → p.getD i 0 ≠ k) →
      (applyPathSync m p).get k = m.get k ∧ (applyPathSync m p).has k = m.has k) := by
  refine ⟨applyPath_eq_applyPathSync p m, applyPathSync_get_last p m, ?_⟩
  intro k hk
  have hg := applyPathSync_get_frame m p k (fun i h1 h2 => hk i h1 (by omega))
  exact ⟨hg, by rw [JMap.has_eq_isSome_get, JMap.has_eq_isSome_get, hg]⟩

/-! ## Claim on the independence of the benchmark strategies -/

theorem findAugmentingPathDFS_congr {g g1 : Graph} (hl : g.leftNodes = g1.leftNodes)
    (he : g.edges = g1.edges) (m : Matching) :
    findAugmentingPathDFS g m = findAugmentingPathDFS g1 m := by
  unfold findAugmentingPathDFS
  rw [hl, he]

theorem findMultiplePaths_congr {g g1 : Graph} (hl : g.leftNodes = g1.leftNodes)
    (he : g.edges = g1.edges) (m : Matching) :
    findMultiplePaths g m = findMultiplePaths g1 m := by
  unfold findMultiplePaths bfsFuel
  rw [hl, he]

theorem benchmarkNaiveGreedyLoop_congr {g g1 : Graph} (hl : g.leftNodes = g1.leftNodes)
    (he : g.edges = g1.edges) :
    ∀ (fuel it : Nat) (m : Matching),
      benchmarkNaiveGreedyLoop g fuel it m = benchmarkNaiveGreedyLoop g1 fuel it m := by
  intro fuel
  induction fuel with
  | zero => intro it m; rfl
  | succ fuel ih =>
    intro it m
    rw [benchmarkNaiveGreedyLoop, benchmarkNaiveGreedyLoop, findAugmentingPathDFS_congr hl he]
    cases findAugmentingPathDFS g1 m with
    | none => rfl
    | some r =>
      cases r with
      | none => rfl
      | some p => exact ih _ _

theorem benchmarkHopcroftKarpLoop_congr {g g1 : Graph} (hl : g.leftNodes = g1.leftNodes)
    (he : g.edges = g1.edges) :
    ∀ (fuel it : Nat) (m : Matching),
      benchmarkHopcroftKarpLoop g fuel it m = benchmarkHopcroftKarpLoop g1 fuel it m := by
  intro fuel
  induction fuel with
  | zero => intro it m; rfl
  | succ fuel ih =>
    intro it m
    rw [benchmarkHopcroftKarpLoop, benchmarkHopcroftKarpLoop, findMultiplePaths_congr hl he]
    cases findMultiplePaths g1 m with
    | none => rfl
    | some paths =>
      simp only
      by_cases hp : (paths.length == 0) = true
      · simp only [hp, if_true]
      · simp only [hp, Bool.false_eq_true, if_false]
        exact ih _ _

theorem benchmarkNaiveGreedy_congr {g g1 : Graph} (hl : g.leftNodes = g1.leftNodes)
    (he : g.edges = g1.edges) : benchmarkNaiveGreedy g = benchmarkNaiveGreedy g1 := by
  unfold benchmarkNaiveGreedy loopFuel
  rw [benchmarkNaiveGreedyLoop_congr hl he, hl]

theorem benchmarkHopcroftKarp_congr {g g1 : Graph} (hl : g.leftNodes = g1.leftNodes)
    (he : g.edges = g1.edges) : benchmarkHopcroftKarp g = benchmarkHopcroftKarp g1 := by
  unfold benchmarkHopcroftKarp loopFuel
  rw [benchmarkHopcroftKarpLoop_congr hl he, hl]

/-- C15.  Each of `benchmarkNaiveGreedy`, `benchmarkFordFulkerson` and
`benchmarkHopcroftKarp` returns a value that is the same for any two global
states with the same `leftNodes` and `edges`, whatever the global `matching`
(and `rightNodes`) hold, and leaves the globals as they were; inside
`runBenchmark` each strategy reports what it returns when called alone. -/
theorem C15_benchmarks_are_independent (w w1 : Globals)
    (hl : w.graph.leftNodes = w1.graph.leftNodes) (he : w.graph.edges = w1.graph.edges) :
    (benchmarkNaiveGreedyCall w).map Prod.fst = (benchmarkNaiveGreedyCall w1).map Prod.fst ∧
    (benchmarkFordFulkersonCall w).map Prod.fst =
      (benchmarkFordFulkersonCall w1).map Prod.fst ∧
    (benchmarkHopcroftKarpCall w).map Prod.fst =
      (benchmarkHopcroftKarpCall w1).map Prod.fst ∧
    (∀ r, benchmarkNaiveGreedyCall w = some r → r.2 = w) ∧
    (∀ r, benchmarkFordFulkersonCall w = some r → r.2 = w) ∧
    (∀ r, benchmarkHopcroftKarpCall w = some r → r.2 = w) ∧
    (∀ n f h, runBenchmark w.graph = some (BenchmarkReport.ran n f h) →
      (benchmarkNaiveGreedyCall w).map Prod.fst = some n ∧
      (benchmarkFordFulkersonCall w).map Prod.fst = some f ∧
      (benchmarkHopcroftKarpCall w).map Prod.fst = some h) := by
  have e1 : (benchmarkNaiveGreedyCall w).map Prod.fst =
      (benchmarkNaiveGreedyCall w1).map Prod.fst := by
    unfold benchmarkNaiveGreedyCall
    rw [benchmarkNaiveGreedy_congr hl he]
    cases benchmarkNaiveGreedy w1.graph <;> rfl
  have e3 : (benchmarkHopcroftKarpCall w).map Prod.fst =
      (benchmarkHopcroftKarpCall w1).map Prod.fst := by
    unfold benchmarkHopcroftKarpCall
    rw [benchmarkHopcroftKarp_congr hl he]
    cases benchmarkHopcroftKarp w1.graph <;> rfl
  have f1 : ∀ r, benchmarkNaiveGreedyCall w = some r → r.2 = w := by
    intro r hr
    unfold benchmarkNaiveGreedyCall at hr
    cases hb : benchmarkNaiveGreedy w.graph with
    | none => simp [hb] at hr
    | some n => simp [hb] at hr; rw [← hr]
  have f3 : ∀ r, benchmarkHopcroftKarpCall w = some r → r.2 = w := by
    intro r hr
    unfold benchmarkHopcroftKarpCall at hr
    cases hb : benchmarkHopcroftKarp w.graph with
    | none => simp [hb] at hr
    | some n => simp [hb] at hr; rw [← hr]
  refine ⟨e1, e1, e3, f1, f1, f3, ?_⟩
  intro n f h hrun
  unfold runBenchmark at hrun
  by_cases h0 : (w.graph.leftNodes.length == 0) = true
  · simp [h0] at hrun
  · simp only [h0, Bool.false_eq_true, if_false] at hrun
    unfold benchmarkFordFulkersonCall benchmarkNaiveGreedyCall benchmarkHopcroftKarpCall
    unfold benchmarkFordFulkerson at hrun
    cases hn : benchmarkNaiveGreedy w.graph with
    | none => simp [hn] at hrun
    | some n1 =>
      cases hh : benchmarkHopcroftKarp w.graph with
      | none => simp [hn, hh] at hrun
      | some h1 =>
        simp only [hn, hh, Option.some.injEq, BenchmarkReport.ran.injEq] at hrun
        obtain ⟨r1, r2, r3⟩ := hrun
        subst r1; subst r2; subst r3
        exact ⟨rfl, rfl, rfl⟩

theorem C15_benchmarks_are_independent_witness :
    (⟨graphScenario1, []⟩ : Globals).graph.leftNodes =
      (⟨graphScenario1Wide, [(L 0, R 0)]⟩ : Globals).graph.leftNodes ∧
    (benchmarkHopcroftKarpCall ⟨graphScenario1, []⟩).map Prod.fst =
      (benchmarkHopcroftKarpCall ⟨graphScenario1Wide, [(L 0, R 0)]⟩).map Prod.fst ∧
    benchmarkNaiveGreedyCall ⟨graphScenario1Wide, [(L 0, R 0)]⟩ =
      some (3, ⟨graphScenario1Wide, [(L 0, R 0)]⟩) :=
  ⟨rfl, (C15_benchmarks_are_independent ⟨graphScenario1, []⟩
    ⟨graphScenario1Wide, [(L 0, R 0)]⟩ rfl rfl).2.2.1, by decide⟩

/-! ## Claim on the number of steps of the step controller -/

theorem stepCount_step (g : Graph) (k : Nat) (c c1 : Controller) (h : StepCount k c)
    (hstep : executeStep g c = some c1) : StepCount (k + 1) c1 := by
  unfold StepCount at h
  unfold executeStep at hstep
  cases hst : c.stepState with
  | none => rw [hst] at h; exact absurd h id
  | some st =>
    rw [hst] at h hstep
    simp only at h hstep
    cases hph : st.phase with
    | init =>
      simp only [hph] at h hstep
      simp only [Option.some.injEq] at hstep
      rw [← hstep]
      simp only [StepCount]
      omega
    | bfs =>
      simp only [hph] at h hstep
      cases hf : findPathsSync g c.matching with
      | none => simp [hf] at hstep
      | some paths =>
        simp only [hf] at hstep
        by_cases hp : (paths.length == 0) = true
        · simp only [hp, if_true, Option.some.injEq] at hstep
          rw [← hstep]
          simp only [StepCount]
          omega
        · simp only [hp, Bool.false_eq_true, if_false, Option.some.injEq] at hstep
          rw [← hstep]
          simp only [StepCount]
          omega
    | dfs =>
      simp only [hph] at h hstep
      cases hsub : st.pathSubStep with
      | find => simp only [hsub] at h
      | highlight =>
        simp only [hsub] at h hstep
        cases hg : st.currentPaths.get? st.currentPathIndex with
        | none => rw [hg] at hstep; cases hstep
        | some p =>
          rw [hg] at hstep
          simp only [Option.some.injEq] at hstep
          rw [← hstep]
          simp only [StepCount, hph]
          omega
      | apply =>
        simp only [hsub] at h hstep
        by_cases hi : st.currentPathIndex + 1 < st.currentPaths.length
        · simp only [hi, if_true, Option.some.injEq] at hstep
          rw [← hstep]
          simp only [StepCount, hph]
          omega
        · simp only [hi, if_false, Option.some.injEq] at hstep
          rw [← hstep]
          simp only [StepCount]
          omega
    | complete =>
      simp only [hph] at h hstep
      simp only [Option.some.injEq] at hstep
      rw [← hstep]
      simp only [StepCount, hst, hph]
      omega

theorem stepCount_iterate (g : Graph) :
    ∀ (n : Nat) (c : Controller),
      iterateStep (executeStep g) n Controller.initial = some c → StepCount n c := by
  intro n
  induction n with
  | zero =>
    intro c h
    simp only [iterateStep, Option.some.injEq] at h
    rw [← h]
    simp [StepCount, Controller.initial, StepState.initial]
  | succ n ih =>
    intro c h
    rw [iterateStep_succ] at h
    cases hn : iterateStep (executeStep g) n Controller.initial with
    | none => rw [hn] at h; cases h
    | some c0 =>
      rw [hn, Option.some_bind] at h
      exact stepCount_step g n c0 c (ih c0 hn) h

theorem controller_simulates_loop_count {g : Graph} (hw : WellFormed g) :
    ∀ (fuel it0 : Nat) (m : Matching) (s : LoopState), PreMatching g m →
      benchmarkHopcroftKarpLoop g fuel it0 m = some s → s.finished = true →
      ∀ (it idx : Nat) (cps : List Path) (sub : SubStep) (r sm : Bool),
        ∃ n c1 st1,
          iterateStep (executeStep g) n
            ⟨r, sm, some ⟨Phase.bfs, it, m.length, cps, idx, sub⟩, m⟩ = some c1 ∧
          c1.stepState = some st1 ∧ st1.phase = Phase.complete ∧
          st1.maxMatch = s.testMatching.length ∧
          st1.iteration + it0 + 1 = s.iterations + it ∧
          n + 2 * m.length + it = 2 * st1.maxMatch + st1.iteration + 1 := by
  intro fuel
  induction fuel with
  | zero =>
    intro it0 m s _ h hfin
    simp [benchmarkHopcroftKarpLoop] at h
    rw [← h] at hfin
    cases hfin
  | succ fuel ih =>
    intro it0 m s hpre h hfin it idx cps sub r sm
    rw [benchmarkHopcroftKarpLoop] at h
    obtain ⟨paths, hf, _, hpre1, hlen⟩ := phase_result hw hpre
    simp only [hf] at h
    cases paths with
    | nil =>
      simp at h
      refine ⟨1, ⟨r, false, some ⟨Phase.complete, it, m.length, [], 0, sub⟩, m⟩,
        ⟨Phase.complete, it, m.length, [], 0, sub⟩, ?_, rfl, rfl, ?_, ?_, ?_⟩
      · rw [iterateStep_succ_left, executeStep_last_phase g m hf]; rfl
      · rw [← h]
      · rw [← h]; simp only; omega
      · simp only; omega
    | cons p ps =>
      simp only [List.length_cons, beq_iff_eq, Nat.add_one_ne_zero, if_false] at h
      obtain ⟨n, c1, st1, h1, h3, h4, h5, h6, h7⟩ :=
        ih (it0 + 1) _ s hpre1 h hfin (it + 1) 0 [] SubStep.apply r sm
      refine ⟨(2 * (p :: ps).length + 1) + n, c1, st1, ?_, h3, h4, h5, by omega, ?_⟩
      · rw [iterateStep_add, executeStep_phase g m (p :: ps) hf (by simp) it m.length idx cps
          sub r sm, Option.some_bind, ← hlen]
        exact h1
      · rw [hlen] at h7
        omega

/-- C11 (counterexample).  On scenario 1 the whole run extracts two paths (the
first phase search returns two, the second none), yet the controller is not in
phase `complete` after any `k ≤ 2 + 1` calls of `executeStep`; it first is
after seven. -/
theorem C11_more_steps_than_paths_plus_one :
    findPathsSync graphScenario1 [] = some [[L 0, R 0], [L 1, R 0]] ∧
    findPathsSync graphScenario1 [(L 0, R 0), (L 1, R 0)] = some [] ∧
    (∀ k, k ≤ 2 + 1 → phaseAfter graphScenario1 k ≠ some Phase.complete) ∧
    phaseAfter graphScenario1 6 = some Phase.bfs ∧
    phaseAfter graphScenario1 7 = some Phase.complete := by
  refine ⟨by decide, by decide, by decide, by decide, by decide⟩

/-- C11 (amended).  On a well-formed graph the step controller started from
its initial state reaches phase `complete`, and first does so after exactly
`2 * maxMatch + iteration + 1` calls of `executeStep`, where the final
`maxMatch` is the number of paths applied in the whole run (the size of the
final matching of the phase loop) and the final `iteration` is the number of
phase searches (the iteration count of the phase loop). -/
theorem C11_steps_to_complete (g : Graph) (hw : WellFormed g) :
    ∃ s n c st, benchmarkHopcroftKarpLoop g (loopFuel g) 0 [] = some s ∧ s.finished = true ∧
      iterateStep (executeStep g) n Controller.initial = some c ∧
      c.stepState = some st ∧ st.phase = Phase.complete ∧
      st.maxMatch = s.testMatching.length ∧ st.iteration = s.iterations ∧
      n = 2 * st.maxMatch + st.iteration + 1 ∧
      (∀ k c1 st1, iterateStep (executeStep g) k Controller.initial = some c1 →
        c1.stepState = some st1 → st1.phase = Phase.complete → n ≤ k) := by
  obtain ⟨s, hs, hfin⟩ := hopcroftLoop_finishes hw (loopFuel g) 0 [] (preMatching_nil g)
    (by unfold loopFuel; simp)
  obtain ⟨n, c1, st1, h1, h3, h4, h5, h6, h7⟩ :=
    controller_simulates_loop_count hw _ _ _ s (preMatching_nil g) hs hfin 1 0 []
      SubStep.find false true
  have hreach : iterateStep (executeStep g) (n + 1) Controller.initial = some c1 := by
    rw [iterateStep_succ_left]
    exact h1
  refine ⟨s, n + 1, c1, st1, hs, hfin, hreach, h3, h4, h5, by omega, ?_, ?_⟩
  · simp only [List.length_nil] at h7
    omega
  · intro k c2 st2 hk hst2 hph2
    have := iterateStep_unique_fixed (executeStep g) Controller.initial c1 (n + 1) hreach
      (executeStep_complete g c1 st1 h3 h4)
      (fun c => ∃ st, c.stepState = some st ∧ st.phase = Phase.complete)
      (fun c hc => by
        obtain ⟨st, hc1, hc2⟩ := hc
        exact executeStep_complete g c st hc1 hc2)
      k c2 hk ⟨st2, hst2, hph2⟩
    subst this
    have hcount := stepCount_iterate g k c2 hk
    unfold StepCount at hcount
    rw [h3] at hcount
    simp only [h4] at hcount
    simp only [List.length_nil] at h7
    omega

theorem C11_steps_to_complete_witness :
    WellFormed graphScenario1 ∧
    ∃ s n c st, benchmarkHopcroftKarpLoop graphScenario1 (loopFuel graphScenario1) 0 [] =
        some s ∧ s.finished = true ∧
      iterateStep (executeStep graphScenario1) n Controller.initial = some c ∧
      c.stepState = some st ∧ st.phase = Phase.complete ∧
      st.maxMatch = s.testMatching.length ∧ st.iteration = s.iterations ∧
      n = 2 * st.maxMatch + st.iteration + 1 ∧
      (∀ k c1 st1, iterateStep (executeStep graphScenario1) k Controller.initial = some c1 →
        c1.stepState = some st1 → st1.phase = Phase.complete → n ≤ k) :=
  ⟨by decide, C11_steps_to_complete graphScenario1 (by decide)⟩

/-! ## What one phase returns -/

theorem bfsVisit_has_mono (m : Matching) (u v x : NodeId) (st : JMap Nat × List NodeId)
    (h : st.1.has x = true) : (bfsVisit m u st v).1.has x = true := by
  unfold bfsVisit
  cases getMatchedNodeFrom v m with
  | none =>
    simp only
    by_cases hl : st.1.has v = true
    · simpa [hl] using h
    · simp only [hl, Bool.not_false, if_true]
      rw [JMap.has_set, h]; simp
  | some w =>
    simp only
    by_cases hl : st.1.has w = true
    · simpa [hl] using h
    · simp only [hl, Bool.not_false, if_true]
      rw [JMap.has_set, h]; simp

theorem bfsVisit_queue_mono (m : Matching) (u v x : NodeId) (st : JMap Nat × List NodeId)
    (h : x ∈ st.2) : x ∈ (bfsVisit m u st v).2 := by
  unfold bfsVisit
  cases getMatchedNodeFrom v m with
  | none =>
    simp only
    by_cases hl : st.1.has v = true
    · simpa [hl] using h
    · simpa [hl] using h
  | some w =>
    simp only
    by_cases hl : st.1.has w = true
    · simpa [hl] using h
    · simp only [hl, Bool.not_false, if_true]
      exact List.mem_append_left _ h

theorem bfsVisit_foldl_mono (m : Matching) (u : NodeId) (vs : List NodeId) :
    ∀ st : JMap Nat × List NodeId,
      (∀ x, st.1.has x = true → (vs.foldl (bfsVisit m u) st).1.has x = true) ∧
      (∀ x, x ∈ st.2 → x ∈ (vs.foldl (bfsVisit m u) st).2) := by
  induction vs with
  | nil => intro st; exact ⟨fun _ h => h, fun _ h => h⟩
  | cons v vs ih =>
    intro st
    rw [List.foldl_cons]
    obtain ⟨h1, h2⟩ := ih (bfsVisit m u st v)
    exact ⟨fun x hx => h1 x (bfsVisit_has_mono m u v x st hx),
      fun x hx => h2 x (bfsVisit_queue_mono m u v x st hx)⟩

theorem bfsVisit_levels_free (m : Matching) (u v : NodeId) (st : JMap Nat × List NodeId)
    (h : getMatchedNodeFrom v m = none) : (bfsVisit m u st v).1.has v = true := by
  unfold bfsVisit
  rw [h]
  simp only
  by_cases hl : st.1.has v = true
  · simp [hl]
  · simp only [hl, Bool.not_false, if_true]
    rw [JMap.has_set]; simp

theorem bfsVisit_foldl_levels_free (m : Matching) (u : NodeId) (vs : List NodeId) :
    ∀ st : JMap Nat × List NodeId, ∀ v ∈ vs, getMatchedNodeFrom v m = none →
      (vs.foldl (bfsVisit m u) st).1.has v = true := by
  induction vs with
  | nil => intro st v hv; simp at hv
  | cons v0 vs ih =>
    intro st v hv hg
    rw [List.foldl_cons]
    rcases List.mem_cons.1 hv with h1 | h1
    · subst h1
      exact (bfsVisit_foldl_mono m u vs _).1 v (bfsVisit_levels_free m u v st hg)
    · exact ih _ v h1 hg

theorem bfsLoop_complete (m : Matching) (adjList : JMap (List NodeId)) :
    ∀ (fuel : Nat) (level : JMap Nat) (queue : List NodeId) (level1 : JMap Nat),
      bfsLoop m adjList fuel level queue = some level1 →
      (∀ x, level.has x = true → level1.has x = true) ∧
      (∀ u ∈ queue, ∀ v ∈ adjOf adjList u, getMatchedNodeFrom v m = none →
        level1.has v = true) := by
  intro fuel
  induction fuel with
  | zero =>
    intro level queue level1 h
    cases queue with
    | nil =>
      simp [bfsLoop] at h
      rw [← h]
      exact ⟨fun _ hx => hx, fun u hu => by simp at hu⟩
    | cons u q => simp [bfsLoop] at h
  | succ fuel ih =>
    intro level queue level1 h
    cases queue with
    | nil =>
      simp [bfsLoop] at h
      rw [← h]
      exact ⟨fun _ hx => hx, fun u hu => by simp at hu⟩
    | cons u q =>
      rw [bfsLoop] at h
      cases hadj : adjList.get u with
      | none =>
        simp only [hadj] at h
        obtain ⟨h1, h2⟩ := ih level q level1 h
        refine ⟨h1, ?_⟩
        intro u1 hu1 v hv hg
        rcases List.mem_cons.1 hu1 with h3 | h3
        · subst h3
          simp [adjOf, hadj] at hv
        · exact h2 u1 h3 v hv hg
      | some vs =>
        simp only [hadj] at h
        obtain ⟨h1, h2⟩ := ih _ _ level1 h
        obtain ⟨m1, m2⟩ := bfsVisit_foldl_mono m u vs (level, q)
        refine ⟨fun x hx => h1 x (m1 x hx), ?_⟩
        intro u1 hu1 v hv hg
        rcases List.mem_cons.1 hu1 with h3 | h3
        · subst h3
          have hv' : v ∈ vs := by simpa [adjOf, hadj] using hv
          exact h1 v (bfsVisit_foldl_levels_free m u1 vs (level, q) v hv' hg)
        · exact h2 u1 (m2 u1 h3) v hv hg

theorem bfsInit_foldl_queue (m : Matching) (nodes : List NodeId) :
    ∀ (st : JMap Nat × List NodeId) (x : NodeId),
      (x ∈ st.2 ∨ (x ∈ nodes ∧ m.has x = false)) →
      x ∈ (nodes.foldl (fun st node =>
        if !m.has node then (st.1.set node 0, st.2 ++ [node]) else st) st).2 := by
  induction nodes with
  | nil =>
    intro st x h
    rcases h with h | h
    · exact h
    · simp at h
  | cons n nodes ih =>
    intro st x h
    rw [List.foldl_cons]
    apply ih
    by_cases hn : m.has n = true
    · simp only [hn, Bool.not_true, Bool.false_eq_true, if_false]
      rcases h with h | ⟨h1, h2⟩
      · exact Or.inl h
      · rcases List.mem_cons.1 h1 with h3 | h3
        · subst h3; rw [hn] at h2; cases h2
        · exact Or.inr ⟨h3, h2⟩
    · simp only [hn, Bool.not_false, if_true]
      rcases h with h | ⟨h1, h2⟩
      · exact Or.inl (List.mem_append_left _ h)
      · rcases List.mem_cons.1 h1 with h3 | h3
        · subst h3; exact Or.inl (by simp)
        · exact Or.inr ⟨h3, h2⟩

/-- After the BFS every neighbour without partner of an unmatched left node has
a level. -/
theorem bfs_levels_free_neighbours (g : Graph) (m : Matching) (fuel : Nat)
    (level : JMap Nat)
    (h : bfsLoop m (buildAdjList g.edges) fuel (bfsInit m g.leftNodes).1
      (bfsInit m g.leftNodes).2 = some level) :
    ∀ u ∈ g.leftNodes, m.has u = false → ∀ v ∈ adjOf (buildAdjList g.edges) u,
      getMatchedNodeFrom v m = none → level.has v = true := by
  intro u hu hum
  apply (bfsLoop_complete m _ fuel _ _ level h).2 u
  unfold bfsInit
  exact bfsInit_foldl_queue m g.leftNodes ([], []) u (Or.inr ⟨hu, hum⟩)

theorem find?_congr_mem {α : Type} (p q : α → Bool) :
    ∀ l : List α, (∀ x ∈ l, p x = q x) → l.find? p = l.find? q := by
  intro l
  induction l with
  | nil => intro _; rfl
  | cons a l ih =>
    intro h
    rw [List.find?_cons, List.find?_cons, h a (List.mem_cons_self _ _),
      ih (fun x hx => h x (List.mem_cons_of_mem _ hx))]

theorem findMultiplePathsLoop_exact (g : Graph) (m : Matching) (level : JMap Nat)
    (fuel : Nat)
    (hdead : ∀ u v, v ∈ adjOf (buildAdjList g.edges) u → level.has v = true →
      getMatchedNodeFrom v m = none)
    (hfree : ∀ u ∈ g.leftNodes, m.has u = false → ∀ v ∈ adjOf (buildAdjList g.edges) u,
      getMatchedNodeFrom v m = none → level.has v = true) :
    ∀ (nodes : List NodeId) (paths : List Path) (used : List NodeId),
      nodes ⊆ g.leftNodes → nodes.Nodup → (∀ n ∈ nodes, n ∉ used) →
      ∃ used1,
        findMultiplePathsLoop m level (buildAdjList g.edges) (fuel + 1) nodes paths used =
          some (paths ++ nodes.filterMap
            (fun u => if m.has u then none else phasePathOf g m u), used1) := by
  intro nodes
  induction nodes with
  | nil => intro paths used _ _ _; exact ⟨used, by simp [findMultiplePathsLoop]⟩
  | cons n nodes ih =>
    intro paths used hsub hnd hused
    have hsub1 : nodes ⊆ g.leftNodes := fun x hx => hsub (List.mem_cons_of_mem _ hx)
    have hnd1 := List.nodup_cons.1 hnd
    rw [findMultiplePathsLoop]
    by_cases hm : m.has n = true
    · simp only [hm, Bool.not_true, Bool.false_eq_true, if_false, List.filterMap_cons, if_true]
      exact ih paths used hsub1 hnd1.2 (fun x hx => hused x (List.mem_cons_of_mem _ hx))
    · have hm' : m.has n = false := by simpa using hm
      have hnu : used.contains n = false := by
        simpa using hused n (List.mem_cons_self _ _)
      have hfirst : firstLevelled level (adjOf (buildAdjList g.edges) n) =
          (neighbours g.edges n).find? (fun v => (getMatchedNodeFrom v m).isNone) := by
        unfold firstLevelled
        rw [adjOf_buildAdjList]
        apply find?_congr_mem
        intro v hv
        have hv' : v ∈ adjOf (buildAdjList g.edges) n := by
          rw [adjOf_buildAdjList]; exact hv
        cases hl : level.has v with
        | true => rw [hdead n v hv' hl]; rfl
        | false =>
          cases hg : getMatchedNodeFrom v m with
          | none =>
            rw [hfree n (hsub (List.mem_cons_self _ _)) hm' v hv' hg] at hl
            cases hl
          | some w => rfl
      simp only [hm', Bool.not_false, if_true]
      rw [dfsPath_dead m level _ fuel n used (hdead n), hnu]
      simp only [Bool.false_eq_true, if_false, hfirst]
      have hused1 : ∀ x ∈ nodes, x ∉ n :: used := by
        intro x hx hmem
        rcases List.mem_cons.1 hmem with h1 | h1
        · subst h1; exact hnd1.1 hx
        · exact hused x (List.mem_cons_of_mem _ hx) h1
      cases hp : (neighbours g.edges n).find? (fun v => (getMatchedNodeFrom v m).isNone) with
      | none =>
        have hpo : (if m.has n = true then none else phasePathOf g m n) = none := by
          rw [hm']; simp [phasePathOf, hp]
        rw [List.filterMap_cons, hpo]
        simp only [Option.map_none']
        exact ih paths (n :: used) hsub1 hnd1.2 hused1
      | some v =>
        have hpo : (if m.has n = true then none else phasePathOf g m n) = some [n, v] := by
          rw [hm']; simp [phasePathOf, hp]
        rw [List.filterMap_cons, hpo]
        simp only [Option.map_some']
        obtain ⟨u1, h1⟩ := ih (paths ++ [[n, v]]) (n :: used) hsub1 hnd1.2 hused1
        exact ⟨u1, by rw [h1]; simp⟩

/-- On a well-formed graph and a map whose pairs are edges, one phase search
returns, for every unmatched left node in `leftNodes` order that has a
neighbour without partner, the two-vertex path to the first such neighbour. -/
theorem findMultiplePaths_exact {g : Graph} {m : Matching} (hw : WellFormed g)
    (he : PairsAreEdges g m) : findMultiplePaths g m = some (phasePathsSpec g m) := by
  unfold findMultiplePaths
  simp only
  obtain ⟨level, hlevel⟩ := bfsLoop_some m (buildAdjList g.edges) (bfsFuel g m)
    (bfsInit m g.leftNodes).1 (bfsInit m g.leftNodes).2 (bfsInit_measure g m)
  rw [hlevel]
  simp only
  have hok := bfsLoop_levelOK hw he hlevel
  obtain ⟨u1, h1⟩ := findMultiplePathsLoop_exact g m level (2 * m.length)
    (bfsLoop_dead_branch hw hok) (bfs_levels_free_neighbours g m _ level hlevel)
    g.leftNodes [] [] (List.Subset.refl _) hw.1 (fun _ _ h => by simp at h)
  have hfuel : searchFuel m = 2 * m.length + 1 := rfl
  rw [hfuel, h1]
  simp [phasePathsSpec]

/-! ## Claim on the single left vertex with three neighbours -/

theorem star_single_search (g : Graph) (u a b c : NodeId) (hl : g.leftNodes = [u])
    (he : g.edges = [⟨u, a⟩, ⟨u, b⟩, ⟨u, c⟩]) :
    findAugmentingPathDFS g [] = some (some [u, a]) ∧
    findAugmentingPathDFS g [(u, a)] = some none := by
  have hadj : (buildAdjList g.edges).get u = some [a, b, c] := by
    rw [buildAdjList_get, he]
    simp [neighbours]
  constructor
  · unfold findAugmentingPathDFS
    rw [hl]
    simp [findAugmentingPathLoop, JMap.has, searchFuel, dfsAugment, hadj, dfsAugmentLoop,
      getMatchedNodeFrom]
  · unfold findAugmentingPathDFS
    rw [hl]
    simp [findAugmentingPathLoop, JMap.has]

theorem star_phase_search (g : Graph) (u a b c : NodeId) (hw : WellFormed g)
    (hl : g.leftNodes = [u]) (he : g.edges = [⟨u, a⟩, ⟨u, b⟩, ⟨u, c⟩]) :
    findMultiplePaths g [] = some [[u, a]] ∧ findMultiplePaths g [(u, a)] = some [] := by
  constructor
  · rw [findMultiplePaths_exact hw (fun _ h => by simp at h)]
    simp [phasePathsSpec, hl, JMap.has, phasePathOf, he, neighbours, getMatchedNodeFrom]
  · rw [findMultiplePaths_exact hw (by
      intro kv hkv
      simp only [List.mem_singleton] at hkv
      rw [hkv, he]
      simp)]
    simp [phasePathsSpec, hl, JMap.has]

/-- C20.  On a well-formed graph whose only left vertex `u` has the adjacency
list `[a, b, c]` and that has no other edge, every strategy run to completion
from the empty matching ends with the one-pair matching `u ↦ a`: the naive and
Ford-Fulkerson loops and steppers, the phase loop and its stepper after two
iterations, the step controller after five `executeStep` calls.  (All of them
are functions of the graph, so the same input gives the same result.) -/
theorem C20_single_left_vertex_takes_first_neighbour (g : Graph) (u a b c : NodeId)
    (hw : WellFormed g) (hl : g.leftNodes = [u])
    (he : g.edges = [⟨u, a⟩, ⟨u, b⟩, ⟨u, c⟩]) :
    benchmarkNaiveGreedyLoop g (loopFuel g) 0 [] = some ⟨true, 2, [(u, a)]⟩ ∧
    benchmarkFordFulkerson g = some 2 ∧
    benchmarkHopcroftKarpLoop g (loopFuel g) 0 [] = some ⟨true, 2, [(u, a)]⟩ ∧
    iterateStep (stepNaiveGreedy g) 2 RaceState.initial = some ⟨[(u, a)], 2, true⟩ ∧
    iterateStep (stepFordFulkerson g) 2 RaceState.initial = some ⟨[(u, a)], 2, true⟩ ∧
    iterateStep (stepHopcroftKarp g) 2 RaceState.initial = some ⟨[(u, a)], 2, true⟩ ∧
    iterateStep (executeStep g) 5 Controller.initial =
      some ⟨false, false, some ⟨Phase.complete, 2, 1, [], 0, SubStep.apply⟩, [(u, a)]⟩ := by
  obtain ⟨h1, h2⟩ := star_single_search g u a b c hl he
  obtain ⟨h3, h4⟩ := star_phase_search g u a b c hw hl he
  have hfuel : loopFuel g = 2 := by unfold loopFuel; rw [hl]; rfl
  have happly : applyPathSync [] [u, a] = [(u, a)] := by
    simp [applyPathSync, JMap.set]
  have happly2 : applyPaths [] [[u, a]] = [(u, a)] := by
    simp [applyPaths, applyPathSync, JMap.set]
  have hn : benchmarkNaiveGreedyLoop g (loopFuel g) 0 [] = some ⟨true, 2, [(u, a)]⟩ := by
    rw [hfuel]
    simp [benchmarkNaiveGreedyLoop, h1, happly, h2]
  have hh : benchmarkHopcroftKarpLoop g (loopFuel g) 0 [] = some ⟨true, 2, [(u, a)]⟩ := by
    rw [hfuel]
    simp [benchmarkHopcroftKarpLoop, h3, happly2, h4]
  have hsn : iterateStep (stepNaiveGreedy g) 2 RaceState.initial =
      some ⟨[(u, a)], 2, true⟩ := by
    simp [iterateStep, stepNaiveGreedy, RaceState.initial, h1, happly, h2]
  refine ⟨hn, ?_, hh, hsn, hsn, ?_, ?_⟩
  · show benchmarkNaiveGreedy g = some 2
    unfold benchmarkNaiveGreedy
    rw [hn]; rfl
  · simp [iterateStep, stepHopcroftKarp, RaceState.initial, h3, happly2, h4]
  · have e5 : (5 : Nat) = 2 * [[u, a]].length + 1 + 1 + 1 := rfl
    rw [e5, iterateStep_succ]
    rw [iterateStep_succ_left]
    have hinit : executeStep g Controller.initial =
        some ⟨false, true, some ⟨Phase.bfs, 1, 0, [], 0, SubStep.find⟩, []⟩ := rfl
    rw [hinit, Option.some_bind,
      executeStep_phase g [] [[u, a]] h3 (by simp) 1 0 0 [] SubStep.find false true,
      Option.some_bind, happly2, executeStep_last_phase g [(u, a)] h4]
    rfl

theorem C20_single_left_vertex_takes_first_neighbour_witness :
    WellFormed graphScenario3 ∧
    benchmarkNaiveGreedyLoop graphScenario3 (loopFuel graphScenario3) 0 [] =
      some ⟨true, 2, [(L 0, R 0)]⟩ ∧
    benchmarkHopcroftKarpLoop graphScenario3 (loopFuel graphScenario3) 0 [] =
      some ⟨true, 2, [(L 0, R 0)]⟩ ∧
    iterateStep (executeStep graphScenario3) 5 Controller.initial =
      some ⟨false, false, some ⟨Phase.complete, 2, 1, [], 0, SubStep.apply⟩, [(L 0, R 0)]⟩ :=
  have h := C20_single_left_vertex_takes_first_neighbour graphScenario3 (L 0) (R 0) (R 1)
    (R 2) (by decide) rfl rfl
  ⟨by decide, h.1, h.2.2.1, h.2.2.2.2.2.2⟩

/-! ## Claim on applying a stored path in the step controller -/

/-- C22 (counterexample).  On scenario 1 the controller reaches, after two
`executeStep` calls, the state that applies path 0 of two stored paths.  One
more call writes path 0 into the matching and counts it, but stays on path 0
(`currentPathIndex` is still 0, sub-step `apply`) although `0 + 1 < 2`; the
call after that moves to path 1 and neither applies a path nor counts one. -/
theorem C22_one_advance_keeps_path_index :
    iterateStep (executeStep graphScenario1) 2 Controller.initial = some applyingScenario1 ∧
    executeStep graphScenario1 applyingScenario1 =
      some ⟨false, true,
        some ⟨Phase.dfs, 1, 1, [[L 0, R 0], [L 1, R 0]], 0, SubStep.apply⟩, [(L 0, R 0)]⟩ ∧
    executeStep graphScenario1
        ⟨false, true,
          some ⟨Phase.dfs, 1, 1, [[L 0, R 0], [L 1, R 0]], 0, SubStep.apply⟩, [(L 0, R 0)]⟩ =
      some ⟨false, true,
        some ⟨Phase.dfs, 1, 1, [[L 0, R 0], [L 1, R 0]], 1, SubStep.highlight⟩,
        [(L 0, R 0)]⟩ := by
  decide

/-- C22 (amended).  In a state that applies path `i` of the stored list (phase
`dfs`, `currentPathIndex = i`, path `i` highlighted), the first `executeStep`
call writes path `i` into the matching and increases `maxMatch` by one, leaving
the index at `i`; the second call changes neither the matching nor `maxMatch`
and moves to path `i + 1` if `i + 1 < pathCount`, otherwise to phase `bfs` with
an empty path list and the next iteration number. -/
theorem C22_two_advances_apply_and_move_on (g : Graph) (c : Controller) (st : StepState)
    (p : Path) (hs : c.stepState = some st) (hp : st.phase = Phase.dfs)
    (hsub : st.pathSubStep = SubStep.highlight)
    (hi : st.currentPaths.get? st.currentPathIndex = some p) :
    executeStep g c =
      some { c with matching := applyPathSync c.matching p,
                    stepState := some { st with pathSubStep := SubStep.apply,
                                                maxMatch := st.maxMatch + 1 } } ∧
    iterateStep (executeStep g) 2 c =
      some { c with
        matching := applyPathSync c.matching p,
        stepState := some
          (if st.currentPathIndex + 1 < st.currentPaths.length then
            { st with maxMatch := st.maxMatch + 1,
                      currentPathIndex := st.currentPathIndex + 1 }
          else
            { st with maxMatch := st.maxMatch + 1,
                      pathSubStep := SubStep.apply,
                      currentPathIndex := 0,
                      iteration := st.iteration + 1,
                      phase := Phase.bfs,
                      currentPaths := [] }) } := by
  obtain ⟨r, sm, ss, m⟩ := c
  obtain ⟨ph, it, mm, paths, i, sub⟩ := st
  simp only at hs hp hsub hi
  subst hs hp hsub
  have h1 := executeStep_highlight g paths i p hi m it mm r sm
  refine ⟨h1, ?_⟩
  have e : (2 : Nat) = 0 + 1 + 1 := rfl
  rw [e, iterateStep_succ_left, h1, Option.some_bind, iterateStep_succ_left]
  by_cases hlt : i + 1 < paths.length
  · rw [executeStep_apply_more g paths i hlt]
    simp [iterateStep, hlt]
  · rw [executeStep_apply_last g paths i hlt]
    simp [iterateStep, hlt]

theorem C22_two_advances_apply_and_move_on_witness :
    iterateStep (executeStep graphScenario1) 2 applyingScenario1 =
      some ⟨false, true,
        some ⟨Phase.dfs, 1, 1, [[L 0, R 0], [L 1, R 0]], 1, SubStep.highlight⟩,
        [(L 0, R 0)]⟩ :=
  (C22_two_advances_apply_and_move_on graphScenario1 applyingScenario1
    ⟨Phase.dfs, 1, 0, [[L 0, R 0], [L 1, R 0]], 0, SubStep.highlight⟩ [L 0, R 0]
    rfl rfl rfl rfl).2

/-! ## The phase search of the automatic run against the other copies -/

theorem bfsPhaseLoop_eq (m : Matching) (adjList : JMap (List NodeId)) :
    ∀ (fuel : Nat) (level : JMap Nat) (queue : List NodeId),
      bfsPhaseLoop m adjList fuel level queue = bfsLoop m adjList fuel level queue := by
  intro fuel
  induction fuel with
  | zero =>
    intro level queue
    cases queue <;> simp [bfsPhaseLoop, bfsLoop]
  | succ fuel ih =>
    intro level queue
    cases queue with
    | nil => simp [bfsPhaseLoop, bfsLoop]
    | cons u q =>
      rw [bfsPhaseLoop, bfsLoop]
      cases hadj : adjList.get u with
      | none => exact ih _ _
      | some vs =>
        simp only
        have : bfsPhaseVisit m u = bfsVisit m u := by
          funext st v; rfl
        rw [this]
        exact ih _ _

theorem bfsPhasePathsLoop_eq (m : Matching) (level : JMap Nat)
    (adjList : JMap (List NodeId)) (fuel : Nat) :
    ∀ (nodes : List NodeId) (paths : List Path) (used : List NodeId),
      bfsPhasePathsLoop m level adjList fuel nodes paths used =
        findMultiplePathsLoop m level adjList fuel nodes paths used := by
  intro nodes
  induction nodes with
  | nil => intro paths used; rfl
  | cons n nodes ih =>
    intro paths used
    rw [bfsPhasePathsLoop, findMultiplePathsLoop, dfs_eq]
    by_cases hm : m.has n = true
    · simp only [hm, Bool.not_true, Bool.false_eq_true, if_false]
      exact ih _ _
    · simp only [hm, Bool.not_false, if_true]
      cases hr : dfsPath m level adjList fuel n used with
      | none => rfl
      | some r =>
        obtain ⟨r1, u1⟩ := r
        cases r1 with
        | none => exact ih _ _
        | some p => exact ih _ _

theorem bfsPhase_eq (g : Graph) (m : Matching) :
    bfsPhase g m = findMultiplePaths g m := by
  unfold bfsPhase findMultiplePaths
  simp only [bfsPhaseLoop_eq]
  cases bfsLoop m (buildAdjList g.edges) (bfsFuel g m) (bfsInit m g.leftNodes).1
      (bfsInit m g.leftNodes).2 with
  | none => rfl
  | some level => simp only [bfsPhasePathsLoop_eq]

/-- C23.  The three copies of the phase search are one function.  For every
graph and every map `m`, `findMultiplePaths(m)` returns a list of paths, and
`findPathsSync()` and `bfsPhase()` run with the module-level matching equal to
`m` return that same list; `dfs` and `dfsPath` return the same result on every
call (and agree at every recursion budget), and `getMatchedNode(x)` is
`getMatchedNodeFrom(x, m)`. -/
theorem C23_phase_search_copies_agree (g : Graph) (m : Matching) :
    (∃ paths, findMultiplePaths g m = some paths ∧ findPathsSync g m = some paths ∧
      bfsPhase g m = some paths) ∧
    (∀ (level : JMap Nat) (adjList : JMap (List NodeId)) (u : NodeId) (used : List NodeId),
      ∃ r, dfsPath m level adjList (searchFuel m) u used = some r ∧
        dfs m level adjList (searchFuel m) u used = some r) ∧
    (∀ (level : JMap Nat) (adjList : JMap (List NodeId)) (fuel : Nat) (u : NodeId)
      (used : List NodeId),
      dfs m level adjList fuel u used = dfsPath m level adjList fuel u used) ∧
    (∀ x, getMatchedNode m x = getMatchedNodeFrom x m) := by
  obtain ⟨paths, hp⟩ := findMultiplePaths_some g m
  refine ⟨⟨paths, hp, ?_, ?_⟩, ?_, ?_, ?_⟩
  · rw [findPathsSync_eq, hp]
  · rw [bfsPhase_eq, hp]
  · intro level adjList u used
    obtain ⟨r, hr⟩ := dfsPath_some m level adjList (searchFuel m) u used (by
      intro _
      have := unvisited_le m (u :: used)
      unfold searchFuel; omega)
    exact ⟨r, hr, by rw [dfs_eq, hr]⟩
  · intro level adjList fuel u used
    exact dfs_eq m level adjList fuel u used
  · intro x; rfl

/-! ## Claim on the iteration count of the phase loop -/

theorem find?_true_eq_head? {α : Type} (p : α → Bool) :
    ∀ l : List α, (∀ x ∈ l, p x = true) → l.find? p = l.head? := by
  intro l h
  cases l with
  | nil => rfl
  | cons a l => rw [List.find?_cons, h a (List.mem_cons_self _ _)]; rfl

theorem phasePathsSpec_nil (g : Graph) :
    phasePathsSpec g [] =
      g.leftNodes.filterMap (fun u => (neighbours g.edges u).head?.map (fun v => [u, v])) := by
  unfold phasePathsSpec
  congr 1
  funext u
  have h1 : JMap.has ([] : Matching) u = false := rfl
  rw [h1]
  simp only [Bool.false_eq_true, if_false]
  unfold phasePathOf
  rw [find?_true_eq_head?]
  intro x _
  rfl

theorem JMap.set_new {β : Type} (m : JMap β) (k : NodeId) (v : β) (h : m.has k = false) :
    m.set k v = m ++ [(k, v)] := by
  induction m with
  | nil => rfl
  | cons kv m ih =>
    obtain ⟨k1, v1⟩ := kv
    have hk : (k1 == k) = false := by
      simp only [JMap.has, List.any_cons, Bool.or_eq_false_iff] at h
      exact h.1
    have hm : JMap.has m k = false := by
      simp only [JMap.has, List.any_cons, Bool.or_eq_false_iff] at h
      exact h.2
    rw [JMap.set, hk]
    simp only [Bool.false_eq_true, if_false, List.cons_append]
    rw [ih hm]

theorem has_append_single {β : Type} (m : JMap β) (k x : NodeId) (v : β) :
    JMap.has (m ++ [(k, v)]) x = (m.has x || (k == x)) := by
  simp [JMap.has]

theorem applyPaths_filterMap (h : NodeId → Option NodeId) :
    ∀ (nodes : List NodeId) (m : Matching), nodes.Nodup → (∀ u ∈ nodes, m.has u = false) →
      applyPaths m (nodes.filterMap (fun u => (h u).map (fun v => [u, v]))) =
        m ++ nodes.filterMap (fun u => (h u).map (fun v => (u, v))) := by
  intro nodes
  induction nodes with
  | nil => intro m _ _; simp [applyPaths]
  | cons n nodes ih =>
    intro m hnd hnew
    have hnd1 := List.nodup_cons.1 hnd
    cases hn : h n with
    | none =>
      simp only [List.filterMap_cons, hn, Option.map_none']
      exact ih m hnd1.2 (fun u hu => hnew u (List.mem_cons_of_mem _ hu))
    | some v =>
      simp only [List.filterMap_cons, hn, Option.map_some']
      rw [applyPaths_cons]
      have hset : applyPathSync m [n, v] = m ++ [(n, v)] := by
        simp only [applyPathSync]
        exact JMap.set_new m n v (hnew n (List.mem_cons_self _ _))
      rw [hset, ih (m ++ [(n, v)]) hnd1.2]
      · simp
      · intro u hu
        rw [has_append_single, hnew u (List.mem_cons_of_mem _ hu)]
        have : n ≠ u := fun e => hnd1.1 (e ▸ hu)
        simpa using this

theorem firstNeighbourMatching_mem {g : Graph} {u v : NodeId} :
    (u, v) ∈ firstNeighbourMatching g ↔
      u ∈ g.leftNodes ∧ (neighbours g.edges u).head? = some v := by
  unfold firstNeighbourMatching
  rw [List.mem_filterMap]
  constructor
  · rintro ⟨a, ha, h⟩
    cases hh : (neighbours g.edges a).head? with
    | none => rw [hh] at h; cases h
    | some w =>
      rw [hh] at h
      simp only [Option.map_some', Option.some.injEq, Prod.mk.injEq] at h
      obtain ⟨h1, h2⟩ := h
      subst h1 h2
      exact ⟨ha, hh⟩
  · rintro ⟨hu, hh⟩
    exact ⟨u, hu, by rw [hh]; rfl⟩

theorem firstNeighbourMatching_has {g : Graph} {u : NodeId} :
    (firstNeighbourMatching g).has u = true ↔
      u ∈ g.leftNodes ∧ neighbours g.edges u ≠ [] := by
  rw [JMap.has_eq_true_iff, List.mem_map]
  constructor
  · rintro ⟨⟨a, b⟩, hab, h⟩
    simp only at h
    subst h
    obtain ⟨h1, h2⟩ := firstNeighbourMatching_mem.1 hab
    refine ⟨h1, ?_⟩
    intro hn
    rw [hn] at h2
    cases h2
  · rintro ⟨hu, hn⟩
    cases hl : neighbours g.edges u with
    | nil => exact absurd hl hn
    | cons v vs =>
      exact ⟨(u, v), firstNeighbourMatching_mem.2 ⟨hu, by rw [hl]; rfl⟩, rfl⟩

theorem firstNeighbourMatching_pairsAreEdges (g : Graph) :
    PairsAreEdges g (firstNeighbourMatching g) := by
  intro kv hkv
  obtain ⟨u, v⟩ := kv
  obtain ⟨_, h2⟩ := firstNeighbourMatching_mem.1 hkv
  apply mem_neighbours.1
  exact List.mem_of_mem_head? h2

theorem phasePathsSpec_firstNeighbour (g : Graph) :
    phasePathsSpec g (firstNeighbourMatching g) = [] := by
  unfold phasePathsSpec
  rw [List.filterMap_eq_nil_iff]
  intro u hu
  by_cases hh : (firstNeighbourMatching g).has u = true
  · simp [hh]
  · simp only [hh, Bool.false_eq_true, if_false]
    have hn : neighbours g.edges u = [] := by
      by_contra hne
      exact hh (firstNeighbourMatching_has.2 ⟨hu, hne⟩)
    unfold phasePathOf
    rw [hn]
    rfl

theorem firstNeighbourMatching_eq_nil_iff (g : Graph) :
    firstNeighbourMatching g = [] ↔ ∀ u ∈ g.leftNodes, neighbours g.edges u = [] := by
  unfold firstNeighbourMatching
  rw [List.filterMap_eq_nil_iff]
  constructor
  · intro h u hu
    have := h u hu
    cases hl : neighbours g.edges u with
    | nil => rfl
    | cons v vs => rw [hl] at this; simp at this
  · intro h u hu
    rw [h u hu]; rfl

theorem firstPhase_paths_eq_nil_iff (g : Graph) :
    phasePathsSpec g [] = [] ↔ ∀ u ∈ g.leftNodes, neighbours g.edges u = [] := by
  rw [phasePathsSpec_nil, List.filterMap_eq_nil_iff]
  constructor
  · intro h u hu
    have := h u hu
    cases hl : neighbours g.edges u with
    | nil => rfl
    | cons v vs => rw [hl] at this; simp at this
  · intro h u hu
    rw [h u hu]; rfl

theorem firstPhase_apply {g : Graph} (hw : WellFormed g) :
    applyPaths [] (phasePathsSpec g []) = firstNeighbourMatching g := by
  rw [phasePathsSpec_nil,
    applyPaths_filterMap (fun u => (neighbours g.edges u).head?) g.leftNodes [] hw.1
      (fun _ _ => rfl)]
  rfl

/-- The loop of `benchmarkHopcroftKarp` from the empty map: one iteration when
no left vertex has an edge, two otherwise. -/
theorem hopcroftLoop_exact {g : Graph} (hw : WellFormed g) :
    benchmarkHopcroftKarpLoop g (loopFuel g) 0 [] =
      some ⟨true, if (∀ u ∈ g.leftNodes, neighbours g.edges u = []) then 1 else 2,
        firstNeighbourMatching g⟩ := by
  have h1 : findMultiplePaths g [] = some (phasePathsSpec g []) :=
    findMultiplePaths_exact hw (fun _ h => by simp at h)
  have h2 : findMultiplePaths g (firstNeighbourMatching g) = some [] := by
    rw [findMultiplePaths_exact hw (firstNeighbourMatching_pairsAreEdges g),
      phasePathsSpec_firstNeighbour]
  by_cases hall : ∀ u ∈ g.leftNodes, neighbours g.edges u = []
  · have hp : phasePathsSpec g [] = [] := (firstPhase_paths_eq_nil_iff g).2 hall
    have hf : firstNeighbourMatching g = [] := (firstNeighbourMatching_eq_nil_iff g).2 hall
    unfold loopFuel
    rw [benchmarkHopcroftKarpLoop, h1, hp, hf, if_pos hall]
    rfl
  · have hp : phasePathsSpec g [] ≠ [] := fun e => hall ((firstPhase_paths_eq_nil_iff g).1 e)
    have hlen : ((phasePathsSpec g []).length == 0) = false := by
      cases hl : phasePathsSpec g [] with
      | nil => exact absurd hl hp
      | cons p ps => rfl
    obtain ⟨n, hn⟩ : ∃ n, g.leftNodes.length = n + 1 := by
      cases hl : g.leftNodes with
      | nil =>
        exfalso; apply hall
        intro u hu
        rw [hl] at hu
        cases hu
      | cons a l => exact ⟨l.length, rfl⟩
    unfold loopFuel
    rw [hn, benchmarkHopcroftKarpLoop, h1]
    simp only [hlen, Bool.false_eq_true, if_false]
    rw [firstPhase_apply hw, benchmarkHopcroftKarpLoop, h2, if_neg hall]
    rfl

theorem firstNeighbourMatching_keys_nodup {g : Graph} (hw : WellFormed g) :
    ((firstNeighbourMatching g).map Prod.fst).Nodup := by
  have hsub : ((firstNeighbourMatching g).map Prod.fst).Sublist g.leftNodes := by
    unfold firstNeighbourMatching
    generalize g.leftNodes = l
    induction l with
    | nil => simp
    | cons a l ih =>
      cases hh : (neighbours g.edges a).head? with
      | none =>
        simp only [List.filterMap_cons, hh, Option.map_none']
        exact ih.trans (List.sublist_cons_self _ _)
      | some v =>
        simp only [List.filterMap_cons, hh, Option.map_some', List.map_cons]
        exact ih.cons₂ a
  exact hsub.nodup hw.1

theorem adjList_has_iff (edges : List Edge) (u : NodeId) :
    (buildAdjList edges).has u = true ↔ neighbours edges u ≠ [] := by
  rw [JMap.has_eq_isSome_get, buildAdjList_get]
  by_cases hn : neighbours edges u = []
  · simp [hn]
  · simp [hn]

/-- C25.  On a well-formed graph the loop of `benchmarkHopcroftKarp`
terminates; the function returns 1 when no left vertex has an edge and 2
otherwise (so at most 2), and the final `testMatching` has exactly the left
vertices with at least one edge as keys (in `leftNodes` order), each mapped to
the first right vertex of its adjacency list. -/
theorem C25_phase_loop_runs_one_or_two_iterations (g : Graph) (hw : WellFormed g) :
    ∃ s, benchmarkHopcroftKarpLoop g (loopFuel g) 0 [] = some s ∧ s.finished = true ∧
      benchmarkHopcroftKarp g = some s.iterations ∧ s.iterations ≤ 2 ∧
      ((∀ u ∈ g.leftNodes, (buildAdjList g.edges).has u = false) → s.iterations = 1) ∧
      ((∃ u ∈ g.leftNodes, (buildAdjList g.edges).has u = true) → s.iterations = 2) ∧
      s.testMatching = firstNeighbourMatching g ∧
      (∀ u ∈ g.leftNodes, ∀ v vs, (buildAdjList g.edges).get u = some (v :: vs) →
        s.testMatching.get u = some v) ∧
      (∀ u, s.testMatching.has u = true →
        u ∈ g.leftNodes ∧ (buildAdjList g.edges).has u = true) := by
  have hloop := hopcroftLoop_exact hw
  refine ⟨_, hloop, rfl, ?_, ?_, ?_, ?_, rfl, ?_, ?_⟩
  · unfold benchmarkHopcroftKarp
    rw [hloop]
    rfl
  · show (if (∀ u ∈ g.leftNodes, neighbours g.edges u = []) then 1 else 2) ≤ 2
    split <;> omega
  · intro h
    show (if (∀ u ∈ g.leftNodes, neighbours g.edges u = []) then 1 else 2) = 1
    rw [if_pos]
    intro u hu
    by_contra hne
    have := (adjList_has_iff g.edges u).2 hne
    rw [h u hu] at this
    cases this
  · rintro ⟨u, hu, h⟩
    show (if (∀ u ∈ g.leftNodes, neighbours g.edges u = []) then 1 else 2) = 2
    rw [if_neg]
    intro hall
    exact (adjList_has_iff g.edges u).1 h (hall u hu)
  · intro u hu v vs hget
    show (firstNeighbourMatching g).get u = some v
    apply JMap.get_of_mem (firstNeighbourMatching_keys_nodup hw)
    apply firstNeighbourMatching_mem.2
    refine ⟨hu, ?_⟩
    rw [← buildAdjList_get_some hget]
    rfl
  · intro u h
    have h1 : (firstNeighbourMatching g).has u = true := h
    obtain ⟨h2, h3⟩ := firstNeighbourMatching_has.1 h1
    exact ⟨h2, (adjList_has_iff g.edges u).2 h3⟩

theorem C25_phase_loop_runs_one_or_two_iterations_witness :
    ∃ s, benchmarkHopcroftKarpLoop graphGenerated (loopFuel graphGenerated) 0 [] = some s ∧
      s.finished = true ∧ benchmarkHopcroftKarp graphGenerated = some s.iterations ∧
      s.iterations = 2 ∧ s.testMatching = firstNeighbourMatching graphGenerated :=
  have h := C25_phase_loop_runs_one_or_two_iterations graphGenerated (by decide)
  h.imp (fun _ hs =>
    ⟨hs.1, hs.2.1, hs.2.2.1, hs.2.2.2.2.2.1 ⟨L 0, by decide, by decide⟩, hs.2.2.2.2.2.2.1⟩)

/-! ## Claim on the counter of the step controller -/

theorem counterInv_initial (g : Graph) : CounterInv g Controller.initial :=
  ⟨StepState.initial, rfl, rfl, preMatching_nil g, fun _ h => by simp [pendingPaths, StepState.initial] at h,
    by simp [pendingPaths, StepState.initial], fun h => by simp [StepState.initial] at h⟩

theorem counterInv_step {g : Graph} (hw : WellFormed g) (c : Controller)
    (h : CounterInv g c) : ∃ c1, executeStep g c = some c1 ∧ CounterInv g c1 := by
  obtain ⟨st, hs, hmm, hpre, hpend, hnd, hidx⟩ := h
  obtain ⟨r, sm, ss, m⟩ := c
  obtain ⟨ph, it, mm, paths, i, sub⟩ := st
  simp only at hs hmm hpre hpend hnd hidx
  subst hs
  cases ph with
  | init =>
    refine ⟨_, rfl, ⟨_, rfl, hmm, hpre, ?_, ?_, ?_⟩⟩
    · intro p hp; simp [pendingPaths] at hp
    · simp [pendingPaths]
    · intro h; cases h
  | bfs =>
    obtain ⟨ps, hps, hshape, hsub⟩ := findMultiplePaths_shape hw hpre.2
    by_cases hne : ps = []
    · subst hne
      rw [executeStep_last_phase g m hps]
      refine ⟨_, rfl, ⟨_, rfl, hmm, hpre, ?_, ?_, ?_⟩⟩
      · intro p hp; simp [pendingPaths] at hp
      · simp [pendingPaths]
      · intro h; cases h
    · rw [executeStep_first_of_phase g m ps hps hne]
      refine ⟨_, rfl, ⟨_, rfl, hmm, hpre, ?_, ?_, ?_⟩⟩
      · intro p hp
        simp only [pendingPaths, List.drop_zero] at hp
        obtain ⟨u, v, h1, _, h3, h4, _⟩ := hshape p hp
        exact ⟨u, v, h1, h3, h4⟩
      · simp only [pendingPaths, List.drop_zero]
        exact hsub.nodup hw.1
      · intro _ _
        show 0 < ps.length
        cases ps with
        | nil => exact absurd rfl hne
        | cons p ps => simp
  | complete =>
    exact ⟨_, executeStep_complete g _ _ rfl rfl, ⟨_, rfl, hmm, hpre, hpend, hnd, hidx⟩⟩
  | dfs =>
    cases sub with
    | find =>
      exact ⟨_, rfl, ⟨_, rfl, hmm, hpre, hpend, hnd, hidx⟩⟩
    | highlight =>
      have hlt : i < paths.length := hidx rfl rfl
      have hget : paths.get? i = some (paths.get ⟨i, hlt⟩) := List.get?_eq_get hlt
      have hdrop : paths.drop i = paths.get ⟨i, hlt⟩ :: paths.drop (i + 1) := by
        rw [List.drop_eq_getElem_cons hlt]; rfl
      simp only [pendingPaths] at hpend hnd
      rw [hdrop] at hpend hnd
      obtain ⟨u, v, hp, hu, he⟩ := hpend _ (List.mem_cons_self _ _)
      rw [executeStep_highlight g paths i _ hget, hp]
      have happly : applyPathSync m [u, v] = m.set u v := by simp [applyPathSync]
      rw [happly]
      have hnd1 := List.nodup_cons.1 hnd
      refine ⟨_, rfl, ⟨_, rfl, ?_, preMatching_set hpre he, ?_, ?_, ?_⟩⟩
      · show mm + 1 = (m.set u v).length
        rw [JMap.length_set, hu, hmm]
        simp
      · intro p hpm
        simp only [pendingPaths] at hpm
        obtain ⟨u1, v1, hp1, hu1, he1⟩ := hpend p (List.mem_cons_of_mem _ hpm)
        refine ⟨u1, v1, hp1, ?_, he1⟩
        rw [JMap.has_set, hu1]
        have hne : u ≠ u1 := by
          intro e
          apply hnd1.1
          rw [List.map_cons, hp] at *
          simp only [List.headD_cons]
          rw [e]
          exact List.mem_map.2 ⟨p, hpm, by rw [hp1]; rfl⟩
        simp [hne]
      · simp only [pendingPaths]
        exact hnd1.2
      · intro _ h; cases h
    | apply =>
      simp only [pendingPaths] at hpend hnd
      by_cases hlt : i + 1 < paths.length
      · rw [executeStep_apply_more g paths i hlt]
        exact ⟨_, rfl, ⟨_, rfl, hmm, hpre, hpend, hnd, fun _ _ => hlt⟩⟩
      · rw [executeStep_apply_last g paths i hlt]
        refine ⟨_, rfl, ⟨_, rfl, hmm, hpre, ?_, ?_, ?_⟩⟩
        · intro p hp; simp [pendingPaths] at hp
        · simp [pendingPaths]
        · intro h; cases h

theorem counterInv_iterate {g : Graph} (hw : WellFormed g) :
    ∀ k : Nat, ∃ c, iterateStep (executeStep g) k Controller.initial = some c ∧
      CounterInv g c := by
  intro k
  induction k with
  | zero => exact ⟨_, rfl, counterInv_initial g⟩
  | succ k ih =>
    obtain ⟨c, hc, hinv⟩ := ih
    obtain ⟨c1, hc1, hinv1⟩ := counterInv_step hw c hinv
    exact ⟨c1, by rw [iterateStep_succ, hc, Option.some_bind, hc1], hinv1⟩

/-- C26.  On a well-formed graph every number `k` of `executeStep` calls from
the initial state of the step controller (empty matching, `maxMatch = 0`)
returns a state, and in that state `maxMatch` equals the number of keys of the
matching map (the map lists every key once, so this is its number of
pairs). -/
theorem C26_maxMatch_counts_keys (g : Graph) (hw : WellFormed g) (k : Nat) :
    ∃ c st, iterateStep (executeStep g) k Controller.initial = some c ∧
      c.stepState = some st ∧ st.maxMatch = c.matching.length ∧
      (c.matching.map Prod.fst).Nodup ∧
      st.maxMatch = (c.matching.map Prod.fst).toFinset.card := by
  obtain ⟨c, hc, st, hs, hmm, hpre, _⟩ := counterInv_iterate hw k
  refine ⟨c, st, hc, hs, hmm, hpre.1, ?_⟩
  rw [List.toFinset_card_of_nodup hpre.1, List.length_map]
  exact hmm

theorem C26_maxMatch_counts_keys_witness :
    ∃ c st, iterateStep (executeStep graphScenario1) 4 Controller.initial = some c ∧
      c.stepState = some st ∧ st.maxMatch = c.matching.length ∧
      (c.matching.map Prod.fst).Nodup ∧
      st.maxMatch = (c.matching.map Prod.fst).toFinset.card :=
  C26_maxMatch_counts_keys graphScenario1 (by decide) 4

/-! ## The phase search on a map keyed by left vertices -/

theorem findMultiplePaths_stages (g : Graph) (m : Matching) :
    findMultiplePaths g m =
      (bfsLevels g m).bind (fun level =>
        (findMultiplePathsLoop m level (buildAdjList g.edges) (searchFuel m)
          g.leftNodes [] []).map (fun r => r.1)) := by
  unfold findMultiplePaths bfsLevels
  simp only
  cases bfsLoop m (buildAdjList g.edges) (bfsFuel g m) (bfsInit m g.leftNodes).1
      (bfsInit m g.leftNodes).2 <;> rfl

theorem findPathsSync_stages (g : Graph) (m : Matching) :
    findPathsSync g m =
      (bfsLevelsSync g m).bind (fun level =>
        (findPathsSyncLoop m level (buildAdjList g.edges) (searchFuel m)
          g.leftNodes [] []).map (fun r => r.1)) := by
  unfold findPathsSync bfsLevelsSync
  simp only
  cases bfsLoopSync m (buildAdjList g.edges) (bfsFuel g m) (bfsInit m g.leftNodes).1
      (bfsInit m g.leftNodes).2 <;> rfl

theorem bfsLevelsSync_eq (g : Graph) (m : Matching) : bfsLevelsSync g m = bfsLevels g m := by
  unfold bfsLevelsSync bfsLevels
  exact bfsLoopSync_eq m _ _ _ _

theorem bfsLevels_some (g : Graph) (m : Matching) : ∃ level, bfsLevels g m = some level :=
  bfsLoop_some m (buildAdjList g.edges) (bfsFuel g m)
    (bfsInit m g.leftNodes).1 (bfsInit m g.leftNodes).2 (bfsInit_measure g m)

theorem keysLeft_of_pairsAreEdges {g : Graph} {m : Matching} (hw : WellFormed g)
    (he : PairsAreEdges g m) : KeysLeft g m :=
  fun kv hkv => (hw.2.2 _ (he kv hkv)).1

theorem has_false_of_right_keys {g : Graph} {m : Matching} (hw : WellFormed g)
    (hk : KeysLeft g m) {v : NodeId} (hv : v ∈ g.rightNodes) : m.has v = false := by
  rw [JMap.has_eq_false_iff]
  intro hmem
  obtain ⟨kv, hkv, h1⟩ := List.mem_map.1 hmem
  have := hk kv hkv
  rw [h1] at this
  exact hw.2.1 v this hv

theorem bfsVisit_levelOK_keys {g : Graph} {m : Matching} (hw : WellFormed g)
    (hk : KeysLeft g m) {u v : NodeId} (hv : v ∈ adjOf (buildAdjList g.edges) u)
    (st : JMap Nat × List NodeId) (h : LevelOK g m st.1) :
    LevelOK g m (bfsVisit m u st v).1 := by
  unfold bfsVisit
  have hvr : v ∈ g.rightNodes := (hw.2.2 _ (mem_adjOf_buildAdjList.1 hv)).2
  cases hg : getMatchedNodeFrom v m with
  | none =>
    simp only
    by_cases hl : st.1.has v = true
    · simpa [hl] using h
    · simp only [hl, Bool.not_false, if_true]
      intro x hx
      rw [JMap.has_set] at hx
      simp only [Bool.or_eq_true, decide_eq_true_eq] at hx
      rcases hx with h1 | h1
      · right; rw [← h1]; exact hg
      · exact h x h1
  | some w =>
    simp only
    by_cases hl : st.1.has w = true
    · simpa [hl] using h
    · simp only [hl, Bool.not_false, if_true]
      intro x hx
      rw [JMap.has_set] at hx
      simp only [Bool.or_eq_true, decide_eq_true_eq] at hx
      rcases hx with h1 | h1
      · left
        rw [← h1]
        exact hk _ (getMatchedNodeFrom_some_mem (has_false_of_right_keys hw hk hvr) hg)
      · exact h x h1

theorem bfsLevels_levelOK {g : Graph} {m : Matching} (hw : WellFormed g)
    (hk : KeysLeft g m) {level : JMap Nat} (h : bfsLevels g m = some level) :
    LevelOK g m level :=
  bfsLoop_invariant m (buildAdjList g.edges) (LevelOK g m)
    (fun _ _ hv st hst => bfsVisit_levelOK_keys hw hk hv st hst) _ _ _ level
    (bfsInit_levelOK g m) h

/-- On a well-formed graph and a map keyed by left vertices, one phase search
returns the paths of `phasePathsSpec`. -/
theorem findMultiplePaths_exact_keys {g : Graph} {m : Matching} (hw : WellFormed g)
    (hk : KeysLeft g m) : findMultiplePaths g m = some (phasePathsSpec g m) := by
  rw [findMultiplePaths_stages]
  obtain ⟨level, hlevel⟩ := bfsLevels_some g m
  rw [hlevel, Option.some_bind]
  have hok := bfsLevels_levelOK hw hk hlevel
  obtain ⟨u1, h1⟩ := findMultiplePathsLoop_exact g m level (2 * m.length)
    (bfsLoop_dead_branch hw hok) (bfs_levels_free_neighbours g m _ level hlevel)
    g.leftNodes [] [] (List.Subset.refl _) hw.1 (fun _ _ h => by simp at h)
  have hfuel : searchFuel m = 2 * m.length + 1 := rfl
  rw [hfuel, h1]
  simp [phasePathsSpec]

theorem mem_phasePathsSpec {g : Graph} {m : Matching} {p : Path}
    (hp : p ∈ phasePathsSpec g m) :
    ∃ u v, p = [u, v] ∧ u ∈ g.leftNodes ∧ m.has u = false ∧
      (neighbours g.edges u).find? (fun x => (getMatchedNodeFrom x m).isNone) = some v := by
  unfold phasePathsSpec at hp
  obtain ⟨u, hu, h⟩ := List.mem_filterMap.1 hp
  by_cases hm : m.has u = true
  · simp [hm] at h
  · simp only [hm, Bool.false_eq_true, if_false] at h
    unfold phasePathOf at h
    cases hf : (neighbours g.edges u).find? (fun x => (getMatchedNodeFrom x m).isNone) with
    | none => rw [hf] at h; cases h
    | some v =>
      rw [hf] at h
      simp only [Option.map_some', Option.some.injEq] at h
      exact ⟨u, v, h.symm, hu, by simpa using hm, hf⟩

theorem dfsLoop_dead (recur : NodeId → List NodeId → Option SearchResult)
    (m : Matching) (level : JMap Nat) (u : NodeId) (used : List NodeId)
    (vs : List NodeId) (h : ∀ v ∈ vs, level.has v = true → getMatchedNodeFrom v m = none) :
    dfsLoop recur m level u vs used =
      some ((firstLevelled level vs).map (fun v => [u, v]), used) := by
  rw [dfsLoop_eq]
  exact dfsPathLoop_dead recur m level u used vs h

/-! ## Claim on the shape of the paths of a phase -/

/-- C24.  On a well-formed graph and a map `m` whose keys are left vertices,
the phase search (`findMultiplePaths`, `findPathsSync`) returns a list of paths
each of which is `[u, v]` with `u` a left vertex that is not a key of `m` and
`v` the first vertex of `u`'s adjacency list without partner in `m`.  The
layering of the BFS stage gives a level to a right vertex, and to a vertex of
an adjacency list, only if it has no partner, so the test that guards the
recursive call of `dfsPath` / `dfs` is never reached: the loop over an
adjacency list returns the same value whatever the recursive call would do,
also when the recursive call is replaced by one that never returns. -/
theorem C24_phase_paths_have_two_vertices (g : Graph) (m : Matching) (hw : WellFormed g)
    (hk : KeysLeft g m) :
    ∃ paths level,
      findMultiplePaths g m = some paths ∧ findPathsSync g m = some paths ∧
      bfsLevels g m = some level ∧ bfsLevelsSync g m = some level ∧
      (∀ p ∈ paths, ∃ u v vs, p = [u, v] ∧ u ∈ g.leftNodes ∧ m.has u = false ∧
        (buildAdjList g.edges).get u = some vs ∧
        vs.find? (fun x => (getMatchedNodeFrom x m).isNone) = some v) ∧
      (∀ v ∈ g.rightNodes, level.has v = true → getMatchedNodeFrom v m = none) ∧
      (∀ u vs, (buildAdjList g.edges).get u = some vs →
        ∀ v ∈ vs, level.has v = true → getMatchedNodeFrom v m = none) ∧
      (∀ (recur : NodeId → List NodeId → Option SearchResult) (u : NodeId)
        (vs used : List NodeId), (buildAdjList g.edges).get u = some vs →
        ∃ r, dfsPathLoop (fun _ _ => none) m level u vs used = some r ∧
          dfsPathLoop recur m level u vs used = some r ∧
          dfsLoop (fun _ _ => none) m level u vs used = some r ∧
          dfsLoop recur m level u vs used = some r) := by
  obtain ⟨level, hlevel⟩ := bfsLevels_some g m
  have hok := bfsLevels_levelOK hw hk hlevel
  have hdead := bfsLoop_dead_branch hw hok
  have hdead1 : ∀ u vs, (buildAdjList g.edges).get u = some vs →
      ∀ v ∈ vs, level.has v = true → getMatchedNodeFrom v m = none := by
    intro u vs hget v hv hl
    exact hdead u v (by simp [adjOf, hget, hv]) hl
  refine ⟨phasePathsSpec g m, level, findMultiplePaths_exact_keys hw hk, ?_, hlevel, ?_, ?_,
    ?_, hdead1, ?_⟩
  · rw [findPathsSync_eq]; exact findMultiplePaths_exact_keys hw hk
  · rw [bfsLevelsSync_eq]; exact hlevel
  · intro p hp
    obtain ⟨u, v, h1, h2, h3, h4⟩ := mem_phasePathsSpec hp
    have hne : neighbours g.edges u ≠ [] := by
      intro e; rw [e] at h4; cases h4
    refine ⟨u, v, neighbours g.edges u, h1, h2, h3, ?_, h4⟩
    rw [buildAdjList_get, if_neg hne]
  · intro v hv hl
    rcases hok v hl with h1 | h1
    · exact absurd hv (hw.2.1 v h1)
    · exact h1
  · intro recur u vs used hget
    have h1 := hdead1 u vs hget
    exact ⟨_, dfsPathLoop_dead _ m level u used vs h1, dfsPathLoop_dead _ m level u used vs h1,
      dfsLoop_dead _ m level u used vs h1, dfsLoop_dead _ m level u used vs h1⟩

/-- The hypothesis on the keys is needed for the part on the recursive call: on
scenario 1 with the map `R0 ↦ R1`, whose key is a right vertex, the BFS gives
`R0` and `R1` a level, and the loop of `dfsPath` for `L0` does reach the
recursive call (with a recursive call that never returns, the loop does not
return); the search still returns no path. -/
theorem recursive_call_reached_with_right_key :
    bfsLevels graphScenario1 [(R 0, R 1)] =
      some [(L 0, 0), (L 1, 0), (R 1, 2), (R 0, 2)] ∧
    dfsPathLoop (fun _ _ => none) [(R 0, R 1)] [(L 0, 0), (L 1, 0), (R 1, 2), (R 0, 2)]
      (L 0) [R 0, R 1] [L 0] = none ∧
    findMultiplePaths graphScenario1 [(R 0, R 1)] = some [] := by
  decide

theorem C24_phase_paths_have_two_vertices_witness :
    WellFormed graphGeneratedB ∧ KeysLeft graphGeneratedB [(L 0, R 0)] ∧
    findMultiplePaths graphGeneratedB [(L 0, R 0)] =
      some [[L 1, R 2], [L 2, R 2], [L 3, R 2], [L 4, R 2], [L 5, R 2]] ∧
    ∃ paths level,
      findMultiplePaths graphGeneratedB [(L 0, R 0)] = some paths ∧
      bfsLevels graphGeneratedB [(L 0, R 0)] = some level ∧
      (∀ p ∈ paths, ∃ u v vs, p = [u, v] ∧ u ∈ graphGeneratedB.leftNodes ∧
        JMap.has [(L 0, R 0)] u = false ∧
        (buildAdjList graphGeneratedB.edges).get u = some vs ∧
        vs.find? (fun x => (getMatchedNodeFrom x [(L 0, R 0)]).isNone) = some v) :=
  have h := C24_phase_paths_have_two_vertices graphGeneratedB [(L 0, R 0)] (by decide)
    (by decide)
  ⟨by decide, by decide, by decide,
    h.imp (fun _ hp => hp.imp (fun _ hl => ⟨hl.1, hl.2.2.1, hl.2.2.2.2.1⟩))⟩

/-! ## The layering of the BFS stage -/

theorem JMap.has_iff_get {β : Type} (m : JMap β) (k : NodeId) :
    m.has k = true ↔ ∃ d, m.get k = some d := by
  rw [JMap.has_eq_isSome_get]
  cases m.get k <;> simp

theorem levelExt_refl (level : JMap Nat) : LevelExt level level := fun _ _ h => h

theorem levelExt_trans {a b c : JMap Nat} (h1 : LevelExt a b) (h2 : LevelExt b c) :
    LevelExt a c := fun x d h => h2 x d (h1 x d h)

theorem levelExt_has {a b : JMap Nat} (h : LevelExt a b) {x : NodeId} (hx : a.has x = true) :
    b.has x = true := by
  obtain ⟨d, hd⟩ := (JMap.has_iff_get a x).1 hx
  exact (JMap.has_iff_get b x).2 ⟨d, h x d hd⟩

theorem levelExt_set (level : JMap Nat) (k : NodeId) (val : Nat) (hk : level.has k = false) :
    LevelExt level (level.set k val) := by
  intro x d hx
  rw [JMap.get_set]
  by_cases hkx : k = x
  · subst hkx
    rw [(JMap.get_eq_none_iff level k).2 hk] at hx
    cases hx
  · rw [if_neg hkx]; exact hx

theorem get_set_self (level : JMap Nat) (k : NodeId) (val : Nat) :
    (level.set k val).get k = some val := by
  rw [JMap.get_set, if_pos rfl]

theorem get_set_cases {level : JMap Nat} {k x : NodeId} {val d : Nat}
    (h : (level.set k val).get x = some d) :
    (x = k ∧ d = val) ∨ (x ≠ k ∧ level.get x = some d) := by
  rw [JMap.get_set] at h
  by_cases hkx : k = x
  · rw [if_pos hkx] at h
    left
    exact ⟨hkx.symm, by cases h; rfl⟩
  · rw [if_neg hkx] at h
    right
    exact ⟨fun e => hkx e.symm, h⟩

theorem closedAt_ext {m : Matching} {a b : JMap Nat} (h : LevelExt a b) {x v : NodeId}
    (hc : ClosedAt m a x v) : ClosedAt m b x v := by
  refine ⟨fun hg => ?_, fun w hg => ?_⟩
  · obtain ⟨d, dx, h1, h2, h3⟩ := hc.1 hg
    exact ⟨d, dx, h v d h1, h x dx h2, h3⟩
  · obtain ⟨d, dx, h1, h2, h3⟩ := hc.2 w hg
    exact ⟨d, dx, h w d h1, h x dx h2, h3⟩

theorem adj_facts {g : Graph} {m : Matching} (hw : WellFormed g) (hv : ValidMatching g m)
    {u v : NodeId} (h : v ∈ adjOf (buildAdjList g.edges) u) :
    (⟨u, v⟩ : Edge) ∈ g.edges ∧ u ∈ g.leftNodes ∧ v ∈ g.rightNodes ∧ v ∉ g.leftNodes ∧
      m.has v = false := by
  have he := mem_adjOf_buildAdjList.1 h
  have hs := hw.2.2 _ he
  exact ⟨he, hs.1, hs.2, fun hl => hw.2.1 v hl hs.2, has_false_of_right hw hv.2.2 hs.2⟩

theorem pair_left {g : Graph} {m : Matching} (hw : WellFormed g) (hv : ValidMatching g m)
    {w v : NodeId} (h : (w, v) ∈ m) : w ∈ g.leftNodes ∧ m.has w = true ∧ v ∈ g.rightNodes := by
  have hs := pair_sides hw hv.2.2 h
  refine ⟨hs.1, ?_, hs.2⟩
  rw [JMap.has_eq_true_iff]
  exact List.mem_map.2 ⟨(w, v), h, rfl⟩

theorem altPath_end_left {g : Graph} {m : Matching} (hw : WellFormed g)
    (hv : ValidMatching g m) {p : Path} {u : NodeId} (h : AltPath g m p u) :
    u ∈ g.leftNodes := by
  cases h with
  | root _ hu _ => exact hu
  | step p u v w hp he hn hwv => exact (pair_left hw hv hwv).1

theorem altPath_end_mem {g : Graph} {m : Matching} {p : Path} {u : NodeId}
    (h : AltPath g m p u) : u ∈ p := by
  cases h with
  | root _ hu _ => simp
  | step p u v w hp he hn hwv => simp

theorem altPath_right_followed {g : Graph} {m : Matching} (hw : WellFormed g)
    (hv : ValidMatching g m) {p : Path} {u : NodeId} (h : AltPath g m p u) :
    ∀ y ∈ p, y ∈ g.leftNodes ∨ ∃ w ∈ p, (w, y) ∈ m := by
  induction h with
  | root u hu _ =>
    intro y hy
    simp only [List.mem_singleton] at hy
    left; rw [hy]; exact hu
  | step p u v w hp he hn hwv ih =>
    intro y hy
    rw [List.mem_append] at hy
    rcases hy with h1 | h1
    · rcases ih y h1 with h2 | ⟨w1, h2, h3⟩
      · exact Or.inl h2
      · exact Or.inr ⟨w1, List.mem_append_left _ h2, h3⟩
    · simp only [List.mem_cons, List.mem_singleton, List.not_mem_nil, or_false] at h1
      rcases h1 with h2 | h2
      · right
        exact ⟨w, by simp, by rw [h2]; exact hwv⟩
      · left
        rw [h2]; exact (pair_left hw hv hwv).1

theorem layerSound_set_right {g : Graph} {m : Matching} (hw : WellFormed g)
    (hv : ValidMatching g m) {level : JMap Nat} (hs : LayerSound g m level) {u v : NodeId}
    {c : Nat} (hadj : v ∈ adjOf (buildAdjList g.edges) u)
    (hg : getMatchedNodeFrom v m = none) (hul : u ∈ g.leftNodes)
    (hcur : level.get u = some c) (hnew : level.has v = false) :
    LayerSound g m (level.set v (c + 1)) := by
  have hext := levelExt_set level v (c + 1) hnew
  have hvl : v ∉ g.leftNodes := (adj_facts hw hv hadj).2.2.2.1
  refine ⟨?_, ?_, ?_⟩
  · intro x
    constructor
    · intro h
      rcases get_set_cases h with ⟨_, h2⟩ | ⟨_, h2⟩
      · omega
      · exact (hs.zero x).1 h2
    · intro h
      exact hext x 0 ((hs.zero x).2 h)
  · intro x d h hx
    rcases get_set_cases h with ⟨h1, _⟩ | ⟨_, h2⟩
    · rw [h1] at hx; exact absurd hx hvl
    · obtain ⟨p, h3, h4, h5, h6⟩ := hs.soundL x d h2 hx
      exact ⟨p, h3, h4, h5, fun y hy hyl => levelExt_has hext (h6 y hy hyl)⟩
  · intro x d h hx
    rcases get_set_cases h with ⟨h1, h2⟩ | ⟨_, h2⟩
    · rw [h1]
      exact ⟨u, c, hext u c hcur, h2, hul, hadj, hg⟩
    · obtain ⟨y, dy, h3, h4, h5, h6, h7⟩ := hs.soundR x d h2 hx
      exact ⟨y, dy, hext y dy h3, h4, h5, h6, h7⟩

theorem layerSound_set_left {g : Graph} {m : Matching} (hw : WellFormed g)
    (hv : ValidMatching g m) {level : JMap Nat} (hs : LayerSound g m level) {u v w : NodeId}
    {c : Nat} (hadj : v ∈ adjOf (buildAdjList g.edges) u)
    (hg : getMatchedNodeFrom v m = some w) (hul : u ∈ g.leftNodes)
    (hcur : level.get u = some c) (hnew : level.has w = false) :
    LayerSound g m (level.set w (c + 2)) := by
  have hext := levelExt_set level w (c + 2) hnew
  obtain ⟨he, _, hvr, hvl, hvk⟩ := adj_facts hw hv hadj
  have hwv : (w, v) ∈ m := getMatchedNodeFrom_some_mem hvk hg
  obtain ⟨hwl, hwk, _⟩ := pair_left hw hv hwv
  have hnw : ¬ level.has w = true := by rw [hnew]; simp
  refine ⟨?_, ?_, ?_⟩
  · intro x
    constructor
    · intro h
      rcases get_set_cases h with ⟨_, h2⟩ | ⟨_, h2⟩
      · omega
      · exact (hs.zero x).1 h2
    · intro h
      exact hext x 0 ((hs.zero x).2 h)
  · intro x d h hx
    rcases get_set_cases h with ⟨h1, h2⟩ | ⟨_, h2⟩
    · obtain ⟨p, h3, h4, h5, h6⟩ := hs.soundL u c hcur hul
      have hwp : w ∉ p := fun hmem => hnw (h6 w hmem hwl)
      have hvp : v ∉ p := by
        intro hmem
        rcases altPath_right_followed hw hv h3 v hmem with h7 | ⟨w1, h7, h8⟩
        · exact hvl h7
        · have := hv.2.1 (w1, v) h8 (w, v) hwv rfl
          simp only at this
          rw [this] at h7
          exact hwp h7
      have hnuv : (u, v) ∉ m := by
        intro hmem
        have := hv.2.1 (u, v) hmem (w, v) hwv rfl
        simp only at this
        rw [← this] at hnw
        exact hnw ((JMap.has_iff_get level u).2 ⟨c, hcur⟩)
      have hvw : v ≠ w := fun e => hvl (e ▸ hwl)
      subst h1
      refine ⟨p ++ [v, x], AltPath.step p u v x h3 he hnuv hwv, ?_, ?_, ?_⟩
      · rw [List.length_append, h4, h2]; rfl
      · apply List.Nodup.append h5
        · simp [hvw]
        · intro a ha hb
          simp only [List.mem_cons, List.mem_singleton, List.not_mem_nil, or_false] at hb
          rcases hb with hb | hb
          · rw [hb] at ha; exact hvp ha
          · rw [hb] at ha; exact hwp ha
      · intro y hy hyl
        rw [List.mem_append] at hy
        rcases hy with hy | hy
        · exact levelExt_has hext (h6 y hy hyl)
        · simp only [List.mem_cons, List.mem_singleton, List.not_mem_nil, or_false] at hy
          rcases hy with hy | hy
          · rw [hy] at hyl; exact absurd hyl hvl
          · rw [hy]
            exact (JMap.has_iff_get _ x).2 ⟨c + 2, get_set_self level x (c + 2)⟩
    · obtain ⟨p, h3, h4, h5, h6⟩ := hs.soundL x d h2 hx
      exact ⟨p, h3, h4, h5, fun y hy hyl => levelExt_has hext (h6 y hy hyl)⟩
  · intro x d h hx
    rcases get_set_cases h with ⟨h1, _⟩ | ⟨_, h2⟩
    · rw [h1] at hx; exact absurd hwl hx
    · obtain ⟨y, dy, h3, h4, h5, h6, h7⟩ := hs.soundR x d h2 hx
      exact ⟨y, dy, hext y dy h3, h4, h5, h6, h7⟩

theorem levelOf_of_get {level : JMap Nat} {u : NodeId} {c : Nat} (h : level.get u = some c) :
    levelOf level u = c := by
  unfold levelOf; rw [h]; rfl

theorem get_of_has_false {level : JMap Nat} {x : NodeId} {d : Nat}
    (hnew : level.has x = false) (h : level.get x = some d) : False := by
  rw [(JMap.get_eq_none_iff level x).2 hnew] at h
  cases h

theorem bfsInv_set_right {g : Graph} {m : Matching} (hw : WellFormed g)
    (hv : ValidMatching g m) {u v : NodeId} {c : Nat} {level : JMap Nat}
    {queue : List NodeId} (h : BfsInv g m u c level queue)
    (hadj : v ∈ adjOf (buildAdjList g.edges) u) (hg : getMatchedNodeFrom v m = none)
    (hnew : level.has v = false) : BfsInv g m u c (level.set v (c + 1)) queue := by
  have hext := levelExt_set level v (c + 1) hnew
  have hvl : v ∉ g.leftNodes := (adj_facts hw hv hadj).2.2.2.1
  have hold : ∀ x d, (level.set v (c + 1)).get x = some d → x ∈ g.leftNodes →
      level.get x = some d := by
    intro x d hx hxl
    rcases get_set_cases hx with ⟨h1, _⟩ | ⟨_, h2⟩
    · rw [h1] at hxl; exact absurd hxl hvl
    · exact h2
  refine ⟨layerSound_set_right hw hv h.sound hadj hg h.curLeft h.cur hnew, h.curLeft,
    hext u c h.cur, ?_, ?_, ?_, ?_, ?_, ?_⟩
  · intro x d hx hxl
    exact h.boundL x d (hold x d hx hxl) hxl
  · intro x d hx hxl
    rcases get_set_cases hx with ⟨_, h2⟩ | ⟨_, h2⟩
    · omega
    · exact h.boundR x d h2 hxl
  · intro a ha d hd
    exact h.qmin a ha d (hold a d hd (h.qsub a ha).1)
  · intro a ha
    exact ⟨(h.qsub a ha).1, levelExt_has hext (h.qsub a ha).2⟩
  · apply List.Pairwise.imp_of_mem _ h.qsorted
    intro a b ha hb hr da db hda hdb
    exact hr da db (hold a da hda (h.qsub a ha).1) (hold b db hdb (h.qsub b hb).1)
  · intro x hxl hx hxq hxu y hy
    obtain ⟨d, hd⟩ := (JMap.has_iff_get _ x).1 hx
    have hx1 : level.has x = true := (JMap.has_iff_get _ x).2 ⟨d, hold x d hd hxl⟩
    exact closedAt_ext hext (h.closed x hxl hx1 hxq hxu y hy)

theorem bfsInv_set_left {g : Graph} {m : Matching} (hw : WellFormed g)
    (hv : ValidMatching g m) {u v w : NodeId} {c : Nat} {level : JMap Nat}
    {queue : List NodeId} (h : BfsInv g m u c level queue)
    (hadj : v ∈ adjOf (buildAdjList g.edges) u) (hg : getMatchedNodeFrom v m = some w)
    (hnew : level.has w = false) :
    BfsInv g m u c (level.set w (c + 2)) (queue ++ [w]) := by
  have hext := levelExt_set level w (c + 2) hnew
  obtain ⟨_, _, _, _, hvk⟩ := adj_facts hw hv hadj
  have hwv : (w, v) ∈ m := getMatchedNodeFrom_some_mem hvk hg
  obtain ⟨hwl, _, _⟩ := pair_left hw hv hwv
  have hnw : ¬ level.has w = true := by rw [hnew]; simp
  have hold : ∀ x d, (level.set w (c + 2)).get x = some d → level.has x = true →
      level.get x = some d := by
    intro x d hx hxh
    rcases get_set_cases hx with ⟨h1, _⟩ | ⟨_, h2⟩
    · rw [h1] at hxh; exact absurd hxh hnw
    · exact h2
  refine ⟨layerSound_set_left hw hv h.sound hadj hg h.curLeft h.cur hnew, h.curLeft,
    hext u c h.cur, ?_, ?_, ?_, ?_, ?_, ?_⟩
  · intro x d hx hxl
    rcases get_set_cases hx with ⟨_, h2⟩ | ⟨_, h2⟩
    · omega
    · exact h.boundL x d h2 hxl
  · intro x d hx hxl
    rcases get_set_cases hx with ⟨h1, _⟩ | ⟨_, h2⟩
    · rw [h1] at hxl; exact absurd hwl hxl
    · exact h.boundR x d h2 hxl
  · intro a ha d hd
    rcases get_set_cases hd with ⟨_, h2⟩ | ⟨h1, h2⟩
    · omega
    · rw [List.mem_append] at ha
      rcases ha with ha | ha
      · exact h.qmin a ha d h2
      · simp only [List.mem_singleton] at ha
        exact absurd ha h1
  · intro a ha
    rw [List.mem_append] at ha
    rcases ha with ha | ha
    · exact ⟨(h.qsub a ha).1, levelExt_has hext (h.qsub a ha).2⟩
    · simp only [List.mem_singleton] at ha
      rw [ha]
      exact ⟨hwl, (JMap.has_iff_get _ w).2 ⟨c + 2, get_set_self level w (c + 2)⟩⟩
  · rw [List.pairwise_append]
    refine ⟨?_, List.pairwise_singleton _ _, ?_⟩
    · apply List.Pairwise.imp_of_mem _ h.qsorted
      intro a b ha hb hr da db hda hdb
      exact hr da db (hold a da hda (h.qsub a ha).2) (hold b db hdb (h.qsub b hb).2)
    · intro a ha b hb da db hda hdb
      simp only [List.mem_singleton] at hb
      rw [hb, get_set_self] at hdb
      have h1 := h.boundL a da (hold a da hda (h.qsub a ha).2) (h.qsub a ha).1
      cases hdb
      exact h1
  · intro x hxl hx hxq hxu y hy
    have hxq1 : x ∉ queue := fun hmem => hxq (List.mem_append_left _ hmem)
    have hxw : x ≠ w := fun e => hxq (by rw [e]; simp)
    obtain ⟨d, hd⟩ := (JMap.has_iff_get _ x).1 hx
    have hx1 : level.has x = true := by
      rcases get_set_cases hd with ⟨h1, _⟩ | ⟨_, h2⟩
      · exact absurd h1 hxw
      · exact (JMap.has_iff_get _ x).2 ⟨d, h2⟩
    exact closedAt_ext hext (h.closed x hxl hx1 hxq1 hxu y hy)

theorem bfsInv_visit {g : Graph} {m : Matching} (hw : WellFormed g)
    (hv : ValidMatching g m) {u v : NodeId} {c : Nat} (st : JMap Nat × List NodeId)
    (h : BfsInv g m u c st.1 st.2) (hadj : v ∈ adjOf (buildAdjList g.edges) u) :
    BfsInv g m u c (bfsVisit m u st v).1 (bfsVisit m u st v).2 ∧
      LevelExt st.1 (bfsVisit m u st v).1 ∧ ClosedAt m (bfsVisit m u st v).1 u v := by
  have hvl : v ∉ g.leftNodes := (adj_facts hw hv hadj).2.2.2.1
  have hvk : m.has v = false := (adj_facts hw hv hadj).2.2.2.2
  unfold bfsVisit
  rw [levelOf_of_get h.cur]
  cases hg : getMatchedNodeFrom v m with
  | none =>
    simp only
    by_cases hl : st.1.has v = true
    · simp only [hl, Bool.not_true, Bool.false_eq_true, if_false]
      refine ⟨h, levelExt_refl _, ⟨fun _ => ?_, fun w hw1 => ?_⟩⟩
      · obtain ⟨d, hd⟩ := (JMap.has_iff_get _ v).1 hl
        exact ⟨d, c, hd, h.cur, h.boundR v d hd hvl⟩
      · rw [hg] at hw1; cases hw1
    · have hl' : st.1.has v = false := by simpa using hl
      simp only [hl', Bool.not_false, if_true]
      have hext := levelExt_set st.1 v (c + 1) hl'
      refine ⟨bfsInv_set_right hw hv h hadj hg hl', hext, ⟨fun _ => ?_, fun w hw1 => ?_⟩⟩
      · exact ⟨c + 1, c, get_set_self _ _ _, hext u c h.cur, le_refl _⟩
      · rw [hg] at hw1; cases hw1
  | some w =>
    simp only
    have hwl : w ∈ g.leftNodes := (pair_left hw hv (getMatchedNodeFrom_some_mem hvk hg)).1
    by_cases hl : st.1.has w = true
    · simp only [hl, Bool.not_true, Bool.false_eq_true, if_false]
      refine ⟨h, levelExt_refl _, ⟨fun hn => ?_, fun w1 hw1 => ?_⟩⟩
      · rw [hg] at hn; cases hn
      · rw [hg] at hw1
        cases hw1
        obtain ⟨d, hd⟩ := (JMap.has_iff_get _ w).1 hl
        exact ⟨d, c, hd, h.cur, h.boundL w d hd hwl⟩
    · have hl' : st.1.has w = false := by simpa using hl
      simp only [hl', Bool.not_false, if_true]
      have hext := levelExt_set st.1 w (c + 2) hl'
      refine ⟨bfsInv_set_left hw hv h hadj hg hl', hext, ⟨fun hn => ?_, fun w1 hw1 => ?_⟩⟩
      · rw [hg] at hn; cases hn
      · rw [hg] at hw1
        cases hw1
        exact ⟨c + 2, c, get_set_self _ _ _, hext u c h.cur, le_refl _⟩

theorem bfsInv_fold {g : Graph} {m : Matching} (hw : WellFormed g)
    (hv : ValidMatching g m) {u : NodeId} {c : Nat} :
    ∀ (vs : List NodeId), (∀ v ∈ vs, v ∈ adjOf (buildAdjList g.edges) u) →
      ∀ st : JMap Nat × List NodeId, BfsInv g m u c st.1 st.2 →
        BfsInv g m u c (vs.foldl (bfsVisit m u) st).1 (vs.foldl (bfsVisit m u) st).2 ∧
        LevelExt st.1 (vs.foldl (bfsVisit m u) st).1 ∧
        ∀ v ∈ vs, ClosedAt m (vs.foldl (bfsVisit m u) st).1 u v := by
  intro vs
  induction vs with
  | nil =>
    intro _ st h
    exact ⟨h, levelExt_refl _, fun v hv1 => by cases hv1⟩
  | cons v vs ih =>
    intro hsub st h
    rw [List.foldl_cons]
    obtain ⟨h1, h2, h3⟩ := bfsInv_visit hw hv st h (hsub v (List.mem_cons_self _ _))
    obtain ⟨h4, h5, h6⟩ := ih (fun x hx => hsub x (List.mem_cons_of_mem _ hx)) _ h1
    refine ⟨h4, levelExt_trans h2 h5, ?_⟩
    intro x hx
    rcases List.mem_cons.1 hx with hx | hx
    · rw [hx]; exact closedAt_ext h5 h3
    · exact h6 x hx

theorem headInv_next {g : Graph} {m : Matching} {u : NodeId} {c : Nat} {level : JMap Nat}
    {queue : List NodeId} (h : BfsInv g m u c level queue)
    (hcl : ∀ v ∈ adjOf (buildAdjList g.edges) u, ClosedAt m level u v) :
    HeadInv g m level queue := by
  cases queue with
  | nil =>
    refine ⟨h.sound, ?_⟩
    intro x hxl hx v hv1
    by_cases hxu : x = u
    · rw [hxu] at hv1 ⊢; exact hcl v hv1
    · exact h.closed x hxl hx (by simp) hxu v hv1
  | cons u1 q =>
    obtain ⟨hu1l, hu1⟩ := h.qsub u1 (List.mem_cons_self _ _)
    obtain ⟨c1, hc1⟩ := (JMap.has_iff_get _ u1).1 hu1
    have hcc : c ≤ c1 := h.qmin u1 (List.mem_cons_self _ _) c1 hc1
    have hsorted := List.pairwise_cons.1 h.qsorted
    refine ⟨c1, h.sound, hu1l, hc1, ?_, ?_, ?_, ?_, hsorted.2, ?_⟩
    · intro x d hx hxl
      have := h.boundL x d hx hxl
      omega
    · intro x d hx hxl
      have := h.boundR x d hx hxl
      omega
    · intro a ha d hd
      exact hsorted.1 a ha c1 d hc1 hd
    · intro a ha
      exact h.qsub a (List.mem_cons_of_mem _ ha)
    · intro x hxl hx hxq hxu1 v hv1
      by_cases hxu : x = u
      · rw [hxu] at hv1 ⊢; exact hcl v hv1
      · apply h.closed x hxl hx _ hxu v hv1
        intro hmem
        rcases List.mem_cons.1 hmem with h1 | h1
        · exact hxu1 h1
        · exact hxq h1

theorem bfsLoop_layerInv {g : Graph} {m : Matching} (hw : WellFormed g)
    (hv : ValidMatching g m) :
    ∀ (fuel : Nat) (level : JMap Nat) (queue : List NodeId) (level1 : JMap Nat),
      HeadInv g m level queue →
      bfsLoop m (buildAdjList g.edges) fuel level queue = some level1 →
      LayerInv g m level1 := by
  intro fuel
  induction fuel with
  | zero =>
    intro level queue level1 hinv h
    cases queue with
    | nil =>
      simp only [bfsLoop, Option.some.injEq] at h
      rw [← h]; exact hinv
    | cons u q => simp [bfsLoop] at h
  | succ fuel ih =>
    intro level queue level1 hinv h
    cases queue with
    | nil =>
      simp only [bfsLoop, Option.some.injEq] at h
      rw [← h]; exact hinv
    | cons u q =>
      obtain ⟨c, hb⟩ := hinv
      rw [bfsLoop] at h
      cases hadj : (buildAdjList g.edges).get u with
      | none =>
        simp only [hadj] at h
        apply ih level q level1 _ h
        apply headInv_next hb
        intro v hv1
        simp [adjOf, hadj] at hv1
      | some vs =>
        simp only [hadj] at h
        have hvs : adjOf (buildAdjList g.edges) u = vs := by simp [adjOf, hadj]
        obtain ⟨h1, _, h3⟩ := bfsInv_fold hw hv vs (fun v hv1 => by rw [hvs]; exact hv1)
          (level, q) hb
        apply ih _ _ level1 _ h
        apply headInv_next h1
        intro v hv1
        rw [hvs] at hv1
        exact h3 v hv1

theorem bfsInit_foldl_eq (m : Matching) :
    ∀ (nodes : List NodeId) (st : JMap Nat × List NodeId), nodes.Nodup →
      (∀ n ∈ nodes, st.1.has n = false) →
      nodes.foldl (fun st node =>
        if !m.has node then (st.1.set node 0, st.2 ++ [node]) else st) st =
      (st.1 ++ (nodes.filter (fun n => !m.has n)).map (fun n => (n, 0)),
        st.2 ++ nodes.filter (fun n => !m.has n)) := by
  intro nodes
  induction nodes with
  | nil => intro st _ _; simp
  | cons n nodes ih =>
    intro st hnd hnew
    have hnd1 := List.nodup_cons.1 hnd
    rw [List.foldl_cons]
    by_cases hn : m.has n = true
    · simp only [hn, Bool.not_true, Bool.false_eq_true, if_false]
      rw [ih st hnd1.2 (fun x hx => hnew x (List.mem_cons_of_mem _ hx))]
      simp [List.filter_cons, hn]
    · have hn' : m.has n = false := by simpa using hn
      simp only [hn', Bool.not_false, if_true]
      rw [ih _ hnd1.2]
      · rw [JMap.set_new st.1 n 0 (hnew n (List.mem_cons_self _ _))]
        simp [List.filter_cons, hn']
      · intro x hx
        simp only
        rw [JMap.has_set, hnew x (List.mem_cons_of_mem _ hx)]
        have : n ≠ x := fun e => hnd1.1 (e ▸ hx)
        simp [this]

theorem bfsInit_eq (m : Matching) (nodes : List NodeId) (hnd : nodes.Nodup) :
    bfsInit m nodes =
      ((nodes.filter (fun n => !m.has n)).map (fun n => (n, 0)),
        nodes.filter (fun n => !m.has n)) := by
  unfold bfsInit
  rw [bfsInit_foldl_eq m nodes ([], []) hnd (fun _ _ => rfl)]
  simp

theorem get_map_zero (l : List NodeId) (x : NodeId) (d : Nat) :
    JMap.get (l.map (fun n => (n, 0))) x = some d ↔ x ∈ l ∧ d = 0 := by
  induction l with
  | nil => simp [JMap.get]
  | cons a l ih =>
    simp only [List.map_cons, JMap.get, List.mem_cons]
    by_cases hax : a = x
    · simp [hax]
      exact eq_comm
    · have : (a == x) = false := by simpa using hax
      rw [this]
      simp only [Bool.false_eq_true, if_false]
      rw [ih]
      constructor
      · rintro ⟨h1, h2⟩; exact ⟨Or.inr h1, h2⟩
      · rintro ⟨h1 | h1, h2⟩
        · exact absurd h1.symm hax
        · exact ⟨h1, h2⟩

theorem headInv_init {g : Graph} (m : Matching) (hw : WellFormed g) :
    HeadInv g m (bfsInit m g.leftNodes).1 (bfsInit m g.leftNodes).2 := by
  rw [bfsInit_eq m g.leftNodes hw.1]
  simp only
  have hseed : ∀ x, x ∈ g.leftNodes.filter (fun n => !m.has n) ↔
      x ∈ g.leftNodes ∧ m.has x = false := by
    intro x
    simp [List.mem_filter]
  have hget : ∀ x d, JMap.get ((g.leftNodes.filter (fun n => !m.has n)).map
      (fun n => (n, 0))) x = some d ↔ (x ∈ g.leftNodes ∧ m.has x = false) ∧ d = 0 := by
    intro x d
    rw [get_map_zero, hseed]
  have hsound : LayerSound g m ((g.leftNodes.filter (fun n => !m.has n)).map
      (fun n => (n, 0))) := by
    refine ⟨?_, ?_, ?_⟩
    · intro x
      rw [hget]
      simp
    · intro x d hx hxl
      obtain ⟨⟨_, h2⟩, h3⟩ := (hget x d).1 hx
      refine ⟨[x], AltPath.root x hxl h2, by rw [h3]; rfl, List.nodup_singleton x, ?_⟩
      intro y hy _
      simp only [List.mem_singleton] at hy
      rw [hy]
      exact (JMap.has_iff_get _ x).2 ⟨d, hx⟩
    · intro x d hx hxl
      exact absurd ((hget x d).1 hx).1.1 hxl
  generalize hq : g.leftNodes.filter (fun n => !m.has n) = seeds at hseed hget hsound
  cases seeds with
  | nil =>
    refine ⟨hsound, ?_⟩
    intro x _ hx
    simp [JMap.has] at hx
  | cons u q =>
    refine ⟨0, hsound, ((hseed u).1 (List.mem_cons_self _ _)).1,
      (hget u 0).2 ⟨(hseed u).1 (List.mem_cons_self _ _), rfl⟩, ?_, ?_, ?_, ?_, ?_, ?_⟩
    · intro x d hx _
      have := ((hget x d).1 hx).2
      omega
    · intro x d hx _
      have := ((hget x d).1 hx).2
      omega
    · intro a _ d _
      exact Nat.zero_le d
    · intro a ha
      have h1 := (hseed a).1 (List.mem_cons_of_mem _ ha)
      exact ⟨h1.1, (JMap.has_iff_get _ a).2 ⟨0, (hget a 0).2 ⟨h1, rfl⟩⟩⟩
    · apply List.pairwise_of_forall
      intro a b da db hda _
      have := ((hget a da).1 hda).2
      omega
    · intro x _ hx hxq hxu
      obtain ⟨d, hd⟩ := (JMap.has_iff_get _ x).1 hx
      have h1 := (hseed x).2 ((hget x d).1 hd).1
      rcases List.mem_cons.1 h1 with h2 | h2
      · exact absurd h2 hxu
      · exact absurd h2 hxq

/-- The layering computed by the BFS stage satisfies the layering invariant. -/
theorem bfsLevels_layerInv {g : Graph} {m : Matching} (hw : WellFormed g)
    (hv : ValidMatching g m) {level : JMap Nat} (h : bfsLevels g m = some level) :
    LayerInv g m level :=
  bfsLoop_layerInv hw hv _ _ _ level (headInv_init m hw) h

/-- With a closed layering, the end of an alternating path has a level, and the
level is at most the number of edges of the path. -/
theorem layerInv_altPath {g : Graph} {m : Matching} (hw : WellFormed g)
    (hv : ValidMatching g m) {level : JMap Nat} (hinv : LayerInv g m level) {p : Path}
    {w : NodeId} (h : AltPath g m p w) : ∃ d, level.get w = some d ∧ d + 1 ≤ p.length := by
  induction h with
  | root u hu hm => exact ⟨0, (hinv.sound.zero u).2 ⟨hu, hm⟩, by simp⟩
  | step p u v w hp he hn hwv ih =>
    obtain ⟨d, hd, hlen⟩ := ih
    have hul := altPath_end_left hw hv hp
    have hadj : v ∈ adjOf (buildAdjList g.edges) u := mem_adjOf_buildAdjList.2 he
    have hvk := (adj_facts hw hv hadj).2.2.2.2
    have hg := getMatchedNodeFrom_of_mem hvk hv.2.1 hwv
    obtain ⟨d1, dx, h1, h2, h3⟩ :=
      (hinv.closed u hul ((JMap.has_iff_get _ u).2 ⟨d, hd⟩) v hadj).2 w hg
    rw [hd] at h2
    cases h2
    refine ⟨d1, h1, ?_⟩
    rw [List.length_append]
    simp only [List.length_cons, List.length_nil]
    omega

/-! ## Claim on the layering of the BFS stage -/

/-- C21.  On a well-formed graph and a valid matching `m`, the BFS stage of the
phase search (of `findMultiplePaths` and of `findPathsSync`) returns a layering
`level`, the one the final loop of the search runs on, such that:
level 0 is held by exactly the unmatched left vertices; a left vertex `w` has a
level if and only if an alternating path from an unmatched left vertex ends at
`w`, and then the level `d` of `w` is the number of edges of a shortest such
path (a simple alternating path with `d` edges exists, and none has fewer);
a right vertex `v` without partner has a level if and only if it is adjacent
to a left vertex with a level, and then its level is one more than the least
level of such a left vertex. -/
theorem C21_bfs_layering (g : Graph) (m : Matching) (hw : WellFormed g)
    (hv : ValidMatching g m) :
    ∃ level, bfsLevels g m = some level ∧ bfsLevelsSync g m = some level ∧
      findMultiplePaths g m =
        (findMultiplePathsLoop m level (buildAdjList g.edges) (searchFuel m)
          g.leftNodes [] []).map (fun r => r.1) ∧
      findPathsSync g m =
        (findPathsSyncLoop m level (buildAdjList g.edges) (searchFuel m)
          g.leftNodes [] []).map (fun r => r.1) ∧
      (∀ x, level.get x = some 0 ↔ x ∈ g.leftNodes ∧ m.has x = false) ∧
      (∀ w ∈ g.leftNodes, (level.has w = true ↔ ∃ p, AltPath g m p w)) ∧
      (∀ w ∈ g.leftNodes, ∀ d, level.get w = some d →
        (∃ p, AltPath g m p w ∧ p.Nodup ∧ p.length = d + 1) ∧
        ∀ p, AltPath g m p w → d + 1 ≤ p.length) ∧
      (∀ v ∈ g.rightNodes, (∀ kv ∈ m, kv.2 ≠ v) →
        (level.has v = true ↔
          ∃ u ∈ g.leftNodes, level.has u = true ∧ (⟨u, v⟩ : Edge) ∈ g.edges) ∧
        ∀ d, level.get v = some d →
          (∃ u ∈ g.leftNodes, ∃ du, (⟨u, v⟩ : Edge) ∈ g.edges ∧ level.get u = some du ∧
            d = du + 1) ∧
          ∀ u ∈ g.leftNodes, (⟨u, v⟩ : Edge) ∈ g.edges →
            ∀ du, level.get u = some du → d ≤ du + 1) := by
  obtain ⟨level, hlevel⟩ := bfsLevels_some g m
  have hinv := bfsLevels_layerInv hw hv hlevel
  have hsync : bfsLevelsSync g m = some level := by rw [bfsLevelsSync_eq]; exact hlevel
  refine ⟨level, hlevel, hsync, ?_, ?_, hinv.sound.zero, ?_, ?_, ?_⟩
  · rw [findMultiplePaths_stages, hlevel]; rfl
  · rw [findPathsSync_stages, hsync]; rfl
  · intro w hwl
    constructor
    · intro hh
      obtain ⟨d, hd⟩ := (JMap.has_iff_get _ w).1 hh
      obtain ⟨p, hp, _⟩ := hinv.sound.soundL w d hd hwl
      exact ⟨p, hp⟩
    · rintro ⟨p, hp⟩
      obtain ⟨d, hd, _⟩ := layerInv_altPath hw hv hinv hp
      exact (JMap.has_iff_get _ w).2 ⟨d, hd⟩
  · intro w hwl d hd
    constructor
    · obtain ⟨p, hp, hlen, hnd, _⟩ := hinv.sound.soundL w d hd hwl
      exact ⟨p, hp, hnd, hlen⟩
    · intro p hp
      obtain ⟨d1, hd1, hlen⟩ := layerInv_altPath hw hv hinv hp
      rw [hd] at hd1
      cases hd1
      exact hlen
  · intro v hvr hfree
    have hvl : v ∉ g.leftNodes := fun hl => hw.2.1 v hl hvr
    have hvk : m.has v = false := has_false_of_right hw hv.2.2 hvr
    have hg : getMatchedNodeFrom v m = none := getMatchedNodeFrom_eq_none_of hvk hfree
    have hmin : ∀ u ∈ g.leftNodes, (⟨u, v⟩ : Edge) ∈ g.edges → ∀ du,
        level.get u = some du → ∃ d, level.get v = some d ∧ d ≤ du + 1 := by
      intro u hul he du hdu
      obtain ⟨d1, dx, h1, h2, h3⟩ :=
        (hinv.closed u hul ((JMap.has_iff_get _ u).2 ⟨du, hdu⟩) v
          (mem_adjOf_buildAdjList.2 he)).1 hg
      rw [hdu] at h2
      cases h2
      exact ⟨d1, h1, h3⟩
    constructor
    · constructor
      · intro hh
        obtain ⟨d, hd⟩ := (JMap.has_iff_get _ v).1 hh
        obtain ⟨y, dy, h1, _, h3, h4, _⟩ := hinv.sound.soundR v d hd hvl
        exact ⟨y, h3, (JMap.has_iff_get _ y).2 ⟨dy, h1⟩, mem_adjOf_buildAdjList.1 h4⟩
      · rintro ⟨u, hul, hu, he⟩
        obtain ⟨du, hdu⟩ := (JMap.has_iff_get _ u).1 hu
        obtain ⟨d, hd, _⟩ := hmin u hul he du hdu
        exact (JMap.has_iff_get _ v).2 ⟨d, hd⟩
    · intro d hd
      constructor
      · obtain ⟨y, dy, h1, h2, h3, h4, _⟩ := hinv.sound.soundR v d hd hvl
        exact ⟨y, h3, dy, mem_adjOf_buildAdjList.1 h4, h1, h2⟩
      · intro u hul he du hdu
        obtain ⟨d1, hd1, hle⟩ := hmin u hul he du hdu
        rw [hd] at hd1
        cases hd1
        exact hle

theorem C21_bfs_layering_witness :
    WellFormed graphScenario1 ∧ ValidMatching graphScenario1 [(L 0, R 0)] ∧
    bfsLevels graphScenario1 [(L 0, R 0)] = some [(L 1, 0), (L 0, 2), (R 1, 3)] ∧
    ∃ level, bfsLevels graphScenario1 [(L 0, R 0)] = some level ∧
      (∀ x, level.get x = some 0 ↔
        x ∈ graphScenario1.leftNodes ∧ JMap.has [(L 0, R 0)] x = false) ∧
      (∀ w ∈ graphScenario1.leftNodes,
        (level.has w = true ↔ ∃ p, AltPath graphScenario1 [(L 0, R 0)] p w)) :=
  have h := C21_bfs_layering graphScenario1 [(L 0, R 0)] (by decide) (by decide)
  ⟨by decide, by decide, by decide,
    h.imp (fun _ hl => ⟨hl.1, hl.2.2.2.2.1, hl.2.2.2.2.2.1⟩)⟩

/-! ## The step entry point returns on every state -/

theorem executeStepThrown_of_none (g : Graph) (c : Controller) (h : executeStep g c = none) :
    ∃ c1, executeStepThrown c = some c1 := by
  obtain ⟨r, sm, ss, m⟩ := c
  cases ss with
  | none => exact ⟨_, rfl⟩
  | some st =>
    obtain ⟨ph, it, mm, paths, i, sub⟩ := st
    cases ph with
    | init => simp [executeStep] at h
    | bfs =>
      obtain ⟨ps, hps⟩ := findPathsSync_some g m
      unfold executeStep at h
      simp only [hps] at h
      split at h <;> cases h
    | complete => simp [executeStep] at h
    | dfs =>
      cases sub with
      | find => simp [executeStep] at h
      | apply =>
        unfold executeStep at h
        simp only at h
        split at h <;> cases h
      | highlight =>
        cases hg : paths.get? i with
        | none =>
          unfold executeStepThrown
          simp only [hg]
          exact ⟨_, rfl⟩
        | some p =>
          unfold executeStep at h
          simp only at h
          rw [hg] at h
          cases h

/-- A call of `stepAlgorithm()` returns on every graph and every state of the
controller; with `stepState` still `null` it leaves the variables as they
are, and with a highlighted index outside the stored list it only sets
`pathSubStep`. -/
theorem stepAlgorithm_returns (g : Graph) (c : Controller) :
    ∃ c1, stepAlgorithm g c = some c1 := by
  unfold stepAlgorithm
  by_cases h1 : (c.running && !c.stepMode) = true
  · exact ⟨_, by rw [if_pos h1]⟩
  · rw [if_neg h1]
    by_cases h2 : (!c.stepMode) = true
    · exact ⟨_, by rw [if_pos h2]⟩
    · rw [if_neg h2]
      cases he : executeStep g c with
      | some c1 => exact ⟨c1, rfl⟩
      | none => exact executeStepThrown_of_none g c he

theorem stepAlgorithm_on_thrown_states (g : Graph) :
    executeStep g controllerNoState = none ∧
    stepAlgorithm g controllerNoState = some controllerNoState ∧
    executeStep g controllerBadIndex = none ∧
    stepAlgorithm g controllerBadIndex =
      some ⟨false, true, some ⟨Phase.dfs, 1, 0, [], 0, SubStep.apply⟩, []⟩ :=
  ⟨rfl, rfl, rfl, rfl⟩

/-! ## Claim on scenario 1 -/

theorem scenario1_phase_map_holds_one_pair (m1 : Matching)
    (hv : ValidMatching graphScenario1 m1)
    (hsub : ∀ kv ∈ m1, kv ∈ [(L 0, R 0), (L 1, R 0)]) : m1.length ≤ 1 := by
  have hval : ∀ kv ∈ m1, kv.2 = R 0 := by
    intro kv hkv
    have := hsub kv hkv
    simp only [List.mem_cons, List.mem_singleton, List.not_mem_nil, or_false] at this
    rcases this with h | h <;> rw [h]
  cases m1 with
  | nil => simp
  | cons a rest =>
    cases rest with
    | nil => simp
    | cons b rest =>
      exfalso
      have ha : a ∈ a :: b :: rest := List.mem_cons_self _ _
      have hb : b ∈ a :: b :: rest := List.mem_cons_of_mem _ (List.mem_cons_self _ _)
      have hkeys := hv.2.1 a ha b hb (by rw [hval a ha, hval b hb])
      have hnd := hv.1
      simp only [List.map_cons, List.nodup_cons, List.mem_cons, not_or] at hnd
      exact hnd.1.1 hkeys

/-- C19 (code defect).  On scenario 1 (`L0–R0`, `L0–R1`, `L1–R0`) the naive and
Ford-Fulkerson loops and steppers, run to completion from the empty matching,
end with the matching `L0 ↦ R1, L1 ↦ R0`, a valid matching of size 2.  The
phase loop, its stepper and the step controller end with the map
`L0 ↦ R0, L1 ↦ R0`: it has two keys, but both left vertices share `R0`, so it
is not a matching, and no valid matching made of its pairs has more than one
pair. -/
theorem C19_phase_strategy_ends_without_matching_of_size_two :
    WellFormed graphScenario1 ∧
    benchmarkNaiveGreedyLoop graphScenario1 (loopFuel graphScenario1) 0 [] =
      some ⟨true, 3, [(L 0, R 1), (L 1, R 0)]⟩ ∧
    benchmarkFordFulkerson graphScenario1 = some 3 ∧
    iterateStep (stepNaiveGreedy graphScenario1) 3 RaceState.initial =
      some ⟨[(L 0, R 1), (L 1, R 0)], 3, true⟩ ∧
    iterateStep (stepFordFulkerson graphScenario1) 3 RaceState.initial =
      some ⟨[(L 0, R 1), (L 1, R 0)], 3, true⟩ ∧
    ValidMatching graphScenario1 [(L 0, R 1), (L 1, R 0)] ∧
    [(L 0, R 1), (L 1, R 0)].length = 2 ∧
    benchmarkHopcroftKarpLoop graphScenario1 (loopFuel graphScenario1) 0 [] =
      some ⟨true, 2, [(L 0, R 0), (L 1, R 0)]⟩ ∧
    iterateStep (stepHopcroftKarp graphScenario1) 2 RaceState.initial =
      some ⟨[(L 0, R 0), (L 1, R 0)], 2, true⟩ ∧
    iterateStep (executeStep graphScenario1) 7 Controller.initial =
      some ⟨false, false, some ⟨Phase.complete, 2, 2, [], 0, SubStep.apply⟩,
        [(L 0, R 0), (L 1, R 0)]⟩ ∧
    ¬ Injective [(L 0, R 0), (L 1, R 0)] ∧
    ¬ ValidMatching graphScenario1 [(L 0, R 0), (L 1, R 0)] ∧
    ∀ m1 : Matching, ValidMatching graphScenario1 m1 →
      (∀ kv ∈ m1, kv ∈ [(L 0, R 0), (L 1, R 0)]) → m1.length ≤ 1 := by
  refine ⟨by decide, by decide, by decide, by decide, by decide, by decide, rfl, by decide,
    by decide, by decide, by decide, by decide, ?_⟩
  intro m1 hv hsub
  exact scenario1_phase_map_holds_one_pair m1 hv hsub

end HopcroftKarp
